import Mathlib

/-!
# The in-memory registry table of `app/registry/memory`

A shallow embedding of `memory.go`, `util.go` and `watcher.go` (namespace
`memory`), of the registration routine, the heartbeat tick and the loop of
the connection handler of `app/server/rpc/rpc_server.go` (namespace `rpc`), of
the random selector of `selector/random.go` (namespace `selector`) and of the
list functions of `util/registry/util.go` (namespace `utilregistry`):

* Go maps with string keys are finite association maps (`GoMap`); the order of
  their entries stands for one of the iteration orders Go may choose, and every
  statement about a result that is built by iterating a map is made up to
  permutation or as a statement about membership.
* Pointers are values: a record reached through the table is the record of the
  table.  The table never shares a record between two keys, so the in-place
  updates of the source are updates of the map entry.
* `time.Time` and `time.Duration` are integers counting nanoseconds; one call of
  `Add` or one sweep of the pruner reads the clock as a single instant `now`.
* `go m.sendEvent(...)` is recorded as an emitted event, in program order; the
  goroutine runs after the call that started it has returned, and what it does
  to the table (it deletes the stopped watchers) is the function `sendEvent`.
* A channel that carries no value is the flag "closed"; the events waiting on
  the channel of a watcher are a list, oldest first; a call that blocks for
  ever has no result.
* The goroutines the connection handler starts are recorded, in program order,
  and not run.
-/

namespace memory

/-! ## Go maps -/

/-- Go `map[string]V`. A nil map and an empty map read alike and are both `∅`. -/
abbrev GoMap (V : Type) := AList (fun _ : String => V)

/-- Equality of maps is decided on their entries. -/
instance (priority := 2000) GoMap.instDecEq {V : Type} [DecidableEq V] : DecidableEq (GoMap V) :=
  fun a b => decidable_of_iff (a.entries = b.entries) ⟨AList.ext, fun h => congrArg _ h⟩

/-- Go `len(m)`. -/
def GoMap.len {V : Type} (m : GoMap V) : Nat := m.entries.length

/-- The values of the map in iteration order (`for _, v := range m`). -/
def GoMap.values {V : Type} (m : GoMap V) : List V := m.entries.map (fun e => e.2)

/-- The map with `f` applied to every value, keys unchanged. -/
def GoMap.mapVal {V W : Type} (f : V → W) (m : GoMap V) : GoMap W :=
  ⟨m.entries.map (fun e => ⟨e.1, f e.2⟩), by
    have h := m.nodupKeys
    unfold List.NodupKeys at h ⊢
    have hk : (m.entries.map (fun e => (⟨e.1, f e.2⟩ : Sigma (fun _ : String => W)))).keys
        = m.entries.keys := by
      simp [List.keys, List.map_map, Function.comp_def]
    rw [hk]; exact h⟩

/-- The map without the entries whose value fails `p`
(`for k, v := range m \x7b if !p(v) \x7b delete(m, k) \x7d \x7d`). -/
def GoMap.filterVal {V : Type} (p : V → Bool) (m : GoMap V) : GoMap V :=
  ⟨m.entries.filter (fun e => p e.2), m.nodupKeys.sublist (List.filter_sublist _)⟩

/-! ## The types of package `registry` -/

/-- Modelled from the spec: `registry.Value`, the request or response schema of
an endpoint, is declared outside the given sources; only its zero value and its
copy are used by `recordToApp`. -/
structure Value where
  Name : String
  Kind : String
deriving DecidableEq, Inhabited

/-- Modelled from the spec: `registry.Endpoint` is declared outside the given
sources; "Endpoint: name, request schema, response schema, metadata". A nil
`Request` or `Response` pointer is `none`. -/
structure Endpoint where
  Name : String
  Request : Option Value
  Response : Option Value
  Metadata : GoMap String
deriving DecidableEq

/-- Modelled from the spec: `registry.Instance` is declared outside the given
sources; "Instance: id, address, metadata". -/
structure Instance where
  Id : String
  Address : String
  Metadata : GoMap String
deriving DecidableEq

/-- Modelled from the spec: `registry.App` is declared outside the given
sources; "App: name, version, metadata, instances: ordered list of Instance,
endpoints: ordered list of Endpoint". -/
structure App where
  Name : String
  Version : String
  Metadata : GoMap String
  Instances : List Instance
  Endpoints : List Endpoint
deriving DecidableEq

/-- Modelled from the spec: `registry.Result`, the event handed to `sendEvent`:
an action (`create`, `update`, `delete`) and the app it is about. -/
structure Result where
  Action : String
  App : App
deriving DecidableEq

/-- Modelled from the spec: the errors of package `registry`; the table only
ever returns `ErrNotFound` ("NotFound (table lookup miss)"). -/
inductive RegistryError where
  | ErrNotFound
deriving DecidableEq

/-- Modelled from the spec: `registry.WildcardDomain`, "the literal `*` is the
wildcard matching all domains". -/
def WildcardDomain : String := "*"

/-- The options of `Add` after every `AddOption` was applied. -/
structure AddOptions where
  TTL : Int
  Domain : String
deriving DecidableEq

/-- The options of `Remove` after every `RemoveOption` was applied. -/
structure RemoveOptions where
  Domain : String
deriving DecidableEq

/-- The options of `Get` after every `GetOption` was applied. -/
structure GetOptions where
  Domain : String
deriving DecidableEq

/-- The options of `List` after every `ListOption` was applied. -/
structure ListOptions where
  Domain : String
deriving DecidableEq

/-- The options of `Watch` after every `WatchOption` was applied. -/
structure WatchOptions where
  App : String
  Domain : String
deriving DecidableEq

/-! ## The types of package `memory` -/

/-- The struct `node` of memory.go: an instance with its TTL and the time it was
last seen. -/
structure node where
  Instance : Instance
  TTL : Int
  LastSeen : Int
deriving DecidableEq

/-- The struct `record` of memory.go. -/
structure record where
  Name : String
  Version : String
  Metadata : GoMap String
  Instances : GoMap node
  Endpoints : List Endpoint
deriving DecidableEq

/-- The type `services` of memory.go: app name to (version to record). -/
abbrev services := GoMap (GoMap record)

/-- The struct `Watcher` of watcher.go; `exit` is true once the exit channel is
closed. -/
structure Watcher where
  id : String
  wo : WatchOptions
  exit : Bool
deriving DecidableEq

/-- The struct `Table` of memory.go: `records` maps a domain to its services. -/
structure Table where
  records : GoMap services
  watchers : GoMap Watcher
deriving DecidableEq

/-- What a call of `Add` or `Remove` leaves behind when it returns: the table,
the events for which it started `go m.sendEvent(...)`, in program order, and
the returned error. The goroutines run once the call has released the lock;
what one of them does to the table is `sendEvent`, and the table after all of
them is `Effect.settled`. -/
structure Effect where
  table : Table
  events : List Result
  err : Option RegistryError
deriving DecidableEq

/-! ## util.go -/

/-- The function `serviceToRecord` of util.go; `now` is the reading of
`time.Now()`. -/
def serviceToRecord (s : App) (ttl : Int) (now : Int) : record :=
  { Name := s.Name
    Version := s.Version
    Metadata := s.Metadata
    Instances := s.Instances.foldl (fun nodes n => nodes.insert n.Id ⟨n, ttl, now⟩) ∅
    Endpoints := s.Endpoints }

/-- The function `recordToApp` of util.go. -/
def recordToApp (r : record) (domain : String) : App :=
  { Name := r.Name
    Version := r.Version
    Metadata := r.Metadata.insert "domain" domain
    Endpoints := r.Endpoints.map (fun e =>
      { Name := e.Name
        Request := some (e.Request.getD default)
        Response := some (e.Response.getD default)
        Metadata := e.Metadata })
    Instances := r.Instances.values.map (fun n =>
      { Id := n.Instance.Id
        Address := n.Instance.Address
        Metadata := n.Instance.Metadata }) }

/-! ## memory.go -/

/-- The statement "domain is set in metadata so it can be passed to watchers"
of `Add` and `Remove`: `s.Metadata["domain"] = domain`, on a nil map as well. -/
def App.withDomain (s : App) (domain : String) : App :=
  { s with Metadata := s.Metadata.insert "domain" domain }

/-- The fallback "if len(options.Domain) == 0 then registry.DefaultDomain" that
opens `Add`, `Remove`, `Get` and `List`. The constant `registry.DefaultDomain`
is declared outside the given sources and is a parameter of the model. -/
def resolveDomain (DefaultDomain : String) (domain : String) : String :=
  if domain.length = 0 then DefaultDomain else domain

/-- The empty table `NewTable()` returns when no apps are preloaded. -/
def NewTable (DefaultDomain : String) : Table :=
  { records := AList.insert DefaultDomain ∅ ∅, watchers := ∅ }

/-- The body of the first loop over `s.Instances` in `Add`: an instance whose id
is already in the record is skipped; a new one is inserted with a copy of its
metadata that carries the domain, and `addedInstances` is set. -/
def addInstance (domain : String) (ttl now : Int) (acc : GoMap node × Bool) (n : Instance) :
    GoMap node × Bool :=
  if (acc.1.lookup n.Id).isSome then acc
  else (acc.1.insert n.Id
          ⟨{ Id := n.Id, Address := n.Address, Metadata := n.Metadata.insert "domain" domain },
           ttl, now⟩, true)

/-- The first loop over `s.Instances` in `Add`; the flag is `addedInstances`. -/
def addInstances (domain : String) (ttl now : Int) (incoming : List Instance)
    (start : GoMap node) : GoMap node × Bool :=
  incoming.foldl (addInstance domain ttl now) (start, false)

/-- The body of the second loop over `s.Instances` in `Add` ("refresh TTL and
timestamp"). The loop runs on the map the first loop leaves, which holds every
incoming id (`addInstances_covers`), and it keeps the keys of the map
(`refreshInstance_mem`); the `none` branch stands for the nil dereference the
source would make on a missing id and is never reached from `Add`. -/
def refreshInstance (ttl now : Int) (nodes : GoMap node) (n : Instance) : GoMap node :=
  match nodes.lookup n.Id with
  | some nd => nodes.insert n.Id { nd with TTL := ttl, LastSeen := now }
  | none => nodes

/-- The second loop over `s.Instances` in `Add`. -/
def refreshInstances (ttl now : Int) (incoming : List Instance) (start : GoMap node) :
    GoMap node :=
  incoming.foldl (refreshInstance ttl now) start

/-- The part of `Add` that works on the versions of the app, from "ensure the
service name exists" to the end of the refresh loop: the record left under
`s.Version` and the events emitted. `s` already carries the domain in its
metadata and `versions` is `srvs[s.Name]` (empty when it was just made). -/
def addRecord (domain : String) (s : App) (ttl now : Int) (versions : GoMap record) :
    record × List Result :=
  let r := serviceToRecord s ttl now
  -- the record of this version: the stored one, or `r` with a create event
  let rec0 : record := (versions.lookup s.Version).getD r
  let created : List Result :=
    if (versions.lookup s.Version).isSome then [] else [⟨"create", s⟩]
  let added := addInstances domain ttl now s.Instances rec0.Instances
  let nodes : GoMap node :=
    if added.2 then added.1 else refreshInstances ttl now s.Instances added.1
  let updated : List Result := if added.2 then [⟨"update", s⟩] else []
  ({ rec0 with Instances := nodes }, created ++ updated)

/-- The method `Table.Add` of memory.go, up to its return; the goroutines
`go m.sendEvent(...)` it starts are the `events` of the result. -/
def Table.Add (DefaultDomain : String) (m : Table) (s : App) (options : AddOptions)
    (now : Int) : Effect :=
  let domain := resolveDomain DefaultDomain options.Domain
  -- get the services for this domain from the registry
  let srvs : services := (m.records.lookup domain).getD ∅
  -- domain is set in metadata so it can be passed to watchers
  let s : App := s.withDomain domain
  -- ensure the service name exists
  let versions : GoMap record := (srvs.lookup s.Name).getD ∅
  let out := addRecord domain s options.TTL now versions
  let srvs := srvs.insert s.Name (versions.insert s.Version out.1)
  { table := { m with records := m.records.insert domain srvs }
    events := out.2
    err := none }

/-- The body of the loop "deregister all of the service nodes from this
version" of `Remove`. -/
def removeInstance (nodes : GoMap node) (n : Instance) : GoMap node :=
  if (nodes.lookup n.Id).isSome then nodes.erase n.Id else nodes

/-- The loop "deregister all of the service nodes from this version" of
`Remove`. -/
def removeInstances (incoming : List Instance) (start : GoMap node) : GoMap node :=
  incoming.foldl removeInstance start

/-- The method `Table.Remove` of memory.go, up to its return; the goroutines
`go m.sendEvent(...)` it starts are the `events` of the result. -/
def Table.Remove (DefaultDomain : String) (m : Table) (s : App) (options : RemoveOptions) :
    Effect :=
  let domain := resolveDomain DefaultDomain options.Domain
  -- domain is set in metadata so it can be passed to watchers
  let s : App := s.withDomain domain
  -- if the domain doesn't exist, there is nothing to deregister
  match m.records.lookup domain with
  | none => ⟨m, [], none⟩
  | some srvs =>
    -- if no services with this name and version exist, there is nothing to deregister
    match srvs.lookup s.Name with
    | none => ⟨m, [], none⟩
    | some versions =>
      match versions.lookup s.Version with
      | none => ⟨m, [], none⟩
      | some version =>
        let nodes := removeInstances s.Instances version.Instances
        if nodes.len > 0 then
          let version : record := { version with Instances := nodes }
          ⟨{ m with records :=
                (m.records.insert domain (srvs.insert s.Name (versions.insert s.Version version))) },
            [⟨"update", s⟩], none⟩
        else if versions.len = 1 then
          ⟨{ m with records := m.records.insert domain (srvs.erase s.Name) },
            [⟨"delete", s⟩], none⟩
        else
          ⟨{ m with records :=
                (m.records.insert domain (srvs.insert s.Name (versions.erase s.Version))) },
            [⟨"delete", s⟩], none⟩

/-! ## Reading a table -/

/-- The versions of app `name` stored in `domain` (version to record); empty when
the domain or the name is not stored. -/
def Table.versionsOf (m : Table) (domain name : String) : GoMap record :=
  ((m.records.lookup domain).bind (fun srvs => srvs.lookup name)).getD ∅

/-- The record stored under (domain, name, version), if any. -/
def Table.recordAt (m : Table) (domain name version : String) : Option record :=
  (m.versionsOf domain name).lookup version

/-- The node stored under (domain, name, version, id), if any. -/
def Table.nodeAt (m : Table) (domain name version id : String) : Option node :=
  (m.recordAt domain name version).bind (fun r => r.Instances.lookup id)

/-- The instance ids registered for (domain, name, version); none when the
record is not stored. -/
def Table.idsAt (m : Table) (domain name version : String) : List String :=
  match m.recordAt domain name version with
  | some r => r.Instances.keys
  | none => []

/-- Every record stored in `domain`, over all names and versions. -/
def Table.recordsIn (m : Table) (domain : String) : List record :=
  ((m.records.lookup domain).getD ∅).values.flatMap (fun versions => versions.values)

/-- The instance ids an app lists. -/
def App.ids (s : App) : List String := s.Instances.map (fun n => n.Id)

/-- Every node of the map is stored under its own id. -/
def NodesKeyed (nodes : GoMap node) : Prop :=
  ∀ i nd, nodes.lookup i = some nd → nd.Instance.Id = i

/-- Every record is stored under its own name and version, and every node under
its own id: the keys of the inner maps are the `Name`, the `Version` and the
`Id` of what they lead to. `Add` stores `serviceToRecord(s)` under `s.Name` and
`s.Version` and a node of `n` under `n.Id`, and nothing else stores a record or
a node, so every table the program builds satisfies it (`NewTable_KeysMatch`,
`Add_KeysMatch`, `Remove_KeysMatch`, `ttlPrune_KeysMatch`). -/
def Table.KeysMatch (m : Table) : Prop :=
  ∀ d n v r, m.recordAt d n v = some r → r.Name = n ∧ r.Version = v ∧ NodesKeyed r.Instances

/-! ## memory.go, continued -/

/-- The loop of the wildcard branch of `Get`: `call d` is the recursive
`m.Get(name, append(opts, registry.GetDomain(d))...)`, `none` when that call
does not return. The option `registry.GetDomain(d)` is declared outside the
given sources; applied last, it sets `options.Domain` to `d`. -/
def getLoop (call : String → Option (List App × Option RegistryError)) :
    List String → List App → Option (List App × Option RegistryError)
  | [], acc =>
    if acc.length = 0 then some ([], some RegistryError.ErrNotFound) else some (acc, none)
  | domain :: rest, acc =>
    match call domain with
    | none => none
    | some (srvs, err) =>
      if err = some RegistryError.ErrNotFound then getLoop call rest acc
      else if err ≠ none then some ([], err)
      else getLoop call rest (acc ++ srvs)

/-- The method `Table.Get` of memory.go. The source is recursive (the wildcard
branch calls `Get` once per stored domain); `fuel` bounds the depth of the
recursion and the result is `none` when the fuel runs out. -/
def Table.Get (DefaultDomain : String) :
    Nat → Table → String → GetOptions → Option (List App × Option RegistryError)
  | 0, _, _, _ => none
  | fuel + 1, m, name, options =>
    let domain := resolveDomain DefaultDomain options.Domain
    -- if it's a wildcard domain, return from all domains
    if domain = WildcardDomain then
      getLoop (fun d => Table.Get DefaultDomain fuel m name { options with Domain := d })
        m.records.keys []
    else
      -- check the domain exists
      match m.records.lookup domain with
      | none => some ([], some RegistryError.ErrNotFound)
      | some srvs =>
        -- check the service exists
        match srvs.lookup name with
        | none => some ([], some RegistryError.ErrNotFound)
        | some versions =>
          if versions.len = 0 then some ([], some RegistryError.ErrNotFound)
          else some (versions.values.map (fun r => recordToApp r domain), none)

/-- The loop of the wildcard branch of `List`: `call d` is the recursive
`m.List(append(opts, registry.ListDomain(d))...)`. -/
def listLoop (call : String → Option (List App × Option RegistryError)) :
    List String → List App → Option (List App × Option RegistryError)
  | [], acc => some (acc, none)
  | domain :: rest, acc =>
    match call domain with
    | none => none
    | some (srvs, err) =>
      if err ≠ none then some ([], err)
      else listLoop call rest (acc ++ srvs)

/-- The method `Table.List` of memory.go, with fuel as for `Table.Get`. In the
concrete branch the source ranges over the services of the domain and names the
key `domain`: it is the app name that is handed to `recordToApp`. -/
def Table.List (DefaultDomain : String) :
    Nat → Table → ListOptions → Option (List App × Option RegistryError)
  | 0, _, _ => none
  | fuel + 1, m, options =>
    let domain := resolveDomain DefaultDomain options.Domain
    -- if it's a wildcard domain, list from all domains
    if domain = WildcardDomain then
      listLoop (fun d => Table.List DefaultDomain fuel m { options with Domain := d })
        m.records.keys []
    else
      -- ensure the domain exists
      match m.records.lookup domain with
      | none => some ([], none)
      | some srvs =>
        some (srvs.entries.flatMap (fun service =>
                service.2.values.map (fun version => recordToApp version service.1)), none)

/-- The Apps of a call of `Get` that returned without error; none for a call
that returned an error or did not return. -/
def successful (r : Option (List App × Option RegistryError)) : List App :=
  match r with
  | some (apps, none) => apps
  | _ => []

/-- The saturation bounds of `time.Duration` (an int64 of nanoseconds). -/
def maxDuration : Int := 2 ^ 63 - 1

/-- The least `time.Duration`. -/
def minDuration : Int := -(2 ^ 63)

/-- Go `time.Since(t)` read at the instant `now`: the difference `now - t`,
saturated to the range of `time.Duration`. -/
def timeSince (now t : Int) : Int :=
  if now - t > maxDuration then maxDuration
  else if now - t < minDuration then minDuration
  else now - t

/-- The test of the pruner: `n.TTL != 0 && time.Since(n.LastSeen) > n.TTL`. -/
def expired (now : Int) (n : node) : Bool :=
  n.TTL ≠ 0 && timeSince now n.LastSeen > n.TTL

/-- What one sweep of the pruner does to a record: every expired node is
deleted from `record.Instances`. -/
def pruneRecord (now : Int) (r : record) : record :=
  { r with Instances := r.Instances.filterVal (fun n => !expired now n) }

/-- One sweep of `Table.ttlPrune` (the body of `case <-prune.C`), the clock
reading `now`: the four nested loops visit every node of every record of every
app of every domain. -/
def Table.ttlPrune (m : Table) (now : Int) : Table :=
  { m with records :=
      m.records.mapVal (fun srvs =>
        srvs.mapVal (fun versions => versions.mapVal (pruneRecord now))) }

/-! ## Concrete apps and tables, default domain "micro" -/

/-- The app foo 1.0.0 with the one instance `a`. -/
def fooA : App := ⟨"foo", "1.0.0", ∅, [⟨"a", "l:1", ∅⟩], []⟩

/-- The app foo 1.0.1 with the one instance `b`. -/
def fooB : App := ⟨"foo", "1.0.1", ∅, [⟨"b", "l:2", ∅⟩], []⟩

/-- The app foo 1.0.0 with the instances `a` and `c`. -/
def fooAC : App := ⟨"foo", "1.0.0", ∅, [⟨"a", "l:1", ∅⟩, ⟨"c", "l:3", ∅⟩], []⟩

/-- The fresh table after `Add(fooA)` at time 0, no TTL, default domain. -/
def tableA : Table := (Table.Add "micro" (NewTable "micro") fooA ⟨0, ""⟩ 0).table

/-- The record `Add(fooA)` stores in the default domain "micro". -/
def recA : record :=
  ⟨"foo", "1.0.0", AList.insert "domain" "micro" ∅,
   AList.insert "a" ⟨⟨"a", "l:1", ∅⟩, 0, 0⟩ ∅, []⟩

/-- The record of foo 1.0.0 after `Add(fooA)` and then `Add(fooAC)`. -/
def recAC : record :=
  ⟨"foo", "1.0.0", AList.insert "domain" "micro" ∅,
   AList.insert "c" ⟨⟨"c", "l:3", AList.insert "domain" "micro" ∅⟩, 0, 0⟩
     (AList.insert "a" ⟨⟨"a", "l:1", ∅⟩, 0, 0⟩ ∅), []⟩

/-- The fresh table after `Add(fooA)` at time 0 with the TTL -1. -/
def tableNeg : Table := (Table.Add "micro" (NewTable "micro") fooA ⟨-1, ""⟩ 0).table

/-- The fresh table after `Add(fooAC)` at time 0 with the TTL 5. -/
def tableTTL : Table := (Table.Add "micro" (NewTable "micro") fooAC ⟨5, ""⟩ 0).table

/-- The table after `Add(fooA, domain "*")` and `Remove(fooA, domain "*")` on a
fresh table: the domain key "*" is stored and holds no record. -/
def tableStar : Table :=
  (Table.Remove "micro" (Table.Add "micro" (NewTable "micro") fooA ⟨0, "*"⟩ 0).table
    fooA ⟨"*"⟩).table

/-- The fresh table with default domain `DD` after `Add(s)` into the domains
`D1` and `D2`. -/
def tableTwoDomains (DD : String) (s : App) (D1 D2 : String) : Table :=
  (Table.Add DD (Table.Add DD (NewTable DD) s ⟨0, D1⟩ 0).table s ⟨0, D2⟩ 0).table

/-- The versions of foo in `tableA`. -/
def versionsA : GoMap record := AList.insert "1.0.0" recA ∅

/-- The services of the default domain in `tableA`. -/
def servicesA : services := AList.insert "foo" versionsA ∅

/-! ## Reachable tables -/

/-- A call that changes the records of the table: `Add`, `Remove`, or one sweep
of the pruner, with its arguments and the reading of the clock. -/
inductive Op where
  | add (s : App) (options : AddOptions) (now : Int)
  | remove (s : App) (options : RemoveOptions)
  | prune (now : Int)

/-- The table after one call. -/
def applyOp (DefaultDomain : String) (m : Table) : Op → Table
  | Op.add s options now => (Table.Add DefaultDomain m s options now).table
  | Op.remove s options => (Table.Remove DefaultDomain m s options).table
  | Op.prune now => m.ttlPrune now

/-- The table reached from the empty table of `NewTable()` by a sequence of
calls, first call first. -/
def reach (DefaultDomain : String) (ops : List Op) : Table :=
  ops.foldl (applyOp DefaultDomain) (NewTable DefaultDomain)

/-- The app foo 1.0.0 with no instance, as in `TestMemoryWildcard`. -/
def fooNone : App := ⟨"foo", "1.0.0", ∅, [], []⟩

/-! ## watcher.go -/

/-- Modelled from the spec: `registry.GlobalDomain` is declared outside the
given sources; "global-domain sentinel (an internal alias accepted by watchers
to mean all domains)", and a watcher with the filter domain "*" receives the
events of every domain. `TestWatcher` watches `registry.WildcardDomain` and
expects an event without metadata to be returned. -/
def GlobalDomain : String := WildcardDomain

/-- A `*registry.Result` as it arrives on the channel `res`: unlike the events
`Add` and `Remove` hand to `sendEvent`, its `App` may be nil. -/
structure Received where
  Action : String
  App : Option App
deriving DecidableEq

/-- The event `sendEvent` puts on `res`: the App of an event of the table is
never nil. -/
def Result.received (r : Result) : Received := ⟨r.Action, some r.App⟩

/-- What a call of `Next` returns, `(*registry.Result, error)`, and the events
still waiting on `res` after it. -/
structure NextReturn where
  result : Option Received
  err : Option String
  pending : List Received
deriving DecidableEq

/-- The method `Watcher.Next` of watcher.go, run on the events `pending` that
wait on the channel `res`, oldest first. The channel `exit` carries no value,
so a receive on it is ready exactly when it is closed. With no event waiting
and `exit` open the `select` blocks: the result is `none`. With an event
waiting and `exit` closed both cases are ready and Go picks one of them;
`takeExit k` tells whether the `select` of round `k` of the loop picks
`case <-m.exit`. -/
def Watcher.Next (DefaultDomain : String) (w : Watcher) (takeExit : Nat → Bool) :
    Nat → List Received → Option NextReturn
  | _, [] => if w.exit then some ⟨none, some "watcher stopped", []⟩ else none
  | k, r :: rest =>
    if w.exit && takeExit k then some ⟨none, some "watcher stopped", r :: rest⟩
    else
      match r.App with
      | none => Watcher.Next DefaultDomain w takeExit (k + 1) rest
      | some app =>
        if w.wo.App.length > 0 && w.wo.App ≠ app.Name then
          Watcher.Next DefaultDomain w takeExit (k + 1) rest
        else
          -- extract domain from service metadata
          let domain :=
            if ((app.Metadata.lookup "domain").getD "").length > 0 then
              (app.Metadata.lookup "domain").getD ""
            else DefaultDomain
          -- only send the event if watching the wildcard or this specific domain
          if w.wo.Domain = GlobalDomain || w.wo.Domain = domain then some ⟨some r, none, rest⟩
          else Watcher.Next DefaultDomain w takeExit (k + 1) rest

/-- Go `close(ch)`, the channel given by whether it is closed: closing a closed
channel panics, which is `none`. -/
def closeChan (closed : Bool) : Option Bool :=
  if closed then none else some true

/-- The method `Watcher.Stop` of watcher.go: `case <-m.exit` is ready exactly
when `exit` is closed, and then the call returns; otherwise the `default` case
closes `exit`. -/
def Watcher.Stop (w : Watcher) : Option Watcher :=
  if w.exit then some w
  else (closeChan w.exit).map (fun e => { w with exit := e })

/-- The domain of an event as the specification states it: the value of
"domain" in the metadata of the App when present and non-empty, the default
domain otherwise. -/
def eventDomain (DefaultDomain : String) (app : App) : String :=
  match app.Metadata.lookup "domain" with
  | some d => if d = "" then DefaultDomain else d
  | none => DefaultDomain

/-- The match of an event as the specification states it: the App is not nil,
(a) the app name of the filter is empty or equals the name of the App, and
(b) the domain of the filter is the all-domains wildcard or equals the domain
of the event. -/
def Watcher.accepts (DefaultDomain : String) (w : Watcher) (e : Received) : Prop :=
  match e.App with
  | none => False
  | some app =>
    (w.wo.App = "" ∨ w.wo.App = app.Name)
      ∧ (w.wo.Domain = WildcardDomain ∨ w.wo.Domain = eventDomain DefaultDomain app)

/-- The app bar 1.0.0 with the instance `d`. -/
def barA : App := ⟨"bar", "1.0.0", ∅, [⟨"d", "l:4", ∅⟩], []⟩

/-- The events of `Add(fooA, domain "one")`, `Add(barA)` and
`Add(fooA, domain "two")`, made in this order on the empty table, as they
arrive on `res`. -/
def eventsOneBarTwo (DefaultDomain : String) : List Received :=
  let e1 := Table.Add DefaultDomain (NewTable DefaultDomain) fooA ⟨0, "one"⟩ 0
  let e2 := Table.Add DefaultDomain e1.table barA ⟨0, ""⟩ 0
  let e3 := Table.Add DefaultDomain e2.table fooA ⟨0, "two"⟩ 0
  (e1.events ++ e2.events ++ e3.events).map Result.received

/-- The watcher of `Watch(WatchApp("foo"), WatchDomain("*"))`. -/
def watcherFooAll : Watcher := ⟨"w", ⟨"foo", "*"⟩, false⟩

/-! ## memory.go: watchers and the delivery of events -/

/-- The method `Table.Watch` of memory.go; `uuid` is the value of
`uuid.New().String()`. The watcher returned is the one the table stores. -/
def Watch (DefaultDomain : String) (m : Table) (wo : WatchOptions) (uuid : String) :
    Table × Watcher :=
  ({ m with watchers := (m.watchers.insert uuid
      ⟨uuid, { wo with Domain := resolveDomain DefaultDomain wo.Domain }, false⟩) },
   ⟨uuid, { wo with Domain := resolveDomain DefaultDomain wo.Domain }, false⟩)

/-- The call `w.Stop()` on the watcher the table stores under `id`: the table
holds the pointer, so the stored watcher is the stopped one afterwards. -/
def stopWatcher (m : Table) (id : String) : Table :=
  match (m.watchers.lookup id).bind Watcher.Stop with
  | some w => { m with watchers := m.watchers.insert id w }
  | none => m

/-- The method `Table.sendEvent` of memory.go, which `Add` and `Remove` start
as a goroutine for each event they emit; it runs once the call has released the
lock. It walks a snapshot of the watchers: a watcher whose `exit` is closed is
deleted from `m.watchers` under its id; to every other watcher the event is
offered on `res`, to be received by its `Next` or given up after
`sendEventTime`. The result is the table after it and the offers made, each
the id of the watcher and the event. -/
def sendEvent (m : Table) (r : Result) : Table × List (String × Result) :=
  m.watchers.values.foldl
    (fun acc w =>
      if w.exit then ({ acc.1 with watchers := acc.1.watchers.erase w.id }, acc.2)
      else (acc.1, acc.2 ++ [(w.id, r)]))
    (m, [])

/-- The table once the goroutines `go m.sendEvent(...)` that a call of `Add` or
`Remove` started have run, one per emitted event. -/
def Effect.settled (e : Effect) : Table :=
  e.events.foldl (fun t r => (sendEvent t r).1) e.table

/-- The empty table after `Watch()` gave the watcher "w1" and `Stop()` was
called on it. -/
def tableWatched : Table :=
  stopWatcher (Watch "micro" (NewTable "micro") ⟨"", ""⟩ "w1").1 "w1"

end memory

namespace rpc

/-! ## rpc_server.go: registration and heartbeat -/

/-- What the registration routine `regFunc` of `rpcServer.Add` has done so far:
the number of calls of `config.Registry.Add` made, the arguments handed to
`backoff.Do` before each sleep, and the variable `regErr` (`none` is nil). -/
structure RegState where
  attempts : Nat
  backoffs : List Nat
  regErr : Option String
deriving DecidableEq

/-- The loop `for i := 0; i < 3; i++` of `regFunc`, from the value `i` of the
counter on; `add k` is the error the registry returns to the call number `k`
of `Add` (counted from 0), `none` when that call succeeds. The first argument
bounds the number of rounds. -/
def regLoop (add : Nat → Option String) : Nat → Nat → RegState → RegState
  | 0, _, st => st
  | fuel + 1, i, st =>
    if i < 3 then
      -- attempt to register
      match add st.attempts with
      | some err =>
        -- set the error, backoff then retry
        regLoop add fuel (i + 1) ⟨st.attempts + 1, st.backoffs ++ [i + 1], some err⟩
      | none =>
        -- success so nil error
        ⟨st.attempts + 1, st.backoffs, none⟩
    else st

/-- The closure `regFunc` of `rpcServer.Add`: the loop from `i = 0` with
`regErr` nil; it returns `regErr`. Three rounds are all the loop can make. -/
def regFunc (add : Nat → Option String) : RegState :=
  regLoop add 3 0 ⟨0, [], none⟩

/-- The two calls the heartbeat can make on the server. -/
inductive Call where
  | Remove
  | Add
deriving DecidableEq

/-- One pass through `case <-t.C` of the loop of `rpcServer.Start`: `registered`
is the flag read under the lock, `rerr` the result of `s.opts.AddCheck` (`none`
is nil). The result lists the calls of `s.Remove()` and `s.Add()` in program
order. The first component of `checked` holds the calls of the `if`/`else if`,
the second tells whether its branch ended in `continue`. -/
def heartbeatTick (registered : Bool) (rerr : Option String) : List Call :=
  let checked : List Call × Bool :=
    if rerr.isSome && registered then
      -- deregister self in case of error
      ([Call.Remove], false)
    else if rerr.isSome && !registered then
      ([], true)
    else ([], false)
  if checked.2 then checked.1 else checked.1 ++ [Call.Add]

/-! ## rpc_server.go: the connection handler -/

/-- Modelled from the spec: `network.Message` is declared outside the given
sources; "a header mapping (string→string) and a body (opaque bytes)". The
header is a Go map, which may be nil: `none` is the nil map, on which a read
gives the zero value and a write panics. The body is kept as the text of its
bytes. -/
structure Message where
  Header : Option (memory.GoMap String)
  Body : String
deriving DecidableEq

/-- The Go map index `m[k]` on a map of strings: the zero value "" when the key
is not in the map, and on the nil map. -/
def index (m : Option (memory.GoMap String)) (k : String) : String :=
  (m.bind (fun h => h.lookup k)).getD ""

/-- Modelled from the spec: the helper `getHeader` of the server is declared
outside the given sources; the header fields the handler inspects are read by
their name ("`Stream`: presence ⇒ this is part of a streaming session"). -/
def getHeader (hdr : String) (md : Option (memory.GoMap String)) : String :=
  index md hdr

/-- Modelled from the spec: `lastStreamResponseError` of the server is declared
outside the given sources; "end-of-stream sentinel carried in the `Error`
header value EOS". This is the text `lastStreamResponseError.Error()`. -/
def lastStreamResponseError : String := "EOS"

/-- Modelled from the spec: `DefaultContentType` of the server is declared
outside the given sources; "`Content-Type` defaults to `application/json`". -/
def DefaultContentType : String := "application/json"

/-- Modelled from the spec: the virtual socket `socket.Socket` is declared
outside the given sources; "an inbound channel (messages from peer for this
stream), local/remote address labels inherited from the underlying socket".
`recv` holds the messages handed to `Accept`, oldest first. -/
structure Socket where
  id : String
  Local : String
  Remote : String
  recv : List Message
deriving DecidableEq

/-- Modelled from the spec: the stream pool `socket.Pool` is declared outside
the given sources; "an internal mapping from stream-id to a virtual socket". -/
structure Pool where
  sockets : memory.GoMap Socket
deriving DecidableEq

/-- Modelled from the spec: `pool.Get(id)` returns the virtual socket stored
under `id` and true; when none is stored it creates one, stores it, and returns
it with false (the handler calls it "the socket we just created" and releases
it). The third component is the pool after the call. -/
def Pool.Get (p : Pool) (id : String) : Socket × Bool × Pool :=
  match p.sockets.lookup id with
  | some s => (s, true, p)
  | none => (⟨id, "", "", []⟩, false, ⟨p.sockets.insert id ⟨id, "", "", []⟩⟩)

/-- Modelled from the spec: `pool.Release(psock)`, "a release action removing
it from the pool". -/
def Pool.Release (p : Pool) (s : Socket) : Pool :=
  ⟨p.sockets.erase s.id⟩

/-- A write through the pointer `psock`: the socket stored under its id is
replaced by its new state. -/
def Pool.store (p : Pool) (s : Socket) : Pool :=
  ⟨p.sockets.insert s.id s⟩

/-- Go `strconv.ParseUint(s, 10, 64)`: the value of a non-empty string of
decimal digits that fits 64 bits; `none` stands for a non-nil error (empty
string, a character that is not a digit, a sign, or a value out of range). -/
def parseUint (s : String) : Option Nat :=
  if s.length = 0 then none
  else if s.data.all (fun c => c.isDigit) then
    if s.data.foldl (fun acc c => acc * 10 + (c.toNat - 48)) 0 < 2 ^ 64 then
      some (s.data.foldl (fun acc c => acc * 10 + (c.toNat - 48)) 0)
    else none
  else none

/-- The Go conversion `time.Duration(n)` of a uint64: the int64 with the same
64 bits. -/
def toDuration (n : Nat) : Int :=
  if n % 2 ^ 64 < 2 ^ 63 then (n % 2 ^ 64 : Nat) else (n % 2 ^ 64 : Nat) - 2 ^ 64

/-- The method `rpcServer.newCodec`: the pair `(codec.NewCodec, error)` it
returns, a codec constructor given by its name. `Codecs` is `s.opts.Codecs`;
the map `DefaultCodecs` of the server is declared outside the given sources
and is a parameter. -/
def newCodec (Codecs DefaultCodecs : memory.GoMap String) (contentType : String) :
    Option String × Option String :=
  match Codecs.lookup contentType with
  | some cf => (some cf, none)
  | none =>
    match DefaultCodecs.lookup contentType with
    | some cf => (some cf, none)
    | none => (none, some ("Unsupported Content-Type: " ++ contentType))

/-- The fields of `rpcRequest` (rpc_request.go) that `ServeConn` fills in, the
codec given by the name of its constructor. -/
structure Request where
  service : String
  method : String
  endpoint : String
  contentType : String
  codec : String
  header : Option (memory.GoMap String)
  body : String
  stream : Bool
deriving DecidableEq

/-- A goroutine `ServeConn` starts for a new stream: the writer that forwards
the outbound messages of the virtual socket `id`, or the handler that serves
`request`; `timeout` is the Duration handed to `context.WithTimeout`, `none`
when the context has no deadline. -/
inductive Worker where
  | writer (id : String)
  | handler (id : String) (request : Request) (timeout : Option Int)
deriving DecidableEq

/-- The state of one connection as `ServeConn` sees it: the stream pool, the
messages sent on the underlying socket, oldest first, and the goroutines
started so far. -/
structure Conn where
  pool : Pool
  sent : List Message
  started : List Worker
deriving DecidableEq

/-- The stream identifier `ServeConn` computes: "use Stream as the stream
identifier", and "if there's no stream id then its a standard request, use
the Id". -/
def streamId (msg : Message) : String :=
  if (index msg.Header "Stream").length = 0 then index msg.Header "Id"
  else index msg.Header "Stream"

/-- The content type `ct` of a new request in `ServeConn`: the header
`Content-Type`, and `DefaultContentType` "if there's no content type". -/
def contentType (msg : Message) : String :=
  if (index msg.Header "Content-Type").length = 0 then DefaultContentType
  else index msg.Header "Content-Type"

/-- The message after `ServeConn` defaulted its content type, "if there's no
content type default it": with no `Content-Type` the statement
`msg.Header["Content-Type"] = DefaultContentType` is executed, which sets the
entry of the header map and panics when the header map is nil; `none` stands
for that panic. -/
def withContentType (msg : Message) : Option Message :=
  if (index msg.Header "Content-Type").length = 0 then
    match msg.Header with
    | none => none
    | some h => some { msg with Header := some (h.insert "Content-Type" DefaultContentType) }
  else some msg

/-- The codec `ServeConn` ends up with for a new request, as the pair of `cf`
and `err`: the legacy codec `setupProtocol(&msg)` when it is not nil, else the
result of `s.newCodec(ct)`. The function `setupProtocol` of the server is
declared outside the given sources and is a parameter: the codec it returns
for the message, `none` for nil. -/
def chooseCodec (Codecs DefaultCodecs : memory.GoMap String)
    (setupProtocol : Message → Option String) (msg : Message) (ct : String) :
    Option String × Option String :=
  match setupProtocol msg with
  | some cf => (some cf, none)
  | none => newCodec Codecs DefaultCodecs ct

/-- The Duration `ServeConn` hands to `context.WithTimeout` for a new request,
`none` when it binds no deadline: "set the timeout from the header if we have
it", that is when the header `Timeout` is not empty and `strconv.ParseUint`
returns no error. -/
def requestTimeout (msg : Message) : Option Int :=
  if (index msg.Header "Timeout").length > 0 then
    (parseUint (index msg.Header "Timeout")).map toDuration
  else none

/-- One round of the loop of `rpcServer.ServeConn` for a received message
without `Event` header, from "business as usual" to the end of the round: the
state of the connection after it, and `none` when the round panics (the
deferred function of `ServeConn` then recovers, closes the pool and the socket,
and the loop is left). `Local` and `Remote` are `sock.Local()` and
`sock.Remote()`; `acceptErr` tells whether `Accept` on the existing virtual
socket returns an error. The message put on the queue of the virtual socket is
the one received; later writes to its header map are not followed there. -/
def serveMessage (Codecs DefaultCodecs : memory.GoMap String)
    (setupProtocol : Message → Option String) (Local Remote : String) (acceptErr : Bool)
    (c : Conn) (msg : Message) : Option Conn :=
  let id := streamId msg
  -- check stream id
  let stream : Bool := (getHeader "Stream" msg.Header).length > 0
  -- check if we have an existing socket
  let got := c.pool.Get id
  let psock := got.1
  let ok := got.2.1
  let pool := got.2.2
  -- if we don't have a socket and its a stream, check if its a last stream EOS error
  if (!ok && stream) && index msg.Header "Error" = lastStreamResponseError then
    some { c with pool := pool.Release psock }
  -- got an existing socket already
  else if ok then
    if acceptErr then some { c with pool := pool.Release psock }
    else some { c with pool := pool.store { psock with recv := psock.recv ++ [msg] } }
  else
    -- no socket was found so its new
    let psock1 : Socket :=
      { psock with Local := Local, Remote := Remote, recv := psock.recv ++ [msg] }
    let pool1 := pool.store psock1
    -- set the timeout from the header if we have it
    let timeout := requestTimeout msg
    -- if there's no content type default it
    let ct := contentType msg
    match withContentType msg with
    | none => none
    | some msg1 =>
      -- setup old protocol, and with no legacy codec try get a new codec
      match chooseCodec Codecs DefaultCodecs setupProtocol msg1 ct with
      | (_, some err) =>
        -- no codec found so send back an error, release the socket we just created
        some
          { pool := pool1.Release psock1
            sent := c.sent ++ [⟨some (AList.insert "Content-Type" "text/plain" ∅), err⟩]
            started := c.started }
      | (cf, none) =>
        some
          { pool := pool1
            sent := c.sent
            started := c.started ++
              [Worker.writer id,
               Worker.handler id
                 { service := getHeader "App" msg1.Header
                   method := getHeader "Method" msg1.Header
                   endpoint := getHeader "Endpoint" msg1.Header
                   contentType := ct
                   codec := cf.getD ""
                   header := msg1.Header
                   body := msg1.Body
                   stream := stream } timeout] }

/-- The codecs used in the examples: the one default codec "json" for
`application/json`. -/
def codecsJson : memory.GoMap String := AList.insert "application/json" "json" ∅

/-- The connection with an empty pool on which nothing was sent or started. -/
def connEmpty : Conn := ⟨⟨∅⟩, [], []⟩

/-- The message with the headers `Id: 1` and `Error: EOS` and no `Stream`
header. -/
def msgEosNoStream : Message :=
  ⟨some (AList.insert "Id" "1" (AList.insert "Error" "EOS" ∅)), ""⟩

/-- The message with the headers `Stream: 7`, `Id: 1` and `Error: EOS`. -/
def msgEosStream : Message :=
  ⟨some (AList.insert "Stream" "7" (AList.insert "Id" "1" (AList.insert "Error" "EOS" ∅))),
   ""⟩

/-- The message with the headers `Id: 2` and `Content-Type: text/unknown`. -/
def msgUnknownType : Message :=
  ⟨some (AList.insert "Id" "2" (AList.insert "Content-Type" "text/unknown" ∅)), "body"⟩

/-- The message with the headers `Id: 1` and `Timeout: 9223372036854775808`,
which is 2 ^ 63. -/
def msgHugeTimeout : Message :=
  ⟨some (AList.insert "Id" "1" (AList.insert "Timeout" "9223372036854775808" ∅)), ""⟩

/-- The message whose header map is nil, with the body "ping". -/
def msgNilHeader : Message := ⟨none, "ping"⟩

end rpc

namespace selector

/-! ## selector.go and random.go -/

/-- The error `ErrNoneAvailable` of selector.go, "returned by select when no
routes were provided to select from". -/
inductive SelectError where
  | ErrNoneAvailable
deriving DecidableEq

/-- Go `rand.Intn(n)`, for the value `src` the random source draws: a number of
the half-open interval from 0 to `n`, each of them for some `src`; the call
panics when `n <= 0`, which is `none`. -/
def Intn (src : Nat) (n : Int) : Option Nat :=
  if n ≤ 0 then none else some (src % n.toNat)

/-- The loop "apply the filters" of `Select`: `routes = f(routes)` for every
filter of `options.Filters`, in order. The type `router.Route` is declared
outside the given sources and is a parameter. -/
def applyFilters {Route : Type} (filters : List (List Route → List Route))
    (routes : List Route) : List Route :=
  filters.foldl (fun routes f => f routes) routes

/-- The method `random.Select` of random.go, `filters` being `options.Filters`
after `NewSelectOptions(opts...)`: the pair of the route and the error it
returns. `none` stands for a panic, of `rand.Intn` or of an index out of
range. -/
def Select {Route : Type} (src : Nat) (routes : List Route)
    (filters : List (List Route → List Route)) : Option (Option Route × Option SelectError) :=
  -- we can't select from an empty pool of routes
  if (applyFilters filters routes).length = 0 then
    some (none, some SelectError.ErrNoneAvailable)
  -- if there is only one route provided we'll select it
  else if (applyFilters filters routes).length = 1 then
    ((applyFilters filters routes)[0]?).map (fun r => (some r, none))
  -- select a random route from the slice
  else
    (Intn src (((applyFilters filters routes).length : Int) - 1)).bind
      (fun i => ((applyFilters filters routes)[i]?).map (fun r => (some r, none)))

end selector

namespace utilregistry

/-! ## util/registry/util.go -/

/-- The function `addInstances` of util.go: the new nodes, then every old node
whose id is not among the nodes gathered so far. -/
def addInstances (old neu : List memory.Instance) : List memory.Instance :=
  old.foldl
    (fun nodes o => if nodes.any (fun n => o.Id = n.Id) then nodes else nodes ++ [o]) neu

/-- The function `delInstances` of util.go: the old nodes whose id is the id of
no node of `del`, gathered in order. -/
def delInstances (old del : List memory.Instance) : List memory.Instance :=
  old.foldl
    (fun nodes o => if del.any (fun n => o.Id = n.Id) then nodes else nodes ++ [o]) []

/-- The function `CopyApp` of util.go; as values, the copy is the app. -/
def CopyApp (service : memory.App) : memory.App :=
  { service with
    Instances := service.Instances.map (fun node => node)
    Endpoints := service.Endpoints.map (fun ep => ep) }

/-- The function `Copy` of util.go. -/
def Copy (current : List memory.App) : List memory.App :=
  current.map CopyApp

/-- The inner loop `for _, o := range olist` of `Merge` for the new app `n`,
run on what is left of `olist`: the list `srv` after it and the flag `seen`.
On a match of the versions the loop appends the merged app and breaks;
otherwise it appends a copy of `o` and goes on. -/
def mergeOne (n : memory.App) : List memory.App → List memory.App → List memory.App × Bool
  | [], srv => (srv, false)
  | o :: rest, srv =>
    if o.Version = n.Version then
      (srv ++ [{ o with Instances := addInstances o.Instances n.Instances }], true)
    else mergeOne n rest (srv ++ [o])

/-- The function `Merge` of util.go. -/
def Merge (olist nlist : List memory.App) : List memory.App :=
  nlist.foldl
    (fun srv n =>
      if (mergeOne n olist srv).2 then (mergeOne n olist srv).1
      else (mergeOne n olist srv).1 ++ Copy [n]) []

/-- The inner loop `for _, s := range del` of `Remove` for the old app `o`: the
copy `srv` after it and the flag `rem`. -/
def removeOne (del : List memory.App) (o : memory.App) : memory.App × Bool :=
  del.foldl
    (fun st s =>
      if st.1.Version = s.Version then
        ({ st.1 with Instances := delInstances st.1.Instances s.Instances },
         if (delInstances st.1.Instances s.Instances).length = 0 then true else st.2)
      else st) (o, false)

/-- The function `Remove` of util.go. -/
def Remove (old del : List memory.App) : List memory.App :=
  old.foldl
    (fun services o =>
      if (removeOne del o).2 then services else services ++ [(removeOne del o).1]) []

/-- Whether the instance id is listed by an entry of `del` of that version, as
the specification of `Remove` words it. -/
def listed (del : List memory.App) (version id : String) : Bool :=
  del.any (fun s => version = s.Version && s.Instances.any (fun n => id = n.Id))

/-- What `Remove` makes of one app of `old`, as its specification words it: the
app with every instance removed whose id is listed by an entry of `del` of the
same version, and nothing when some entry of `del` has that version and no
instance is left. -/
def removed (del : List memory.App) (o : memory.App) : Option memory.App :=
  if del.any (fun s => o.Version = s.Version)
      && (o.Instances.filter (fun i => !listed del o.Version i.Id)).length = 0 then none
  else some { o with Instances := o.Instances.filter (fun i => !listed del o.Version i.Id) }

/-- The apps of `TestRemove` and `TestRemoveInstances`: foo 1.0.0 with the
instance foo-123 at localhost:9999. -/
def testOld : memory.App := ⟨"foo", "1.0.0", ∅, [⟨"foo-123", "localhost:9999", ∅⟩], []⟩

/-- The app foo 1.0.0 with the instances foo-123 and foo-321. -/
def testOldTwo : memory.App :=
  ⟨"foo", "1.0.0", ∅, [⟨"foo-123", "localhost:9999", ∅⟩, ⟨"foo-321", "localhost:6666", ∅⟩], []⟩

/-- The app foo 1.0.0 with the instance foo-123 at localhost:6666. -/
def testDel : memory.App := ⟨"foo", "1.0.0", ∅, [⟨"foo-123", "localhost:6666", ∅⟩], []⟩

/-- The app foo 1.0.1 with the instance foo-456. -/
def testOther : memory.App := ⟨"foo", "1.0.1", ∅, [⟨"foo-456", "localhost:7777", ∅⟩], []⟩

/-- The app foo 1.0.2 with the instance foo-789. -/
def testThird : memory.App := ⟨"foo", "1.0.2", ∅, [⟨"foo-789", "localhost:8888", ∅⟩], []⟩

end utilregistry

namespace memory

/-! ## Lemmas on Go maps -/

theorem GoMap.len_eq_zero_iff {V : Type} (m : GoMap V) : m.len = 0 ↔ ∀ k, m.lookup k = none := by
  constructor
  · intro h k
    have he : m.entries = [] := List.length_eq_zero.mp h
    rw [AList.lookup_eq_none, AList.mem_keys, AList.keys, he]
    simp
  · intro h
    unfold GoMap.len
    cases he : m.entries with
    | nil => rfl
    | cons e es =>
      exfalso
      have hk : e.1 ∈ m := by
        rw [AList.mem_keys, AList.keys, he]; simp
      have := h e.1
      rw [AList.lookup_eq_none] at this
      exact this hk

theorem GoMap.len_empty {V : Type} : (∅ : GoMap V).len = 0 := rfl

theorem GoMap.values_empty {V : Type} : (∅ : GoMap V).values = [] := rfl

theorem GoMap.length_values {V : Type} (m : GoMap V) : m.values.length = m.len := by
  simp [GoMap.values, GoMap.len]

theorem GoMap.length_keys {V : Type} (m : GoMap V) : m.keys.length = m.len := by
  simp [AList.keys, List.keys, GoMap.len]

theorem GoMap.mem_values_iff {V : Type} (m : GoMap V) (v : V) :
    v ∈ m.values ↔ ∃ k, m.lookup k = some v := by
  unfold GoMap.values
  constructor
  · intro h
    obtain ⟨e, he, rfl⟩ := List.mem_map.mp h
    refine ⟨e.1, ?_⟩
    have : (⟨e.1, e.2⟩ : Sigma (fun _ : String => V)) ∈ m.entries := he
    exact AList.mem_lookup_iff.mpr this
  · rintro ⟨k, hk⟩
    have := AList.mem_lookup_iff.mp hk
    exact List.mem_map.mpr ⟨⟨k, v⟩, this, rfl⟩

theorem GoMap.erase_eq_empty {V : Type} (m : GoMap V) (k : String) (h1 : m.len = 1)
    (hk : k ∈ m) : m.erase k = ∅ := by
  apply AList.ext
  obtain ⟨entries, nd⟩ := m
  cases entries with
  | nil => simp [GoMap.len] at h1
  | cons e es =>
    cases es with
    | nil =>
      have hke : k = e.1 := by
        have := AList.mem_keys.mp hk
        simpa [AList.keys, List.keys] using this
      subst hke
      simp [AList.erase, List.kerase]
    | cons e2 es2 => simp [GoMap.len] at h1

theorem GoMap.lookup_mapVal {V W : Type} (f : V → W) (m : GoMap V) (k : String) :
    (m.mapVal f).lookup k = (m.lookup k).map f := by
  unfold GoMap.mapVal AList.lookup
  exact List.dlookup_map₂ (f := fun _ => f) k

theorem GoMap.keys_mapVal {V W : Type} (f : V → W) (m : GoMap V) :
    (m.mapVal f).keys = m.keys := by
  simp [GoMap.mapVal, AList.keys, List.keys, List.map_map, Function.comp_def]

theorem GoMap.lookup_filterVal {V : Type} (p : V → Bool) (m : GoMap V) (k : String) :
    (m.filterVal p).lookup k = (m.lookup k).filter p := by
  obtain ⟨entries, nd⟩ := m
  unfold GoMap.filterVal AList.lookup
  simp only
  induction entries with
  | nil => simp
  | cons e es ih =>
    have nd2 := List.nodupKeys_of_nodupKeys_cons nd
    have hnot := List.not_mem_keys_of_nodupKeys_cons nd
    obtain ⟨k2, v⟩ := e
    by_cases hk : k = k2
    · subst hk
      by_cases hp : p v = true
      · simp [List.filter_cons, hp, List.dlookup_cons_eq, Option.filter]
      · have hp2 : p v = false := by simpa using hp
        simp only [List.filter_cons, hp2, List.dlookup_cons_eq, Option.filter]
        simp only [Bool.false_eq_true, ↓reduceIte]
        rw [List.dlookup_eq_none]
        intro hmem
        obtain ⟨b, hb⟩ := List.exists_of_mem_keys hmem
        have hb2 := List.mem_of_mem_filter hb
        exact hnot (List.mem_keys.mpr ⟨b, hb2⟩)
    · by_cases hp : p v = true
      · simp only [List.filter_cons, hp, ↓reduceIte]
        rw [List.dlookup_cons_ne _ _ hk, List.dlookup_cons_ne _ _ hk]
        exact ih nd2
      · have hp2 : p v = false := by simpa using hp
        simp only [List.filter_cons, hp2, Bool.false_eq_true, ↓reduceIte]
        rw [List.dlookup_cons_ne _ _ hk]
        exact ih nd2

/-! ## Lemmas on the loops of `Add` and `Remove` -/

theorem App.mem_ids (s : App) (id : String) : id ∈ s.ids ↔ ∃ n ∈ s.Instances, n.Id = id := by
  simp [App.ids]

theorem foldl_insert_mem (f : Instance → node) (incoming : List Instance) (start : GoMap node)
    (id : String) :
    id ∈ incoming.foldl (fun nodes n => nodes.insert n.Id (f n)) start
      ↔ id ∈ start ∨ ∃ n ∈ incoming, n.Id = id := by
  induction incoming generalizing start with
  | nil => simp
  | cons n rest ih =>
    rw [List.foldl_cons, ih, AList.mem_insert]
    constructor
    · rintro (h | ⟨x, hx, rfl⟩)
      · rcases h with rfl | h
        · exact Or.inr ⟨n, List.mem_cons_self _ _, rfl⟩
        · exact Or.inl h
      · exact Or.inr ⟨x, List.mem_cons_of_mem _ hx, rfl⟩
    · rintro (h | ⟨x, hx, rfl⟩)
      · exact Or.inl (Or.inr h)
      · rcases List.mem_cons.mp hx with rfl | hx
        · exact Or.inl (Or.inl rfl)
        · exact Or.inr ⟨x, hx, rfl⟩

theorem serviceToRecord_mem (s : App) (ttl now : Int) (id : String) :
    id ∈ (serviceToRecord s ttl now).Instances ↔ id ∈ s.ids := by
  unfold serviceToRecord
  simp only
  rw [foldl_insert_mem, App.mem_ids]
  simp

theorem addInstance_mem (domain : String) (ttl now : Int) (acc : GoMap node × Bool)
    (n : Instance) (id : String) :
    id ∈ (addInstance domain ttl now acc n).1 ↔ id ∈ acc.1 ∨ n.Id = id := by
  unfold addInstance
  by_cases h : (acc.1.lookup n.Id).isSome = true
  · rw [if_pos h]
    constructor
    · exact Or.inl
    · rintro (h2 | rfl)
      · exact h2
      · exact AList.lookup_isSome.mp h
  · rw [if_neg h]
    simp only [AList.mem_insert]
    constructor
    · rintro (rfl | h2)
      · exact Or.inr rfl
      · exact Or.inl h2
    · rintro (h2 | rfl)
      · exact Or.inr h2
      · exact Or.inl rfl

theorem foldl_addInstance_mem (domain : String) (ttl now : Int) (incoming : List Instance)
    (acc : GoMap node × Bool) (id : String) :
    id ∈ (incoming.foldl (addInstance domain ttl now) acc).1
      ↔ id ∈ acc.1 ∨ ∃ n ∈ incoming, n.Id = id := by
  induction incoming generalizing acc with
  | nil => simp
  | cons n rest ih =>
    rw [List.foldl_cons, ih, addInstance_mem]
    constructor
    · rintro (h | ⟨x, hx, rfl⟩)
      · rcases h with h | rfl
        · exact Or.inl h
        · exact Or.inr ⟨n, List.mem_cons_self _ _, rfl⟩
      · exact Or.inr ⟨x, List.mem_cons_of_mem _ hx, rfl⟩
    · rintro (h | ⟨x, hx, rfl⟩)
      · exact Or.inl (Or.inl h)
      · rcases List.mem_cons.mp hx with rfl | hx
        · exact Or.inl (Or.inr rfl)
        · exact Or.inr ⟨x, hx, rfl⟩

theorem addInstances_mem (domain : String) (ttl now : Int) (incoming : List Instance)
    (start : GoMap node) (id : String) :
    id ∈ (addInstances domain ttl now incoming start).1
      ↔ id ∈ start ∨ ∃ n ∈ incoming, n.Id = id :=
  foldl_addInstance_mem domain ttl now incoming (start, false) id

theorem foldl_addInstance_flag (domain : String) (ttl now : Int) (incoming : List Instance)
    (acc : GoMap node × Bool) :
    (incoming.foldl (addInstance domain ttl now) acc).2 = true
      ↔ acc.2 = true ∨ ∃ n ∈ incoming, n.Id ∉ acc.1 := by
  induction incoming generalizing acc with
  | nil => simp
  | cons n rest ih =>
    rw [List.foldl_cons, ih]
    by_cases h : (acc.1.lookup n.Id).isSome = true
    · have hmem : n.Id ∈ acc.1 := AList.lookup_isSome.mp h
      have hstep : addInstance domain ttl now acc n = acc := by
        unfold addInstance; rw [if_pos h]
      rw [hstep]
      constructor
      · rintro (h2 | ⟨x, hx, hx2⟩)
        · exact Or.inl h2
        · exact Or.inr ⟨x, List.mem_cons_of_mem _ hx, hx2⟩
      · rintro (h2 | ⟨x, hx, hx2⟩)
        · exact Or.inl h2
        · rcases List.mem_cons.mp hx with rfl | hx
          · exact absurd hmem hx2
          · exact Or.inr ⟨x, hx, hx2⟩
    · have hmem : n.Id ∉ acc.1 := fun hm => h (AList.lookup_isSome.mpr hm)
      have hstep : (addInstance domain ttl now acc n).2 = true := by
        unfold addInstance; rw [if_neg h]
      constructor
      · intro _
        exact Or.inr ⟨n, List.mem_cons_self _ _, hmem⟩
      · intro _
        exact Or.inl hstep

theorem addInstances_covers (domain : String) (ttl now : Int) (incoming : List Instance)
    (start : GoMap node) :
    ∀ n ∈ incoming, n.Id ∈ (addInstances domain ttl now incoming start).1 :=
  fun n hn => (addInstances_mem domain ttl now incoming start n.Id).mpr (Or.inr ⟨n, hn, rfl⟩)

theorem addInstances_flag (domain : String) (ttl now : Int) (incoming : List Instance)
    (start : GoMap node) :
    (addInstances domain ttl now incoming start).2 = true ↔ ∃ n ∈ incoming, n.Id ∉ start := by
  unfold addInstances
  rw [foldl_addInstance_flag]
  simp

theorem refreshInstance_mem (ttl now : Int) (nodes : GoMap node) (n : Instance) (id : String) :
    id ∈ refreshInstance ttl now nodes n ↔ id ∈ nodes := by
  unfold refreshInstance
  cases h : nodes.lookup n.Id with
  | none => simp
  | some nd =>
    simp only [AList.mem_insert]
    constructor
    · rintro (rfl | h2)
      · exact AList.lookup_isSome.mp (by rw [h]; rfl)
      · exact h2
    · exact Or.inr

theorem refreshInstances_mem (ttl now : Int) (incoming : List Instance) (start : GoMap node)
    (id : String) : id ∈ refreshInstances ttl now incoming start ↔ id ∈ start := by
  unfold refreshInstances
  induction incoming generalizing start with
  | nil => simp
  | cons n rest ih => rw [List.foldl_cons, ih, refreshInstance_mem]

theorem removeInstance_lookup (nodes : GoMap node) (n : Instance) (id : String) :
    (removeInstance nodes n).lookup id = if id = n.Id then none else nodes.lookup id := by
  unfold removeInstance
  by_cases h : (nodes.lookup n.Id).isSome = true
  · rw [if_pos h]
    by_cases hid : id = n.Id
    · subst hid; simp
    · rw [if_neg hid, AList.lookup_erase_ne hid]
  · rw [if_neg h]
    by_cases hid : id = n.Id
    · subst hid
      rw [if_pos rfl]
      cases h2 : nodes.lookup n.Id with
      | none => rfl
      | some v => rw [h2] at h; simp at h
    · rw [if_neg hid]

theorem removeInstances_lookup (incoming : List Instance) (start : GoMap node) (id : String) :
    (removeInstances incoming start).lookup id
      = if (∃ n ∈ incoming, n.Id = id) then none else start.lookup id := by
  unfold removeInstances
  induction incoming generalizing start with
  | nil => simp
  | cons n rest ih =>
    rw [List.foldl_cons, ih, removeInstance_lookup]
    by_cases h1 : ∃ x ∈ rest, x.Id = id
    · have h2 : ∃ x ∈ n :: rest, x.Id = id := by
        obtain ⟨x, hx, hx2⟩ := h1
        exact ⟨x, List.mem_cons_of_mem _ hx, hx2⟩
      rw [if_pos h1, if_pos h2]
    · rw [if_neg h1]
      by_cases hid : id = n.Id
      · have h2 : ∃ x ∈ n :: rest, x.Id = id := ⟨n, List.mem_cons_self _ _, hid.symm⟩
        rw [if_pos hid, if_pos h2]
      · have h2 : ¬ ∃ x ∈ n :: rest, x.Id = id := by
          rintro ⟨x, hx, hx2⟩
          rcases List.mem_cons.mp hx with rfl | hx
          · exact hid hx2.symm
          · exact h1 ⟨x, hx, hx2⟩
        rw [if_neg hid, if_neg h2]

theorem removeInstances_mem (incoming : List Instance) (start : GoMap node) (id : String) :
    id ∈ removeInstances incoming start ↔ id ∈ start ∧ ¬ ∃ n ∈ incoming, n.Id = id := by
  rw [← AList.lookup_isSome, removeInstances_lookup, ← AList.lookup_isSome]
  by_cases h : ∃ n ∈ incoming, n.Id = id
  · rw [if_pos h]; simp [h]
  · rw [if_neg h]; simp [h]

/-! ## What `Add`, `Remove` and `Get` do to the versions of an app -/

theorem App.withDomain_Name (s : App) (d : String) : (s.withDomain d).Name = s.Name := rfl

theorem App.withDomain_Version (s : App) (d : String) : (s.withDomain d).Version = s.Version := rfl

theorem App.withDomain_Instances (s : App) (d : String) :
    (s.withDomain d).Instances = s.Instances := rfl

theorem Table.versionsOf_eq (m : Table) (d n : String) :
    m.versionsOf d n = (((m.records.lookup d).getD ∅).lookup n).getD ∅ := by
  unfold Table.versionsOf
  cases m.records.lookup d with
  | none => simp
  | some srvs => simp

theorem Table.versionsOf_insert (m : Table) (w : GoMap Watcher) (D : String) (srvs : services)
    (d n : String) :
    (Table.mk (m.records.insert D srvs) w).versionsOf d n
      = if d = D then (srvs.lookup n).getD ∅ else m.versionsOf d n := by
  by_cases h : d = D
  · subst h
    rw [if_pos rfl]
    simp [Table.versionsOf]
  · rw [if_neg h]
    simp [Table.versionsOf, AList.lookup_insert_ne h]

theorem Add_versionsOf (DD : String) (m : Table) (s : App) (o : AddOptions) (now : Int)
    (d n : String) :
    (Table.Add DD m s o now).table.versionsOf d n
      = if d = resolveDomain DD o.Domain ∧ n = s.Name then
          (m.versionsOf (resolveDomain DD o.Domain) s.Name).insert s.Version
            (addRecord (resolveDomain DD o.Domain) (s.withDomain (resolveDomain DD o.Domain))
              o.TTL now (m.versionsOf (resolveDomain DD o.Domain) s.Name)).1
        else m.versionsOf d n := by
  unfold Table.Add
  simp only [App.withDomain_Name, App.withDomain_Version]
  rw [Table.versionsOf_insert, ← Table.versionsOf_eq]
  by_cases hd : d = resolveDomain DD o.Domain
  · subst hd
    rw [if_pos rfl]
    by_cases hn : n = s.Name
    · subst hn
      simp
    · simp only [hn, and_false, if_false]
      rw [AList.lookup_insert_ne hn, ← Table.versionsOf_eq]
  · simp [hd]

theorem Add_events (DD : String) (m : Table) (s : App) (o : AddOptions) (now : Int) :
    (Table.Add DD m s o now).events
      = (addRecord (resolveDomain DD o.Domain) (s.withDomain (resolveDomain DD o.Domain))
              o.TTL now (m.versionsOf (resolveDomain DD o.Domain) s.Name)).2 := by
  unfold Table.Add
  simp only [App.withDomain_Name]
  rw [← Table.versionsOf_eq]

theorem Add_watchers (DD : String) (m : Table) (s : App) (o : AddOptions) (now : Int) :
    (Table.Add DD m s o now).table.watchers = m.watchers := rfl

theorem Add_err (DD : String) (m : Table) (s : App) (o : AddOptions) (now : Int) :
    (Table.Add DD m s o now).err = none := rfl

theorem Table.recordAt_eq_none_iff (m : Table) (d n v : String) :
    m.recordAt d n v = none ↔
      (m.records.lookup d = none ∨
       (∃ srvs, m.records.lookup d = some srvs ∧ srvs.lookup n = none) ∨
       (∃ srvs versions, m.records.lookup d = some srvs ∧ srvs.lookup n = some versions
          ∧ versions.lookup v = none)) := by
  unfold Table.recordAt Table.versionsOf
  cases h1 : m.records.lookup d with
  | none => simp
  | some srvs =>
    cases h2 : srvs.lookup n with
    | none => simp [h2]
    | some versions => simp [h2]

theorem Remove_absent (DD : String) (m : Table) (s : App) (o : RemoveOptions)
    (h : m.recordAt (resolveDomain DD o.Domain) s.Name s.Version = none) :
    Table.Remove DD m s o = ⟨m, [], none⟩ := by
  rw [Table.recordAt_eq_none_iff] at h
  unfold Table.Remove
  simp only [App.withDomain_Name, App.withDomain_Version]
  rcases h with h | ⟨srvs, h1, h2⟩ | ⟨srvs, versions, h1, h2, h3⟩
  · rw [h]
  · rw [h1]; simp only; rw [h2]
  · rw [h1]; simp only; rw [h2]; simp only; rw [h3]

theorem Table.recordAt_eq_some (m : Table) (d n v : String) (r : record)
    (h : m.recordAt d n v = some r) :
    ∃ srvs, m.records.lookup d = some srvs ∧ srvs.lookup n = some (m.versionsOf d n)
      ∧ (m.versionsOf d n).lookup v = some r := by
  unfold Table.recordAt Table.versionsOf at *
  cases h1 : m.records.lookup d with
  | none => rw [h1] at h; simp at h
  | some srvs =>
    rw [h1] at h
    cases h2 : srvs.lookup n with
    | none => simp [h2] at h
    | some versions =>
      refine ⟨srvs, rfl, ?_, ?_⟩
      · simp [h2]
      · simpa [h2] using h

theorem Remove_present (DD : String) (m : Table) (s : App) (o : RemoveOptions) (version : record)
    (h : m.recordAt (resolveDomain DD o.Domain) s.Name s.Version = some version) :
    (Table.Remove DD m s o).events
        = [⟨if (removeInstances s.Instances version.Instances).len > 0 then "update" else "delete",
            s.withDomain (resolveDomain DD o.Domain)⟩]
      ∧ (Table.Remove DD m s o).err = none
      ∧ (Table.Remove DD m s o).table.watchers = m.watchers
      ∧ ∀ d n, (Table.Remove DD m s o).table.versionsOf d n
          = if d = resolveDomain DD o.Domain ∧ n = s.Name then
              (if (removeInstances s.Instances version.Instances).len > 0 then
                (m.versionsOf (resolveDomain DD o.Domain) s.Name).insert s.Version
                  { version with Instances := removeInstances s.Instances version.Instances }
               else (m.versionsOf (resolveDomain DD o.Domain) s.Name).erase s.Version)
            else m.versionsOf d n := by
  obtain ⟨srvs, h1, h2, h3⟩ := Table.recordAt_eq_some m _ _ _ _ h
  have hvs : ∀ n, (srvs.lookup n).getD ∅ = m.versionsOf (resolveDomain DD o.Domain) n := by
    intro n; rw [Table.versionsOf_eq, h1]; rfl
  unfold Table.Remove
  simp only [App.withDomain_Name, App.withDomain_Version, App.withDomain_Instances]
  rw [h1]; simp only; rw [h2]; simp only; rw [h3]; simp only
  by_cases hlen : (removeInstances s.Instances version.Instances).len > 0
  · rw [if_pos hlen]
    simp only [if_pos hlen]
    refine ⟨trivial, trivial, trivial, ?_⟩
    intro d n
    rw [Table.versionsOf_insert]
    by_cases hd : d = resolveDomain DD o.Domain
    · subst hd
      by_cases hn : n = s.Name
      · subst hn; simp
      · simp only [hn, and_false, if_false, if_true]
        rw [AList.lookup_insert_ne hn, hvs]
    · simp [hd]
  · rw [if_neg hlen]
    simp only [if_neg hlen]
    by_cases hone : (m.versionsOf (resolveDomain DD o.Domain) s.Name).len = 1
    · rw [if_pos hone]
      refine ⟨rfl, rfl, rfl, ?_⟩
      intro d n
      rw [Table.versionsOf_insert]
      by_cases hd : d = resolveDomain DD o.Domain
      · subst hd
        by_cases hn : n = s.Name
        · subst hn
          have hmem : s.Version ∈ m.versionsOf (resolveDomain DD o.Domain) s.Name :=
            AList.lookup_isSome.mp (by rw [h3]; rfl)
          simp [GoMap.erase_eq_empty _ _ hone hmem]
        · simp only [hn, and_false, if_false, if_true]
          rw [AList.lookup_erase_ne hn, hvs]
      · simp [hd]
    · rw [if_neg hone]
      refine ⟨rfl, rfl, rfl, ?_⟩
      intro d n
      rw [Table.versionsOf_insert]
      by_cases hd : d = resolveDomain DD o.Domain
      · subst hd
        by_cases hn : n = s.Name
        · subst hn; simp
        · simp only [hn, and_false, if_false, if_true]
          rw [AList.lookup_insert_ne hn, hvs]
      · simp [hd]

theorem Get_concrete (DD : String) (fuel : Nat) (m : Table) (name : String) (o : GetOptions)
    (hD : resolveDomain DD o.Domain ≠ WildcardDomain) :
    Table.Get DD (fuel + 1) m name o
      = some (if (m.versionsOf (resolveDomain DD o.Domain) name).len = 0 then
                ([], some RegistryError.ErrNotFound)
              else ((m.versionsOf (resolveDomain DD o.Domain) name).values.map
                      (fun r => recordToApp r (resolveDomain DD o.Domain)), none)) := by
  unfold Table.Get
  simp only [if_neg hD]
  unfold Table.versionsOf
  cases h1 : m.records.lookup (resolveDomain DD o.Domain) with
  | none => simp [GoMap.len_empty]
  | some srvs =>
    cases h2 : srvs.lookup name with
    | none => simp [h2, GoMap.len_empty]
    | some versions =>
      by_cases hl : versions.len = 0
      · simp [h2, hl]
      · simp [h2, hl]

theorem List_concrete (DD : String) (fuel : Nat) (m : Table) (o : ListOptions)
    (hD : resolveDomain DD o.Domain ≠ WildcardDomain) :
    Table.List DD (fuel + 1) m o
      = some ((((m.records.lookup (resolveDomain DD o.Domain)).getD ∅).entries.flatMap
                (fun service => service.2.values.map
                  (fun version => recordToApp version service.1))), none) := by
  unfold Table.List
  simp only [if_neg hD]
  cases h1 : m.records.lookup (resolveDomain DD o.Domain) with
  | none => simp
  | some srvs => simp

/-! ## The record `Add` leaves behind -/

theorem addRecord_Name (domain : String) (s : App) (ttl now : Int) (versions : GoMap record) :
    (addRecord domain s ttl now versions).1.Name
      = ((versions.lookup s.Version).map (fun r => r.Name)).getD s.Name := by
  unfold addRecord
  cases versions.lookup s.Version <;> rfl

theorem addRecord_Version (domain : String) (s : App) (ttl now : Int) (versions : GoMap record) :
    (addRecord domain s ttl now versions).1.Version
      = ((versions.lookup s.Version).map (fun r => r.Version)).getD s.Version := by
  unfold addRecord
  cases versions.lookup s.Version <;> rfl

theorem addRecord_mem (domain : String) (s : App) (ttl now : Int) (versions : GoMap record)
    (i : String) :
    i ∈ (addRecord domain s ttl now versions).1.Instances
      ↔ i ∈ s.ids ∨ ∃ r, versions.lookup s.Version = some r ∧ i ∈ r.Instances := by
  unfold addRecord
  simp only
  have hnodes : ∀ (start : GoMap node),
      (i ∈ (if (addInstances domain ttl now s.Instances start).2 = true
            then (addInstances domain ttl now s.Instances start).1
            else refreshInstances ttl now s.Instances
                  (addInstances domain ttl now s.Instances start).1)
        ↔ i ∈ start ∨ i ∈ s.ids) := by
    intro start
    rw [App.mem_ids]
    split
    · exact addInstances_mem _ _ _ _ _ _
    · rw [refreshInstances_mem]; exact addInstances_mem _ _ _ _ _ _
  rw [hnodes]
  cases h : versions.lookup s.Version with
  | none =>
    simp only [Option.getD_none, serviceToRecord_mem]
    simp
  | some r =>
    simp only [Option.getD_some]
    constructor
    · rintro (h1 | h1)
      · exact Or.inr ⟨r, rfl, h1⟩
      · exact Or.inl h1
    · rintro (h1 | ⟨r2, h2, h3⟩)
      · exact Or.inr h1
      · cases h2; exact Or.inl h3

theorem addRecord_events_create (domain : String) (s : App) (ttl now : Int)
    (versions : GoMap record) (h : versions.lookup s.Version = none) :
    (addRecord domain s ttl now versions).2 = [⟨"create", s⟩] := by
  unfold addRecord
  simp only [h, Option.getD_none, Option.isSome_none]
  have hflag : ¬ (addInstances domain ttl now s.Instances
      (serviceToRecord s ttl now).Instances).2 = true := by
    rw [addInstances_flag]
    rintro ⟨n, hn, hn2⟩
    apply hn2
    rw [serviceToRecord_mem, App.mem_ids]
    exact ⟨n, hn, rfl⟩
  simp [hflag]

theorem addRecord_events_update (domain : String) (s : App) (ttl now : Int)
    (versions : GoMap record) (r : record) (h : versions.lookup s.Version = some r)
    (hnew : ∃ n ∈ s.Instances, n.Id ∉ r.Instances) :
    (addRecord domain s ttl now versions).2 = [⟨"update", s⟩] := by
  unfold addRecord
  simp only [h, Option.getD_some, Option.isSome_some]
  have hflag : (addInstances domain ttl now s.Instances r.Instances).2 = true := by
    rw [addInstances_flag]; exact hnew
  simp [hflag]

theorem addRecord_events_none (domain : String) (s : App) (ttl now : Int)
    (versions : GoMap record) (r : record) (h : versions.lookup s.Version = some r)
    (hold : ∀ n ∈ s.Instances, n.Id ∈ r.Instances) :
    (addRecord domain s ttl now versions).2 = [] := by
  unfold addRecord
  simp only [h, Option.getD_some, Option.isSome_some]
  have hflag : ¬ (addInstances domain ttl now s.Instances r.Instances).2 = true := by
    rw [addInstances_flag]
    rintro ⟨n, hn, hn2⟩
    exact hn2 (hold n hn)
  simp [hflag]

theorem Add_recordAt_same (DD : String) (m : Table) (s : App) (o : AddOptions) (now : Int)
    (v : String) :
    (Table.Add DD m s o now).table.recordAt (resolveDomain DD o.Domain) s.Name v
      = if v = s.Version then
          some (addRecord (resolveDomain DD o.Domain) (s.withDomain (resolveDomain DD o.Domain))
              o.TTL now (m.versionsOf (resolveDomain DD o.Domain) s.Name)).1
        else m.recordAt (resolveDomain DD o.Domain) s.Name v := by
  unfold Table.recordAt
  rw [Add_versionsOf, if_pos ⟨rfl, rfl⟩]
  by_cases hv : v = s.Version
  · subst hv; simp
  · rw [if_neg hv, AList.lookup_insert_ne hv]

theorem Add_recordAt_other (DD : String) (m : Table) (s : App) (o : AddOptions) (now : Int)
    (d n v : String) (h : ¬ (d = resolveDomain DD o.Domain ∧ n = s.Name)) :
    (Table.Add DD m s o now).table.recordAt d n v = m.recordAt d n v := by
  unfold Table.recordAt
  rw [Add_versionsOf, if_neg h]

/-! ## The empty table -/

theorem NewTable_versionsOf (DD d n : String) : (NewTable DD).versionsOf d n = ∅ := by
  unfold NewTable Table.versionsOf
  by_cases h : d = DD
  · subst h
    simp only [AList.lookup_insert]
    rfl
  · simp only [AList.lookup_insert_ne h, AList.lookup_empty]
    rfl

theorem NewTable_recordAt (DD d n v : String) : (NewTable DD).recordAt d n v = none := by
  unfold Table.recordAt
  rw [NewTable_versionsOf]
  rfl

/-! ## `KeysMatch` is an invariant -/

theorem NodesKeyed_empty : NodesKeyed ∅ := by
  intro i nd h
  simp at h

theorem NodesKeyed_insert (nodes : GoMap node) (k : String) (nd : node) (h : NodesKeyed nodes)
    (hk : nd.Instance.Id = k) : NodesKeyed (nodes.insert k nd) := by
  intro i x hx
  by_cases hi : i = k
  · subst hi
    rw [AList.lookup_insert] at hx
    cases hx
    exact hk
  · rw [AList.lookup_insert_ne hi] at hx
    exact h i x hx

theorem NodesKeyed_of_lookup_imp (a b : GoMap node) (h : NodesKeyed a)
    (hsub : ∀ i nd, b.lookup i = some nd → a.lookup i = some nd) : NodesKeyed b :=
  fun i nd hb => h i nd (hsub i nd hb)

theorem serviceToRecord_NodesKeyed (s : App) (ttl now : Int) :
    NodesKeyed (serviceToRecord s ttl now).Instances := by
  unfold serviceToRecord
  simp only
  have key : ∀ (incoming : List Instance) (start : GoMap node), NodesKeyed start →
      NodesKeyed (incoming.foldl (fun nodes n => nodes.insert n.Id ⟨n, ttl, now⟩) start) := by
    intro incoming
    induction incoming with
    | nil => intro start h; exact h
    | cons n rest ih =>
      intro start h
      rw [List.foldl_cons]
      exact ih _ (NodesKeyed_insert _ _ _ h rfl)
  exact key _ _ NodesKeyed_empty

theorem addInstances_NodesKeyed (domain : String) (ttl now : Int) (incoming : List Instance)
    (start : GoMap node) (h : NodesKeyed start) :
    NodesKeyed (addInstances domain ttl now incoming start).1 := by
  unfold addInstances
  have key : ∀ (incoming : List Instance) (acc : GoMap node × Bool), NodesKeyed acc.1 →
      NodesKeyed (incoming.foldl (addInstance domain ttl now) acc).1 := by
    intro incoming
    induction incoming with
    | nil => intro acc h; exact h
    | cons n rest ih =>
      intro acc h
      rw [List.foldl_cons]
      apply ih
      unfold addInstance
      split
      · exact h
      · exact NodesKeyed_insert _ _ _ h rfl
  exact key _ _ h

theorem refreshInstances_NodesKeyed (ttl now : Int) (incoming : List Instance)
    (start : GoMap node) (h : NodesKeyed start) :
    NodesKeyed (refreshInstances ttl now incoming start) := by
  unfold refreshInstances
  induction incoming generalizing start with
  | nil => exact h
  | cons n rest ih =>
    rw [List.foldl_cons]
    apply ih
    unfold refreshInstance
    cases hl : start.lookup n.Id with
    | none => exact h
    | some nd => exact NodesKeyed_insert _ _ _ h (h n.Id nd hl)

theorem addRecord_NodesKeyed (domain : String) (s : App) (ttl now : Int)
    (versions : GoMap record)
    (h : ∀ r, versions.lookup s.Version = some r → NodesKeyed r.Instances) :
    NodesKeyed (addRecord domain s ttl now versions).1.Instances := by
  unfold addRecord
  simp only
  have hstart : NodesKeyed ((versions.lookup s.Version).getD (serviceToRecord s ttl now)).Instances := by
    cases hl : versions.lookup s.Version with
    | none => exact serviceToRecord_NodesKeyed s ttl now
    | some r => exact h r hl
  split
  · exact addInstances_NodesKeyed _ _ _ _ _ hstart
  · exact refreshInstances_NodesKeyed _ _ _ _ (addInstances_NodesKeyed _ _ _ _ _ hstart)

theorem NewTable_KeysMatch (DD : String) : (NewTable DD).KeysMatch := by
  intro d n v r h
  rw [NewTable_recordAt] at h
  cases h

theorem Add_KeysMatch (DD : String) (m : Table) (s : App) (o : AddOptions) (now : Int)
    (h : m.KeysMatch) : (Table.Add DD m s o now).table.KeysMatch := by
  intro d n v r hr
  by_cases hdn : d = resolveDomain DD o.Domain ∧ n = s.Name
  · obtain ⟨rfl, rfl⟩ := hdn
    rw [Add_recordAt_same] at hr
    by_cases hv : v = s.Version
    · subst hv
      rw [if_pos rfl] at hr
      cases hr
      rw [addRecord_Name, addRecord_Version]
      simp only [App.withDomain_Name, App.withDomain_Version]
      refine ⟨?_, ?_, ?_⟩
      · cases hs : (m.versionsOf (resolveDomain DD o.Domain) s.Name).lookup s.Version with
        | none => rfl
        | some r0 => exact (h _ _ _ _ hs).1
      · cases hs : (m.versionsOf (resolveDomain DD o.Domain) s.Name).lookup s.Version with
        | none => rfl
        | some r0 => exact (h _ _ _ _ hs).2.1
      · apply addRecord_NodesKeyed
        intro r0 hs
        exact (h _ _ _ _ hs).2.2
    · rw [if_neg hv] at hr
      exact h _ _ _ _ hr
  · rw [Add_recordAt_other _ _ _ _ _ _ _ _ hdn] at hr
    exact h _ _ _ _ hr

theorem Remove_KeysMatch (DD : String) (m : Table) (s : App) (o : RemoveOptions)
    (h : m.KeysMatch) : (Table.Remove DD m s o).table.KeysMatch := by
  cases hrec : m.recordAt (resolveDomain DD o.Domain) s.Name s.Version with
  | none => rw [Remove_absent _ _ _ _ hrec]; exact h
  | some version =>
    obtain ⟨_, _, _, hvs⟩ := Remove_present DD m s o version hrec
    intro d n v r hr
    unfold Table.recordAt at hr
    rw [hvs] at hr
    by_cases hdn : d = resolveDomain DD o.Domain ∧ n = s.Name
    · rw [if_pos hdn] at hr
      obtain ⟨rfl, rfl⟩ := hdn
      by_cases hv : v = s.Version
      · subst hv
        split at hr
        · rw [AList.lookup_insert] at hr
          cases hr
          obtain ⟨h1, h2, h3⟩ := h _ _ _ _ hrec
          refine ⟨h1, h2, ?_⟩
          apply NodesKeyed_of_lookup_imp _ _ h3
          intro i nd hi
          rw [removeInstances_lookup] at hi
          split at hi
          · cases hi
          · exact hi
        · rw [AList.lookup_erase] at hr
          cases hr
      · have hr2 : (m.versionsOf (resolveDomain DD o.Domain) s.Name).lookup v = some r := by
          split at hr
          · rwa [AList.lookup_insert_ne hv] at hr
          · rwa [AList.lookup_erase_ne hv] at hr
        exact h _ _ _ _ hr2
    · rw [if_neg hdn] at hr
      exact h _ _ _ _ hr

/-! ## The claims -/

theorem GoMap.values_map_keyed {V : Type} (m : GoMap V) (f : V → String)
    (h : ∀ k v, m.lookup k = some v → f v = k) : m.values.map f = m.keys := by
  unfold GoMap.values AList.keys List.keys
  rw [List.map_map]
  apply List.map_congr_left
  intro e he
  have : m.lookup e.1 = some e.2 := AList.mem_lookup_iff.mpr he
  exact h _ _ this

theorem recordToApp_ids (r : record) (d : String) :
    (recordToApp r d).ids = r.Instances.values.map (fun n => n.Instance.Id) := by
  simp [recordToApp, App.ids, List.map_map, Function.comp_def]

theorem recordToApp_ids_keyed (r : record) (d : String) (h : NodesKeyed r.Instances) :
    (recordToApp r d).ids = r.Instances.keys := by
  rw [recordToApp_ids]
  exact GoMap.values_map_keyed _ _ h

theorem GoMap.len_insert_ne_zero {V : Type} (m : GoMap V) (k : String) (v : V) :
    GoMap.len (m.insert k v) ≠ 0 := by
  intro h
  have := (GoMap.len_eq_zero_iff _).mp h k
  rw [AList.lookup_insert] at this
  cases this

theorem Table.mem_idsAt (m : Table) (d n v i : String) :
    i ∈ m.idsAt d n v ↔ ∃ r, m.recordAt d n v = some r ∧ i ∈ r.Instances := by
  unfold Table.idsAt
  cases h : m.recordAt d n v with
  | none => simp
  | some r => simp [AList.mem_keys]

/-- C1. After `Add(app, domain D)` on a table whose records and nodes are stored
under their own keys, for a concrete domain `D` (the empty domain resolving to
the default one, the result not being the wildcard): `Get(app.Name, domain D)`
succeeds; its result holds an App with the name and version of `app`, which is
the only App of that version in the result; the instance ids of that App are
pairwise distinct and are, as a set, exactly the ids of `app` united with the
ids registered for (D, name, version) before the call; and when that record was
absent before the call they are exactly the ids of `app`. -/
theorem C1_add_then_get (DD : String) (m : Table) (s : App) (o : AddOptions) (now : Int)
    (fuel : Nat)
    (hD : resolveDomain DD o.Domain ≠ WildcardDomain)
    (hkeys : m.KeysMatch) :
    ∃ apps app,
      Table.Get DD (fuel + 1) (Table.Add DD m s o now).table s.Name ⟨o.Domain⟩ = some (apps, none)
      ∧ app ∈ apps ∧ app.Name = s.Name ∧ app.Version = s.Version
      ∧ (∀ a ∈ apps, a.Version = s.Version → a = app)
      ∧ app.ids.Nodup
      ∧ (∀ i, i ∈ app.ids ↔
            i ∈ s.ids ∨ i ∈ m.idsAt (resolveDomain DD o.Domain) s.Name s.Version)
      ∧ (m.recordAt (resolveDomain DD o.Domain) s.Name s.Version = none →
            ∀ i, i ∈ app.ids ↔ i ∈ s.ids) := by
  have hk2 := Add_KeysMatch DD m s o now hkeys
  have hrec := Add_recordAt_same DD m s o now s.Version
  rw [if_pos rfl] at hrec
  obtain ⟨hN, hV, hK⟩ := hk2 _ _ _ _ hrec
  have hget := Get_concrete DD fuel (Table.Add DD m s o now).table s.Name ⟨o.Domain⟩ hD
  have hvs := Add_versionsOf DD m s o now (resolveDomain DD o.Domain) s.Name
  rw [if_pos ⟨rfl, rfl⟩] at hvs
  simp only at hget
  rw [hvs, if_neg (GoMap.len_insert_ne_zero _ _ _)] at hget
  rw [← hvs] at hget
  refine ⟨_, recordToApp (addRecord (resolveDomain DD o.Domain)
      (s.withDomain (resolveDomain DD o.Domain)) o.TTL now
      (m.versionsOf (resolveDomain DD o.Domain) s.Name)).1 (resolveDomain DD o.Domain),
    hget, ?_, hN, hV, ?_, ?_, ?_, ?_⟩
  · apply List.mem_map.mpr
    refine ⟨_, ?_, rfl⟩
    rw [GoMap.mem_values_iff]
    exact ⟨s.Version, hrec⟩
  · intro a ha hav
    obtain ⟨r, hr, rfl⟩ := List.mem_map.mp ha
    rw [GoMap.mem_values_iff] at hr
    obtain ⟨k, hk⟩ := hr
    have hk3 : (Table.Add DD m s o now).table.recordAt (resolveDomain DD o.Domain) s.Name k
        = some r := hk
    have hrv : r.Version = k := ((Add_KeysMatch DD m s o now hkeys) _ _ _ _ hk3).2.1
    have hkV : k = s.Version := by rw [← hrv]; exact hav
    subst hkV
    rw [hrec] at hk3
    cases hk3
    rfl
  · rw [recordToApp_ids_keyed _ _ hK]
    exact AList.keys_nodup _
  · intro i
    rw [recordToApp_ids_keyed _ _ hK, ← AList.mem_keys, addRecord_mem, Table.mem_idsAt]
    simp only [App.withDomain_Version, App.mem_ids, App.withDomain_Instances]
    rfl
  · intro habs i
    rw [recordToApp_ids_keyed _ _ hK, ← AList.mem_keys, addRecord_mem]
    simp only [App.withDomain_Version, App.mem_ids, App.withDomain_Instances]
    have habs2 : (m.versionsOf (resolveDomain DD o.Domain) s.Name).lookup s.Version = none := habs
    rw [habs2]
    simp

/-- The witness of C1: `Add(fooAC)` on the table that holds foo 1.0.0 with
the instance `a`. -/
theorem C1_add_then_get_witness :
    resolveDomain "micro" "" ≠ WildcardDomain ∧ tableA.KeysMatch ∧
    ∃ apps app,
      Table.Get "micro" 1 (Table.Add "micro" tableA fooAC ⟨0, ""⟩ 5).table "foo" ⟨""⟩
          = some (apps, none)
      ∧ app ∈ apps ∧ app.Name = "foo" ∧ app.Version = "1.0.0"
      ∧ (∀ a ∈ apps, a.Version = "1.0.0" → a = app)
      ∧ app.ids.Nodup
      ∧ (∀ i, i ∈ app.ids ↔ i ∈ fooAC.ids ∨ i ∈ tableA.idsAt "micro" "foo" "1.0.0")
      ∧ (tableA.recordAt "micro" "foo" "1.0.0" = none → ∀ i, i ∈ app.ids ↔ i ∈ fooAC.ids) :=
  ⟨by decide, Add_KeysMatch _ _ _ _ _ (NewTable_KeysMatch _),
   C1_add_then_get "micro" tableA fooAC ⟨0, ""⟩ 5 0 (by decide)
     (Add_KeysMatch _ _ _ _ _ (NewTable_KeysMatch _))⟩

/-- C2. For a concrete domain `D`, `Get(N, D)` returns: the error `ErrNotFound`
(with no Apps) exactly when no version of `N` is stored in `D`; otherwise no
error and one App per version of `N` stored in `D`, in the order of the stored
versions, each with the name and version of its record. It never returns an
empty list together with a nil error. -/
theorem C2_get_concrete (DD : String) (m : Table) (name : String) (o : GetOptions) (fuel : Nat)
    (hD : resolveDomain DD o.Domain ≠ WildcardDomain) :
    ∃ apps err,
      Table.Get DD (fuel + 1) m name o = some (apps, err)
      ∧ (err = some RegistryError.ErrNotFound ↔
            ∀ v, m.recordAt (resolveDomain DD o.Domain) name v = none)
      ∧ (err = some RegistryError.ErrNotFound → apps = [])
      ∧ (err ≠ some RegistryError.ErrNotFound →
            err = none
            ∧ apps.length = (m.versionsOf (resolveDomain DD o.Domain) name).keys.length
            ∧ apps.map (fun a => (a.Name, a.Version))
                = (m.versionsOf (resolveDomain DD o.Domain) name).values.map
                    (fun r => (r.Name, r.Version)))
      ∧ ¬ (apps = [] ∧ err = none) := by
  have hget := Get_concrete DD fuel m name o hD
  by_cases hl : (m.versionsOf (resolveDomain DD o.Domain) name).len = 0
  · rw [if_pos hl] at hget
    refine ⟨[], some RegistryError.ErrNotFound, hget, ?_, ?_, ?_, ?_⟩
    · constructor
      · intro _ v
        exact (GoMap.len_eq_zero_iff _).mp hl v
      · intro _; rfl
    · intro _; rfl
    · intro h; exact absurd rfl h
    · rintro ⟨_, h⟩; cases h
  · rw [if_neg hl] at hget
    refine ⟨_, none, hget, ?_, ?_, ?_, ?_⟩
    · constructor
      · intro h; cases h
      · intro h
        exact absurd ((GoMap.len_eq_zero_iff _).mpr h) hl
    · intro h; cases h
    · intro _
      refine ⟨rfl, ?_, ?_⟩
      · rw [List.length_map, GoMap.length_values, GoMap.length_keys]
      · rw [List.map_map]
        rfl
    · rintro ⟨h, _⟩
      apply hl
      have := congrArg List.length h
      rw [List.length_map, GoMap.length_values] at this
      exact this

/-- The witness of C2: `Get(foo)` on the table that holds foo 1.0.0. -/
theorem C2_get_concrete_witness :
    resolveDomain "micro" "" ≠ WildcardDomain ∧
    ∃ apps err,
      Table.Get "micro" 1 tableA "foo" ⟨""⟩ = some (apps, err)
      ∧ (err = some RegistryError.ErrNotFound ↔
            ∀ v, tableA.recordAt (resolveDomain "micro" "") "foo" v = none)
      ∧ (err = some RegistryError.ErrNotFound → apps = [])
      ∧ (err ≠ some RegistryError.ErrNotFound →
            err = none
            ∧ apps.length = (tableA.versionsOf (resolveDomain "micro" "") "foo").keys.length
            ∧ apps.map (fun a => (a.Name, a.Version))
                = (tableA.versionsOf (resolveDomain "micro" "") "foo").values.map
                    (fun r => (r.Name, r.Version)))
      ∧ ¬ (apps = [] ∧ err = none) :=
  ⟨by decide, C2_get_concrete "micro" tableA "foo" ⟨""⟩ 0 (by decide)⟩

theorem removeInstances_len_eq_zero (incoming : List Instance) (start : GoMap node) :
    (removeInstances incoming start).len = 0 ↔ ∀ i, i ∈ start → ∃ n ∈ incoming, n.Id = i := by
  rw [GoMap.len_eq_zero_iff]
  constructor
  · intro h i hi
    by_contra hnot
    have := h i
    rw [removeInstances_lookup, if_neg hnot, AList.lookup_eq_none] at this
    exact this hi
  · intro h i
    rw [removeInstances_lookup]
    by_cases hi : ∃ n ∈ incoming, n.Id = i
    · rw [if_pos hi]
    · rw [if_neg hi, AList.lookup_eq_none]
      intro hmem
      exact hi (h i hmem)

/-- The record stored under (d, n, v) after `Remove(s, domain D)`, when the
record of `s` is stored: the record of `s` loses the listed instances, or goes
when none is left; every other record is the one stored before. -/
theorem Remove_recordAt (DD : String) (m : Table) (s : App) (o : RemoveOptions) (version : record)
    (h : m.recordAt (resolveDomain DD o.Domain) s.Name s.Version = some version)
    (d n v : String) :
    (Table.Remove DD m s o).table.recordAt d n v
      = if d = resolveDomain DD o.Domain ∧ n = s.Name ∧ v = s.Version then
          (if (removeInstances s.Instances version.Instances).len > 0 then
             some { version with Instances := removeInstances s.Instances version.Instances }
           else none)
        else m.recordAt d n v := by
  obtain ⟨_, _, _, hvs⟩ := Remove_present DD m s o version h
  unfold Table.recordAt
  rw [hvs]
  by_cases hdn : d = resolveDomain DD o.Domain ∧ n = s.Name
  · rw [if_pos hdn]
    obtain ⟨rfl, rfl⟩ := hdn
    by_cases hv : v = s.Version
    · subst hv
      by_cases hlen : (removeInstances s.Instances version.Instances).len > 0
      · simp [hlen]
      · simp [hlen]
    · by_cases hlen : (removeInstances s.Instances version.Instances).len > 0
      · simp [hlen, hv, AList.lookup_insert_ne hv]
      · simp [hlen, hv, AList.lookup_erase_ne hv]
  · rw [if_neg hdn, if_neg (fun hh => hdn ⟨hh.1, hh.2.1⟩)]

theorem removeAll_recordAt_none (DD : String) (name D : String) (rs : List App) (m : Table)
    (hcover : ∀ v r, m.recordAt (resolveDomain DD D) name v = some r →
        ∃ a ∈ rs, a.Name = name ∧ a.Version = v ∧ ∀ i, i ∈ r.Instances → i ∈ a.ids) :
    ∀ v, (rs.foldl (fun t a => (Table.Remove DD t a ⟨D⟩).table) m).recordAt
          (resolveDomain DD D) name v = none := by
  induction rs generalizing m with
  | nil =>
    intro v
    cases hr : m.recordAt (resolveDomain DD D) name v with
    | none => exact hr
    | some r =>
      obtain ⟨a, ha, _⟩ := hcover v r hr
      cases ha
  | cons a₁ rest ih =>
    rw [List.foldl_cons]
    apply ih
    intro v r hr
    cases hrec : m.recordAt (resolveDomain DD D) a₁.Name a₁.Version with
    | none =>
      rw [Remove_absent DD m a₁ ⟨D⟩ hrec] at hr
      obtain ⟨a, ha, hn, hv, hc⟩ := hcover v r hr
      rcases List.mem_cons.mp ha with rfl | ha
      · rw [hn, hv, hr] at hrec
        cases hrec
      · exact ⟨a, ha, hn, hv, hc⟩
    | some version =>
      rw [Remove_recordAt DD m a₁ ⟨D⟩ version hrec] at hr
      by_cases hsame : resolveDomain DD D = resolveDomain DD D ∧ name = a₁.Name ∧ v = a₁.Version
      · rw [if_pos hsame] at hr
        obtain ⟨_, hn1, hv1⟩ := hsame
        by_cases hlen : (removeInstances a₁.Instances version.Instances).len > 0
        · rw [if_pos hlen] at hr
          cases hr
          have hrec2 : m.recordAt (resolveDomain DD D) name v = some version := by
            rw [hn1, hv1]; exact hrec
          obtain ⟨a, ha, hn, hv, hc⟩ := hcover v version hrec2
          rcases List.mem_cons.mp ha with rfl | ha
          · exfalso
            have hz : (removeInstances a.Instances version.Instances).len = 0 := by
              rw [removeInstances_len_eq_zero]
              intro i hi
              exact (App.mem_ids _ _).mp (hc i hi)
            omega
          · refine ⟨a, ha, hn, hv, ?_⟩
            intro i hi
            apply hc
            exact ((removeInstances_mem _ _ _).mp hi).1
        · rw [if_neg hlen] at hr
          cases hr
      · rw [if_neg hsame] at hr
        obtain ⟨a, ha, hn, hv, hc⟩ := hcover v r hr
        rcases List.mem_cons.mp ha with rfl | ha
        · exact absurd ⟨rfl, hn.symm, hv.symm⟩ hsame
        · exact ⟨a, ha, hn, hv, hc⟩

/-- C3. For a concrete domain `D` and a name `N`: after a sequence of `Remove`
calls in domain `D` in which every version of `N` stored in `D` is the version
of some removed app of name `N` whose instance list contains every instance id
of that version (calls for other apps or versions may be interleaved), the
following `Get(N, D)` returns the error `ErrNotFound` and no Apps. -/
theorem C3_remove_all_then_get (DD : String) (m : Table) (name D : String) (rs : List App)
    (fuel : Nat)
    (hD : resolveDomain DD D ≠ WildcardDomain)
    (hcover : ∀ v r, m.recordAt (resolveDomain DD D) name v = some r →
        ∃ a ∈ rs, a.Name = name ∧ a.Version = v ∧ ∀ i, i ∈ r.Instances → i ∈ a.ids) :
    Table.Get DD (fuel + 1) (rs.foldl (fun t a => (Table.Remove DD t a ⟨D⟩).table) m) name ⟨D⟩
      = some ([], some RegistryError.ErrNotFound) := by
  have hnone := removeAll_recordAt_none DD name D rs m hcover
  rw [Get_concrete DD fuel _ name ⟨D⟩ hD]
  rw [if_pos ((GoMap.len_eq_zero_iff _).mpr hnone)]

theorem tableA_cover :
    ∀ v r, tableA.recordAt (resolveDomain "micro" "") "foo" v = some r →
      ∃ a ∈ [fooA], a.Name = "foo" ∧ a.Version = v ∧ ∀ i, i ∈ r.Instances → i ∈ a.ids := by
  intro v r h
  have h2 : (Table.Add "micro" (NewTable "micro") fooA ⟨0, ""⟩ 0).table.recordAt
      (resolveDomain "micro" (AddOptions.mk 0 "").Domain) fooA.Name v = some r := h
  rw [Add_recordAt_same] at h2
  by_cases hv : v = fooA.Version
  · rw [if_pos hv] at h2
    cases h2
    refine ⟨fooA, List.mem_singleton.mpr rfl, rfl, hv.symm, ?_⟩
    intro i hi
    rw [addRecord_mem] at hi
    rcases hi with hi | ⟨r0, hr0, _⟩
    · exact hi
    · rw [NewTable_versionsOf] at hr0
      simp at hr0
  · rw [if_neg hv, NewTable_recordAt] at h2
    cases h2

/-- The witness of C3: `Remove(fooA)` on the table that holds foo 1.0.0 with
the instance `a`. -/
theorem C3_remove_all_then_get_witness :
    resolveDomain "micro" "" ≠ WildcardDomain
    ∧ (∀ v r, tableA.recordAt (resolveDomain "micro" "") "foo" v = some r →
        ∃ a ∈ [fooA], a.Name = "foo" ∧ a.Version = v ∧ ∀ i, i ∈ r.Instances → i ∈ a.ids)
    ∧ Table.Get "micro" 1
        ([fooA].foldl (fun t a => (Table.Remove "micro" t a ⟨""⟩).table) tableA) "foo" ⟨""⟩
        = some ([], some RegistryError.ErrNotFound) :=
  ⟨by decide, tableA_cover,
   C3_remove_all_then_get "micro" tableA "foo" "" [fooA] 0 (by decide) tableA_cover⟩

/-- C4. The events of one `Add(app, domain D)`, with `R` the resolved domain:
exactly one `create` and nothing else when (R, name, version) was not stored,
whatever instances the app lists; exactly one `update` and nothing else when the
record was stored and some listed id was not in it; no event when the record was
stored and every listed id was in it. Hence, on a table that lacks the record,
`Add(app)` followed by an `Add` of the same name, version and instances into the
same domain emits one `create` and no `update` in all. -/
theorem C4_add_events (DD : String) (m : Table) (s : App) (o : AddOptions) (now : Int) :
    (m.recordAt (resolveDomain DD o.Domain) s.Name s.Version = none →
        (Table.Add DD m s o now).events
          = [⟨"create", s.withDomain (resolveDomain DD o.Domain)⟩])
    ∧ (∀ r, m.recordAt (resolveDomain DD o.Domain) s.Name s.Version = some r →
        (∃ n ∈ s.Instances, n.Id ∉ r.Instances) →
        (Table.Add DD m s o now).events
          = [⟨"update", s.withDomain (resolveDomain DD o.Domain)⟩])
    ∧ (∀ r, m.recordAt (resolveDomain DD o.Domain) s.Name s.Version = some r →
        (∀ n ∈ s.Instances, n.Id ∈ r.Instances) →
        (Table.Add DD m s o now).events = [])
    ∧ (m.recordAt (resolveDomain DD o.Domain) s.Name s.Version = none →
        ∀ (s2 : App) (o2 : AddOptions) (now2 : Int),
          s2.Name = s.Name → s2.Version = s.Version → s2.Instances = s.Instances →
          resolveDomain DD o2.Domain = resolveDomain DD o.Domain →
          ((Table.Add DD m s o now).events
            ++ (Table.Add DD (Table.Add DD m s o now).table s2 o2 now2).events).map
              (fun e => e.Action) = ["create"]) := by
  refine ⟨?_, ?_, ?_, ?_⟩
  · intro h
    rw [Add_events]
    exact addRecord_events_create _ _ _ _ _ h
  · intro r h hnew
    rw [Add_events]
    exact addRecord_events_update _ _ _ _ _ r h hnew
  · intro r h hold
    rw [Add_events]
    exact addRecord_events_none _ _ _ _ _ r h hold
  · intro h s2 o2 now2 hn hv hi hd
    have h1 : (Table.Add DD m s o now).events
        = [⟨"create", s.withDomain (resolveDomain DD o.Domain)⟩] := by
      rw [Add_events]
      exact addRecord_events_create _ _ _ _ _ h
    have hrec := Add_recordAt_same DD m s o now s.Version
    rw [if_pos rfl] at hrec
    have h2 : (Table.Add DD (Table.Add DD m s o now).table s2 o2 now2).events = [] := by
      rw [Add_events]
      apply addRecord_events_none _ _ _ _ _ _
        (by
          show (Table.recordAt _ _ _ _) = _
          rw [hd, hn]
          simp only [App.withDomain_Version, hv]
          exact hrec)
      intro n hn2
      rw [addRecord_mem]
      left
      rw [App.mem_ids]
      simp only [App.withDomain_Instances] at hn2 ⊢
      rw [hi] at hn2
      exact ⟨n, hn2, rfl⟩
    rw [h1, h2]
    rfl

theorem GoMap.len_eq_one_of {V : Type} (m : GoMap V) (k : String) (hk : k ∈ m)
    (honly : ∀ k2, k2 ≠ k → m.lookup k2 = none) : m.len = 1 := by
  obtain ⟨entries, nd⟩ := m
  have hkeys : ∀ k2, k2 ∈ entries.keys → k2 = k := by
    intro k2 h2
    by_contra hne
    have := honly k2 hne
    rw [AList.lookup_eq_none] at this
    exact this (AList.mem_keys.mpr h2)
  cases entries with
  | nil =>
    have := AList.mem_keys.mp hk
    simp [AList.keys] at this
  | cons e es =>
    cases es with
    | nil => rfl
    | cons e2 es2 =>
      exfalso
      have h1 : e.1 = k := hkeys e.1 (by simp [List.keys])
      have h2 : e2.1 = k := hkeys e2.1 (by simp [List.keys])
      have hnd := List.nodupKeys_cons.mp nd
      apply hnd.1
      rw [h1, ← h2]
      simp [List.keys]

theorem Remove_last_version_entry (DD : String) (m : Table) (s : App) (o : RemoveOptions)
    (version : record)
    (h : m.recordAt (resolveDomain DD o.Domain) s.Name s.Version = some version)
    (hall : ∀ i, i ∈ version.Instances → i ∈ s.ids)
    (honly : ∀ v, v ≠ s.Version → m.recordAt (resolveDomain DD o.Domain) s.Name v = none) :
    ((Table.Remove DD m s o).table.records.lookup (resolveDomain DD o.Domain)).bind
        (fun srvs => srvs.lookup s.Name) = none := by
  obtain ⟨srvs, h1, h2, h3⟩ := Table.recordAt_eq_some m _ _ _ _ h
  have hlen : ¬ (removeInstances s.Instances version.Instances).len > 0 := by
    have : (removeInstances s.Instances version.Instances).len = 0 := by
      rw [removeInstances_len_eq_zero]
      intro i hi
      exact (App.mem_ids _ _).mp (hall i hi)
    omega
  have hone : (m.versionsOf (resolveDomain DD o.Domain) s.Name).len = 1 :=
    GoMap.len_eq_one_of _ s.Version (AList.lookup_isSome.mp (by rw [h3]; rfl)) honly
  unfold Table.Remove
  simp only [App.withDomain_Name, App.withDomain_Version, App.withDomain_Instances]
  rw [h1]; simp only; rw [h2]; simp only; rw [h3]; simp only
  rw [if_neg hlen, if_pos hone]
  simp

theorem resolveDomain_empty (DD : String) : resolveDomain DD "" = DD := rfl

/-- The scenario S2 on a fresh table with default domain `DD`: the events of the
three calls and the final `Get(foo)`. -/
theorem scenario_S2 (DD : String) (fuel : Nat) (hDD : DD ≠ WildcardDomain) :
    ((Table.Add DD (NewTable DD) fooA ⟨0, ""⟩ 0).events
      ++ (Table.Add DD (Table.Add DD (NewTable DD) fooA ⟨0, ""⟩ 0).table fooB ⟨0, ""⟩ 0).events
      ++ (Table.Remove DD
            (Table.Add DD (Table.Add DD (NewTable DD) fooA ⟨0, ""⟩ 0).table fooB ⟨0, ""⟩ 0).table
            fooA ⟨""⟩).events).map (fun e => e.Action) = ["create", "create", "delete"]
    ∧ (Table.Get DD (fuel + 1)
        (Table.Remove DD
            (Table.Add DD (Table.Add DD (NewTable DD) fooA ⟨0, ""⟩ 0).table fooB ⟨0, ""⟩ 0).table
            fooA ⟨""⟩).table "foo" ⟨""⟩).map (fun r => (r.1.map (fun a => a.Version), r.2))
        = some (["1.0.1"], none) := by
  simp [Table.Add, Table.Remove, Table.Get, NewTable, resolveDomain_empty, addRecord, App.withDomain,
    fooA, fooB, serviceToRecord, addInstances, addInstance, refreshInstances, refreshInstance,
    removeInstances, removeInstance, GoMap.len, GoMap.values, recordToApp, hDD,
    AList.lookup_insert_ne, -AList.insert_empty, AList.erase, AList.insert_entries,
    List.kerase_cons_eq, List.kerase_cons_ne, AList.empty_entries]

/-- C5. When (R, N, V) is stored, `R` being the resolved domain of `D`, and
`Remove(app N/V, domain D)` lists every id of the record, so that no instance
is left: exactly one `delete` event is emitted and no error is returned; the
version `V` of `N` is no longer stored in `R`; every other record of the table,
the other versions of `N` in `R` among them, is stored as before; when `V` was
the only version of `N` in `R` the entry of `N` is gone from the services of
`R`; and for a concrete `D`, `Get(N, D)` returns `ErrNotFound` when no other
version is stored and otherwise one App per other version. In particular, on a
fresh table, Add(foo 1.0.0 [a]), Add(foo 1.0.1 [b]), Remove(foo 1.0.0 [a]) emit
create, create, delete and Get(foo) then returns one App, of version 1.0.1. -/
theorem C5_remove_last_instance (DD : String) (m : Table) (s : App) (o : RemoveOptions)
    (version : record) (fuel : Nat)
    (hrec : m.recordAt (resolveDomain DD o.Domain) s.Name s.Version = some version)
    (hall : ∀ i, i ∈ version.Instances → i ∈ s.ids) :
    (Table.Remove DD m s o).events = [⟨"delete", s.withDomain (resolveDomain DD o.Domain)⟩]
    ∧ (Table.Remove DD m s o).err = none
    ∧ (Table.Remove DD m s o).table.recordAt (resolveDomain DD o.Domain) s.Name s.Version = none
    ∧ (∀ d n v, ¬ (d = resolveDomain DD o.Domain ∧ n = s.Name ∧ v = s.Version) →
        (Table.Remove DD m s o).table.recordAt d n v = m.recordAt d n v)
    ∧ ((∀ v, v ≠ s.Version → m.recordAt (resolveDomain DD o.Domain) s.Name v = none) →
        ((Table.Remove DD m s o).table.records.lookup (resolveDomain DD o.Domain)).bind
          (fun srvs => srvs.lookup s.Name) = none)
    ∧ (resolveDomain DD o.Domain ≠ WildcardDomain →
        Table.Get DD (fuel + 1) (Table.Remove DD m s o).table s.Name ⟨o.Domain⟩
          = some (if GoMap.len ((m.versionsOf (resolveDomain DD o.Domain) s.Name).erase s.Version) = 0
                  then ([], some RegistryError.ErrNotFound)
                  else ((GoMap.values
                          ((m.versionsOf (resolveDomain DD o.Domain) s.Name).erase s.Version)).map
                          (fun r => recordToApp r (resolveDomain DD o.Domain)), none)))
    ∧ (DD ≠ WildcardDomain →
        ((Table.Add DD (NewTable DD) fooA ⟨0, ""⟩ 0).events
          ++ (Table.Add DD (Table.Add DD (NewTable DD) fooA ⟨0, ""⟩ 0).table fooB ⟨0, ""⟩ 0).events
          ++ (Table.Remove DD
                (Table.Add DD (Table.Add DD (NewTable DD) fooA ⟨0, ""⟩ 0).table fooB ⟨0, ""⟩
                  0).table fooA ⟨""⟩).events).map (fun e => e.Action)
            = ["create", "create", "delete"]
        ∧ (Table.Get DD (fuel + 1)
            (Table.Remove DD
                (Table.Add DD (Table.Add DD (NewTable DD) fooA ⟨0, ""⟩ 0).table fooB ⟨0, ""⟩
                  0).table fooA ⟨""⟩).table "foo" ⟨""⟩).map
              (fun r => (r.1.map (fun a => a.Version), r.2))
            = some (["1.0.1"], none)) := by
  have hlen : ¬ (removeInstances s.Instances version.Instances).len > 0 := by
    have : (removeInstances s.Instances version.Instances).len = 0 := by
      rw [removeInstances_len_eq_zero]
      intro i hi
      exact (App.mem_ids _ _).mp (hall i hi)
    omega
  obtain ⟨hev, herr, _, hvs⟩ := Remove_present DD m s o version hrec
  rw [if_neg hlen] at hev
  refine ⟨hev, herr, ?_, ?_, ?_, ?_, ?_⟩
  · rw [Remove_recordAt DD m s o version hrec, if_pos ⟨rfl, rfl, rfl⟩, if_neg hlen]
  · intro d n v hne
    rw [Remove_recordAt DD m s o version hrec, if_neg hne]
  · exact Remove_last_version_entry DD m s o version hrec hall
  · intro hD
    rw [Get_concrete DD fuel _ s.Name ⟨o.Domain⟩ hD]
    have hv2 := hvs (resolveDomain DD o.Domain) s.Name
    rw [if_pos ⟨rfl, rfl⟩, if_neg hlen] at hv2
    simp only
    rw [hv2]
  · intro hDD
    exact scenario_S2 DD fuel hDD

/-- The record of foo 1.0.0 in the table of scenario S2 before the `Remove`. -/
theorem tableAB_recordAt :
    (Table.Add "micro" tableA fooB ⟨0, ""⟩ 0).table.recordAt (resolveDomain "micro" "")
        "foo" "1.0.0"
      = some ⟨"foo", "1.0.0", AList.insert "domain" "micro" ∅,
              AList.insert "a" ⟨⟨"a", "l:1", ∅⟩, 0, 0⟩ ∅, []⟩ := by
  decide

/-- The witness of C5: `Remove(fooA)` on the table that holds foo 1.0.0 with
the instance `a` and foo 1.0.1 with the instance `b`. -/
theorem C5_remove_last_instance_witness :
    (Table.Remove "micro" (Table.Add "micro" tableA fooB ⟨0, ""⟩ 0).table fooA ⟨""⟩).events
        = [⟨"delete", fooA.withDomain "micro"⟩]
    ∧ (Table.Remove "micro" (Table.Add "micro" tableA fooB ⟨0, ""⟩ 0).table fooA ⟨""⟩).table.recordAt
        "micro" "foo" "1.0.0" = none
    ∧ (Table.Remove "micro" (Table.Add "micro" tableA fooB ⟨0, ""⟩ 0).table fooA ⟨""⟩).table.recordAt
        "micro" "foo" "1.0.1"
        = (Table.Add "micro" tableA fooB ⟨0, ""⟩ 0).table.recordAt "micro" "foo" "1.0.1" :=
  have h := C5_remove_last_instance "micro" (Table.Add "micro" tableA fooB ⟨0, ""⟩ 0).table fooA
    ⟨""⟩ _ 0 tableAB_recordAt (by decide)
  ⟨h.1, h.2.2.1, h.2.2.2.1 "micro" "foo" "1.0.1" (by decide)⟩

/-- C6. When (R, N, V) is stored with the record `version` and `Remove(app N/V,
domain D)` leaves some instance id of the record unlisted: the record is still
stored under (R, N, V); its instance ids are exactly the stored ids that the app
does not list (listed ids that were not stored change nothing); every node that
stays is the node stored before, and the name, version, metadata and endpoints
of the record stay; exactly one `update` event and no `delete` is emitted, and
no error is returned. -/
theorem C6_remove_some (DD : String) (m : Table) (s : App) (o : RemoveOptions)
    (version : record)
    (hrec : m.recordAt (resolveDomain DD o.Domain) s.Name s.Version = some version)
    (hleft : ∃ i, i ∈ version.Instances ∧ i ∉ s.ids) :
    ∃ left : record,
      (Table.Remove DD m s o).table.recordAt (resolveDomain DD o.Domain) s.Name s.Version
        = some left
      ∧ (∀ i, i ∈ left.Instances ↔ i ∈ version.Instances ∧ i ∉ s.ids)
      ∧ (∀ i, i ∉ s.ids → left.Instances.lookup i = version.Instances.lookup i)
      ∧ left.Name = version.Name ∧ left.Version = version.Version
      ∧ left.Metadata = version.Metadata ∧ left.Endpoints = version.Endpoints
      ∧ (Table.Remove DD m s o).events
          = [⟨"update", s.withDomain (resolveDomain DD o.Domain)⟩]
      ∧ (Table.Remove DD m s o).err = none := by
  have hlen : (removeInstances s.Instances version.Instances).len > 0 := by
    obtain ⟨i, hi, hi2⟩ := hleft
    by_contra hnot
    have hz : (removeInstances s.Instances version.Instances).len = 0 := by omega
    rw [removeInstances_len_eq_zero] at hz
    exact hi2 ((App.mem_ids _ _).mpr (hz i hi))
  obtain ⟨hev, herr, _, _⟩ := Remove_present DD m s o version hrec
  rw [if_pos hlen] at hev
  refine ⟨{ version with Instances := removeInstances s.Instances version.Instances },
    ?_, ?_, ?_, rfl, rfl, rfl, rfl, hev, herr⟩
  · rw [Remove_recordAt DD m s o version hrec, if_pos ⟨rfl, rfl, rfl⟩, if_pos hlen]
  · intro i
    simp only
    rw [removeInstances_mem, App.mem_ids]
  · intro i hi
    simp only
    rw [removeInstances_lookup, if_neg (fun h => hi ((App.mem_ids _ _).mpr h))]

/-- The record of foo 1.0.0 after `Add(fooA)` and `Add(fooAC)`: the instances `a`
and `c`. -/
theorem tableAC_recordAt :
    (Table.Add "micro" tableA fooAC ⟨0, ""⟩ 0).table.recordAt (resolveDomain "micro" "")
        "foo" "1.0.0" = some recAC := by
  decide

/-- The witness of C6: `Remove(fooA)` on the table that holds foo 1.0.0 with the
instances `a` and `c`. -/
theorem C6_remove_some_witness :
    (∃ i, i ∈ recAC.Instances ∧ i ∉ fooA.ids)
    ∧ ∃ left : record,
      (Table.Remove "micro" (Table.Add "micro" tableA fooAC ⟨0, ""⟩ 0).table fooA ⟨""⟩).table.recordAt
          "micro" "foo" "1.0.0" = some left
      ∧ (∀ i, i ∈ left.Instances ↔ i ∈ recAC.Instances ∧ i ∉ fooA.ids)
      ∧ (Table.Remove "micro" (Table.Add "micro" tableA fooAC ⟨0, ""⟩ 0).table fooA ⟨""⟩).events
          = [⟨"update", fooA.withDomain "micro"⟩] :=
  have hleft : ∃ i, i ∈ recAC.Instances ∧ i ∉ fooA.ids := ⟨"c", by decide, by decide⟩
  have h := C6_remove_some "micro" (Table.Add "micro" tableA fooAC ⟨0, ""⟩ 0).table fooA ⟨""⟩
    recAC tableAC_recordAt hleft
  ⟨hleft, h.choose, h.choose_spec.1, h.choose_spec.2.1, h.choose_spec.2.2.2.2.2.2.2.1⟩

/-- C7. When the resolved domain is not stored, or the name of the app is not
stored in that domain, or the version of the app is not stored under that name,
`Remove` returns no error, leaves the table (every record, and the watcher set)
as it was, and emits no event. -/
theorem C7_remove_absent (DD : String) (m : Table) (s : App) (o : RemoveOptions)
    (h : m.records.lookup (resolveDomain DD o.Domain) = none
        ∨ (∃ srvs, m.records.lookup (resolveDomain DD o.Domain) = some srvs
              ∧ srvs.lookup s.Name = none)
        ∨ (∃ srvs versions, m.records.lookup (resolveDomain DD o.Domain) = some srvs
              ∧ srvs.lookup s.Name = some versions ∧ versions.lookup s.Version = none)) :
    (Table.Remove DD m s o).err = none
    ∧ (Table.Remove DD m s o).table = m
    ∧ (Table.Remove DD m s o).table.records = m.records
    ∧ (Table.Remove DD m s o).table.watchers = m.watchers
    ∧ (Table.Remove DD m s o).events = [] := by
  have habs := (Table.recordAt_eq_none_iff m _ _ _).mpr h
  rw [Remove_absent DD m s o habs]
  exact ⟨rfl, rfl, rfl, rfl, rfl⟩

/-- The witness of C7: `Remove(fooB)` on the table that holds foo 1.0.0 only
(the version is absent), and `Remove(fooA)` in a domain that is not stored. -/
theorem C7_remove_absent_witness :
    (Table.Remove "micro" tableA fooB ⟨""⟩).table = tableA
    ∧ (Table.Remove "micro" tableA fooB ⟨""⟩).events = []
    ∧ (Table.Remove "micro" tableA fooA ⟨"other"⟩).table = tableA
    ∧ (Table.Remove "micro" tableA fooA ⟨"other"⟩).events = [] :=
  have h1 := C7_remove_absent "micro" tableA fooB ⟨""⟩
    (Or.inr (Or.inr ⟨servicesA, versionsA, by decide, by decide, by decide⟩))
  have h2 := C7_remove_absent "micro" tableA fooA ⟨"other"⟩ (Or.inl (by decide))
  ⟨h1.2.1, h1.2.2.2.2, h2.2.1, h2.2.2.2.2⟩

/-! ## The wildcard domain -/

theorem listLoop_eq (call : String → Option (List App × Option RegistryError))
    (f : String → List App) (keys : List String) (acc : List App)
    (h : ∀ d ∈ keys, call d = some (f d, none)) :
    listLoop call keys acc = some (acc ++ keys.flatMap f, none) := by
  induction keys generalizing acc with
  | nil => simp [listLoop]
  | cons d rest ih =>
    unfold listLoop
    rw [h d (List.mem_cons_self _ _)]
    simp only [ne_eq, not_true_eq_false, if_false]
    rw [ih _ (fun x hx => h x (List.mem_cons_of_mem _ hx))]
    simp [List.flatMap_cons, List.append_assoc]

theorem getLoop_eq (call : String → Option (List App × Option RegistryError))
    (f : String → List App) (keys : List String) (acc : List App)
    (h : ∀ d ∈ keys, call d = some (if (f d).length = 0 then ([], some RegistryError.ErrNotFound)
                                    else (f d, none))) :
    getLoop call keys acc
      = some (if (acc ++ keys.flatMap f).length = 0 then ([], some RegistryError.ErrNotFound)
              else (acc ++ keys.flatMap f, none)) := by
  induction keys generalizing acc with
  | nil =>
    unfold getLoop
    by_cases hl : acc.length = 0
    · simp [hl]
    · simp [hl]
  | cons d rest ih =>
    unfold getLoop
    rw [h d (List.mem_cons_self _ _)]
    by_cases hl : (f d).length = 0
    · have hnil : f d = [] := List.length_eq_zero.mp hl
      simp only [hl, if_true]
      rw [ih _ (fun x hx => h x (List.mem_cons_of_mem _ hx))]
      simp [List.flatMap_cons, hnil]
    · simp only [hl, if_false]
      have h1 : ¬ ((none : Option RegistryError) = some RegistryError.ErrNotFound) := by
        intro hh; cases hh
      rw [if_neg h1]
      simp only [ne_eq, not_true_eq_false, if_false]
      rw [ih _ (fun x hx => h x (List.mem_cons_of_mem _ hx))]
      simp [List.flatMap_cons, List.append_assoc]

theorem resolveDomain_of_ne_empty (DD d : String) (h : d ≠ "") : resolveDomain DD d = d := by
  unfold resolveDomain
  have : d.length ≠ 0 := by
    intro h0
    apply h
    have := List.length_eq_zero.mp h0
    exact String.ext this
  rw [if_neg this]

theorem resolveDomain_wildcard (DD : String) : resolveDomain DD WildcardDomain = WildcardDomain :=
  rfl

theorem key_concrete (DD : String) (m : Table) (hstar : WildcardDomain ∉ m.records)
    (hempty : "" ∉ m.records) (d : String) (hd : d ∈ m.records.keys) :
    resolveDomain DD d = d ∧ resolveDomain DD d ≠ WildcardDomain := by
  have h1 : d ≠ "" := fun h => hempty (by rw [← h]; exact AList.mem_keys.mpr hd)
  have h2 : d ≠ WildcardDomain := fun h => hstar (by rw [← h]; exact AList.mem_keys.mpr hd)
  rw [resolveDomain_of_ne_empty DD d h1]
  exact ⟨rfl, h2⟩

/-- The apps `Get(name, d)` builds from the versions of `name` stored in `d`. -/
theorem Get_key (DD : String) (fuel : Nat) (m : Table) (name : String)
    (hstar : WildcardDomain ∉ m.records) (hempty : "" ∉ m.records)
    (d : String) (hd : d ∈ m.records.keys) :
    Table.Get DD (fuel + 1) m name ⟨d⟩
      = some (if ((m.versionsOf d name).values.map (fun r => recordToApp r d)).length = 0 then
                ([], some RegistryError.ErrNotFound)
              else ((m.versionsOf d name).values.map (fun r => recordToApp r d), none)) := by
  obtain ⟨h1, h2⟩ := key_concrete DD m hstar hempty d hd
  rw [Get_concrete DD fuel m name ⟨d⟩ h2]
  simp only [h1, List.length_map, GoMap.length_values]

theorem Get_wildcard (DD : String) (fuel : Nat) (m : Table) (name : String)
    (hstar : WildcardDomain ∉ m.records) (hempty : "" ∉ m.records) :
    Table.Get DD (fuel + 2) m name ⟨WildcardDomain⟩
      = some (if (m.records.keys.flatMap (fun d =>
                    (m.versionsOf d name).values.map (fun r => recordToApp r d))).length = 0 then
                ([], some RegistryError.ErrNotFound)
              else (m.records.keys.flatMap (fun d =>
                    (m.versionsOf d name).values.map (fun r => recordToApp r d)), none)) := by
  rw [Table.Get]
  simp only [resolveDomain_wildcard, if_true]
  rw [getLoop_eq _ (fun d => (m.versionsOf d name).values.map (fun r => recordToApp r d))]
  · simp
  · intro d hd
    exact Get_key DD fuel m name hstar hempty d hd

theorem List_key (DD : String) (fuel : Nat) (m : Table)
    (hstar : WildcardDomain ∉ m.records) (hempty : "" ∉ m.records)
    (d : String) (hd : d ∈ m.records.keys) :
    Table.List DD (fuel + 1) m ⟨d⟩
      = some ((((m.records.lookup d).getD ∅).entries.flatMap
                (fun service => service.2.values.map
                  (fun version => recordToApp version service.1))), none) := by
  obtain ⟨h1, h2⟩ := key_concrete DD m hstar hempty d hd
  rw [List_concrete DD fuel m ⟨d⟩ h2]
  dsimp only
  rw [h1]

theorem List_wildcard (DD : String) (fuel : Nat) (m : Table)
    (hstar : WildcardDomain ∉ m.records) (hempty : "" ∉ m.records) :
    Table.List DD (fuel + 2) m ⟨WildcardDomain⟩
      = some (m.records.keys.flatMap (fun d =>
                ((m.records.lookup d).getD ∅).entries.flatMap
                  (fun service => service.2.values.map
                    (fun version => recordToApp version service.1))), none) := by
  rw [Table.List]
  simp only [resolveDomain_wildcard, if_true]
  rw [listLoop_eq _ (fun d => ((m.records.lookup d).getD ∅).entries.flatMap
                  (fun service => service.2.values.map
                    (fun version => recordToApp version service.1)))]
  · simp
  · intro d hd
    exact List_key DD fuel m hstar hempty d hd

theorem Add_records_lookup (DD : String) (m : Table) (s : App) (o : AddOptions) (now : Int)
    (d : String) :
    (Table.Add DD m s o now).table.records.lookup d
      = if d = resolveDomain DD o.Domain then
          some (((m.records.lookup (resolveDomain DD o.Domain)).getD ∅).insert s.Name
            ((m.versionsOf (resolveDomain DD o.Domain) s.Name).insert s.Version
              (addRecord (resolveDomain DD o.Domain) (s.withDomain (resolveDomain DD o.Domain))
                o.TTL now (m.versionsOf (resolveDomain DD o.Domain) s.Name)).1))
        else m.records.lookup d := by
  unfold Table.Add
  simp only [App.withDomain_Name, App.withDomain_Version]
  rw [← Table.versionsOf_eq]
  by_cases hd : d = resolveDomain DD o.Domain
  · subst hd
    rw [if_pos rfl, AList.lookup_insert]
  · rw [if_neg hd, AList.lookup_insert_ne hd]

theorem Add_keys (DD : String) (m : Table) (s : App) (o : AddOptions) (now : Int) :
    (Table.Add DD m s o now).table.records.keys
      = resolveDomain DD o.Domain :: m.records.keys.erase (resolveDomain DD o.Domain) := by
  unfold Table.Add
  simp only
  rw [AList.keys_insert]

theorem NewTable_keys (DD : String) : (NewTable DD).records.keys = [DD] := by
  unfold NewTable
  simp only
  rw [AList.keys_insert]
  rfl

theorem NewTable_lookup_getD (DD d : String) : ((NewTable DD).records.lookup d).getD ∅ = ∅ := by
  unfold NewTable
  by_cases h : d = DD
  · subst h
    simp only [AList.lookup_insert]
    rfl
  · simp only [AList.lookup_insert_ne h, AList.lookup_empty]
    rfl

theorem NewTable_recordsIn (DD d : String) : (NewTable DD).recordsIn d = [] := by
  unfold Table.recordsIn
  rw [NewTable_lookup_getD]
  rfl

/-- After `Add` into a domain that held nothing, the domain holds one record. -/
theorem Add_recordsIn_fresh (DD : String) (m : Table) (s : App) (o : AddOptions) (now : Int)
    (h : (m.records.lookup (resolveDomain DD o.Domain)).getD ∅ = ∅) :
    ((Table.Add DD m s o now).table.recordsIn (resolveDomain DD o.Domain)).length = 1 := by
  unfold Table.recordsIn
  rw [Add_records_lookup, if_pos rfl]
  have hv : m.versionsOf (resolveDomain DD o.Domain) s.Name = ∅ := by
    rw [Table.versionsOf_eq, h]
    rfl
  rw [h, hv]
  simp [GoMap.values, AList.insert_entries]

theorem Add_recordsIn_other (DD : String) (m : Table) (s : App) (o : AddOptions) (now : Int)
    (d : String) (h : d ≠ resolveDomain DD o.Domain) :
    (Table.Add DD m s o now).table.recordsIn d = m.recordsIn d := by
  unfold Table.recordsIn
  rw [Add_records_lookup, if_neg h]

/-- After `Add(s)` into a domain that held no version of `s.Name`, the domain
holds one version of it. -/
theorem Add_versionsOf_fresh (DD : String) (m : Table) (s : App) (o : AddOptions) (now : Int)
    (h : m.versionsOf (resolveDomain DD o.Domain) s.Name = ∅) :
    ((Table.Add DD m s o now).table.versionsOf (resolveDomain DD o.Domain) s.Name).keys.length
      = 1 := by
  rw [Add_versionsOf, if_pos ⟨rfl, rfl⟩, h]
  simp [AList.keys_insert]

theorem two_domain_sum (DD R1 R2 : String) (g : String → Nat) (h1 : g R1 = 1) (h2 : g R2 = 1)
    (h0 : DD ≠ R1 → DD ≠ R2 → g DD = 0) (hne : R1 ≠ R2) :
    ((R2 :: ((R1 :: [DD].erase R1).erase R2)).map g).sum = 2 := by
  by_cases a : DD = R1
  · subst a
    simp [List.erase_cons, hne, h1, h2]
  · by_cases b : DD = R2
    · subst b
      simp [List.erase_cons, hne, h1, h2, a, Ne.symm a]
    · simp [List.erase_cons, hne, h1, h2, a, b, h0 a b]

theorem tableTwoDomains_keys (DD : String) (s : App) (D1 D2 : String) :
    (tableTwoDomains DD s D1 D2).records.keys
      = resolveDomain DD D2
          :: ((resolveDomain DD D1 :: [DD].erase (resolveDomain DD D1)).erase
                (resolveDomain DD D2)) := by
  unfold tableTwoDomains
  rw [Add_keys, Add_keys, NewTable_keys]

theorem tableTwoDomains_mem (DD : String) (s : App) (D1 D2 d : String)
    (h : d ∈ (tableTwoDomains DD s D1 D2).records) :
    d = resolveDomain DD D2 ∨ d = resolveDomain DD D1 ∨ d = DD := by
  rw [AList.mem_keys, tableTwoDomains_keys] at h
  rcases List.mem_cons.mp h with h | h
  · exact Or.inl h
  · have h2 := List.mem_of_mem_erase h
    rcases List.mem_cons.mp h2 with h3 | h3
    · exact Or.inr (Or.inl h3)
    · have h4 := List.mem_of_mem_erase h3
      exact Or.inr (Or.inr (List.mem_singleton.mp h4))

theorem resolveDomain_ne_empty (DD D : String) (hDD : DD ≠ "") : resolveDomain DD D ≠ "" := by
  unfold resolveDomain
  split
  · exact hDD
  · rename_i h
    intro h2
    apply h
    rw [h2]
    rfl

theorem listApps_map (srvs : services) :
    (srvs.entries.flatMap (fun service => service.2.values.map
        (fun version => recordToApp version service.1))).map (fun a => (a.Name, a.Version))
      = (srvs.values.flatMap (fun versions => versions.values)).map
          (fun r => (r.Name, r.Version)) := by
  unfold GoMap.values
  simp only [List.map_flatMap, List.flatMap_map, List.map_map]
  rfl

theorem listApps_length (srvs : services) :
    (srvs.entries.flatMap (fun service => service.2.values.map
        (fun version => recordToApp version service.1))).length
      = (srvs.values.flatMap (fun versions => versions.values)).length := by
  have := congrArg List.length (listApps_map srvs)
  simpa using this

/-- The table `tableStar` stores the domain key "*", no record under it, and
`List` with the wildcard domain does not return on it, whatever the fuel. -/
theorem List_tableStar_none (fuel : Nat) : Table.List "micro" fuel tableStar ⟨"*"⟩ = none := by
  induction fuel with
  | zero => rfl
  | succ k ih =>
    rw [Table.List]
    have hk : tableStar.records.keys = ["*", "micro"] := by decide
    have hr : resolveDomain "micro" (ListOptions.mk "*").Domain = WildcardDomain := rfl
    simp only [hr, if_true, hk]
    unfold listLoop
    have hcall : Table.List "micro" k tableStar { (ListOptions.mk "*") with Domain := "*" }
        = none := ih
    rw [hcall]

/-- C8 (the code at the failing input). After `Add(fooA, domain "*")` and
`Remove(fooA, domain "*")` on a fresh table no record is stored under the
domain "*" (nor anywhere else), the key "*" is still stored, and
`List(domain "*")` never returns, however deep the recursion is allowed to go:
each call re-enters the wildcard branch for the stored key "*". -/
theorem C8_list_wildcard_star_key :
    tableStar.recordsIn "*" = []
    ∧ tableStar.records.keys = ["*", "micro"]
    ∧ ¬ ∃ fuel r, Table.List "micro" fuel tableStar ⟨"*"⟩ = some r := by
  refine ⟨by decide, by decide, ?_⟩
  rintro ⟨fuel, r, h⟩
  rw [List_tableStar_none] at h
  cases h

/-- What `List` returns on the tables that do not store the key "*". `List(D)`
for a concrete domain `D` returns, without error, one App per (name, version) record stored in `D`, carrying the name and version
of its record, and the empty list when `D` is not stored or holds nothing. When
neither the literal "*" nor the empty string is a stored domain key,
`List(domain "*")` returns, without error, a permutation of the concatenation of
`List(d)` over the stored domains `d`, each of which returns without error, so
its length is the number of records over all domains. In particular, after
`Add` of the same app into two domains of a fresh table, `List("*")` has 2
records and `List` of the first domain has 1. -/
theorem List_no_star_key (DD : String) (m : Table) (fuel : Nat) :
    (∀ D, resolveDomain DD D ≠ WildcardDomain →
      ∃ apps, Table.List DD (fuel + 1) m ⟨D⟩ = some (apps, none)
        ∧ apps.map (fun a => (a.Name, a.Version))
            = (m.recordsIn (resolveDomain DD D)).map (fun r => (r.Name, r.Version))
        ∧ apps.length = (m.recordsIn (resolveDomain DD D)).length
        ∧ (m.records.lookup (resolveDomain DD D) = none → apps = [])
        ∧ (m.records.lookup (resolveDomain DD D) = some ∅ → apps = []))
    ∧ (WildcardDomain ∉ m.records → "" ∉ m.records →
      ∃ apps, Table.List DD (fuel + 2) m ⟨WildcardDomain⟩ = some (apps, none)
        ∧ (∀ d ∈ m.records.keys, ∃ part, Table.List DD (fuel + 1) m ⟨d⟩ = some (part, none))
        ∧ List.Perm apps (m.records.keys.flatMap (fun d =>
              ((Table.List DD (fuel + 1) m ⟨d⟩).map (fun r => r.1)).getD []))
        ∧ apps.length = (m.records.keys.map (fun d => (m.recordsIn d).length)).sum)
    ∧ (∀ (s : App) (D1 D2 : String), DD ≠ "" → DD ≠ WildcardDomain →
        resolveDomain DD D1 ≠ WildcardDomain → resolveDomain DD D2 ≠ WildcardDomain →
        resolveDomain DD D1 ≠ resolveDomain DD D2 →
        ∃ all one,
          Table.List DD (fuel + 2) (tableTwoDomains DD s D1 D2) ⟨WildcardDomain⟩ = some (all, none)
          ∧ all.length = 2
          ∧ Table.List DD (fuel + 1) (tableTwoDomains DD s D1 D2) ⟨D1⟩ = some (one, none)
          ∧ one.length = 1) := by
  have part1 : ∀ (t : Table) (D : String), resolveDomain DD D ≠ WildcardDomain →
      ∃ apps, Table.List DD (fuel + 1) t ⟨D⟩ = some (apps, none)
        ∧ apps.map (fun a => (a.Name, a.Version))
            = (t.recordsIn (resolveDomain DD D)).map (fun r => (r.Name, r.Version))
        ∧ apps.length = (t.recordsIn (resolveDomain DD D)).length
        ∧ (t.records.lookup (resolveDomain DD D) = none → apps = [])
        ∧ (t.records.lookup (resolveDomain DD D) = some ∅ → apps = []) := by
    intro t D hD
    refine ⟨_, List_concrete DD fuel t ⟨D⟩ hD, listApps_map _, listApps_length _, ?_, ?_⟩
    · intro h
      simp only [h]
      rfl
    · intro h
      simp only [h]
      rfl
  have part2 : ∀ (t : Table), WildcardDomain ∉ t.records → "" ∉ t.records →
      ∃ apps, Table.List DD (fuel + 2) t ⟨WildcardDomain⟩ = some (apps, none)
        ∧ (∀ d ∈ t.records.keys, ∃ part, Table.List DD (fuel + 1) t ⟨d⟩ = some (part, none))
        ∧ List.Perm apps (t.records.keys.flatMap (fun d =>
              ((Table.List DD (fuel + 1) t ⟨d⟩).map (fun r => r.1)).getD []))
        ∧ apps.length = (t.records.keys.map (fun d => (t.recordsIn d).length)).sum := by
    intro t hstar hempty
    refine ⟨_, List_wildcard DD fuel t hstar hempty, ?_, ?_, ?_⟩
    · intro d hd
      exact ⟨_, List_key DD fuel t hstar hempty d hd⟩
    · apply List.Perm.of_eq
      apply List.flatMap_congr
      intro d hd
      rw [List_key DD fuel t hstar hempty d hd]
      rfl
    · rw [List.length_flatMap]
      congr 1
      apply List.map_congr_left
      intro d _
      exact listApps_length _
  refine ⟨part1 m, part2 m, ?_⟩
  intro s D1 D2 hDD hDDw h1 h2 hne
  have hstar : WildcardDomain ∉ (tableTwoDomains DD s D1 D2).records := by
    intro h
    rcases tableTwoDomains_mem DD s D1 D2 _ h with h | h | h
    · exact h2 h.symm
    · exact h1 h.symm
    · exact hDDw h.symm
  have hempty : "" ∉ (tableTwoDomains DD s D1 D2).records := by
    intro h
    rcases tableTwoDomains_mem DD s D1 D2 _ h with h | h | h
    · exact resolveDomain_ne_empty DD D2 hDD h.symm
    · exact resolveDomain_ne_empty DD D1 hDD h.symm
    · exact hDD h.symm
  -- the number of records of each stored domain
  have c1 : ((Table.Add DD (NewTable DD) s ⟨0, D1⟩ 0).table.recordsIn
      (resolveDomain DD D1)).length = 1 :=
    Add_recordsIn_fresh DD (NewTable DD) s ⟨0, D1⟩ 0 (NewTable_lookup_getD DD _)
  have g1 : ((tableTwoDomains DD s D1 D2).recordsIn (resolveDomain DD D1)).length = 1 := by
    unfold tableTwoDomains
    rw [Add_recordsIn_other DD _ s ⟨0, D2⟩ 0 _ hne]
    exact c1
  have g2 : ((tableTwoDomains DD s D1 D2).recordsIn (resolveDomain DD D2)).length = 1 := by
    unfold tableTwoDomains
    apply Add_recordsIn_fresh DD _ s ⟨0, D2⟩ 0
    show (AList.lookup (resolveDomain DD D2) _).getD ∅ = ∅
    rw [Add_records_lookup, if_neg (Ne.symm hne)]
    exact NewTable_lookup_getD DD _
  have g0 : DD ≠ resolveDomain DD D1 → DD ≠ resolveDomain DD D2 →
      ((tableTwoDomains DD s D1 D2).recordsIn DD).length = 0 := by
    intro a b
    unfold tableTwoDomains
    rw [Add_recordsIn_other DD _ s ⟨0, D2⟩ 0 _ b, Add_recordsIn_other DD _ s ⟨0, D1⟩ 0 _ a,
      NewTable_recordsIn]
    rfl
  obtain ⟨all, hall, _, _, hlen⟩ := part2 (tableTwoDomains DD s D1 D2) hstar hempty
  obtain ⟨one, hone, _, hlen1, _, _⟩ := part1 (tableTwoDomains DD s D1 D2) D1 h1
  refine ⟨all, one, hall, ?_, hone, ?_⟩
  · rw [hlen, tableTwoDomains_keys]
    exact two_domain_sum DD _ _ (fun d => ((tableTwoDomains DD s D1 D2).recordsIn d).length)
      g1 g2 g0 hne
  · rw [hlen1]
    exact g1

/-- An instance of the above: `Add(fooA)` into the domains "one" and "two" of a fresh
table with default domain "micro"; neither "*" nor the empty string is a key of
that table. -/
theorem List_no_star_key_witness :
    WildcardDomain ∉ (tableTwoDomains "micro" fooA "one" "two").records
    ∧ "" ∉ (tableTwoDomains "micro" fooA "one" "two").records
    ∧ (∃ apps,
        Table.List "micro" 2 (tableTwoDomains "micro" fooA "one" "two") ⟨WildcardDomain⟩
          = some (apps, none)
        ∧ apps.length = ((tableTwoDomains "micro" fooA "one" "two").records.keys.map
            (fun d => ((tableTwoDomains "micro" fooA "one" "two").recordsIn d).length)).sum)
    ∧ ∃ all one,
        Table.List "micro" 2 (tableTwoDomains "micro" fooA "one" "two") ⟨"*"⟩ = some (all, none)
        ∧ all.length = 2
        ∧ Table.List "micro" 1 (tableTwoDomains "micro" fooA "one" "two") ⟨"one"⟩
          = some (one, none)
        ∧ one.length = 1 :=
  have hstar : WildcardDomain ∉ (tableTwoDomains "micro" fooA "one" "two").records := by decide
  have hempty : "" ∉ (tableTwoDomains "micro" fooA "one" "two").records := by decide
  have h := List_no_star_key "micro" (tableTwoDomains "micro" fooA "one" "two") 0
  ⟨hstar, hempty,
   (h.2.1 hstar hempty).elim (fun apps ha => ⟨apps, ha.1, ha.2.2.2⟩),
   h.2.2 fooA "one" "two" (by decide) (by decide) (by decide) (by decide) (by decide)⟩

/-- The table `tableStar` stores the domain key "*" and `Get` with the wildcard
domain does not return on it, whatever the fuel. -/
theorem Get_tableStar_none (fuel : Nat) :
    Table.Get "micro" fuel tableStar "foo" ⟨"*"⟩ = none := by
  induction fuel with
  | zero => rfl
  | succ k ih =>
    rw [Table.Get]
    have hk : tableStar.records.keys = ["*", "micro"] := by decide
    have hr : resolveDomain "micro" (GetOptions.mk "*").Domain = WildcardDomain := rfl
    simp only [hr, if_true, hk]
    unfold getLoop
    have hcall : Table.Get "micro" k tableStar "foo" { (GetOptions.mk "*") with Domain := "*" }
        = none := ih
    rw [hcall]

/-- C9 (the code at the failing input). After `Add(fooA, domain "*")` and
`Remove(fooA, domain "*")` on a fresh table no record is stored under the
domain "*" (nor anywhere else), the key "*" is still stored, and
`Get(foo, domain "*")` never returns, however deep the recursion is allowed to
go: each call re-enters the wildcard branch for the stored key "*". -/
theorem C9_get_wildcard_star_key :
    tableStar.recordsIn "*" = []
    ∧ tableStar.records.keys = ["*", "micro"]
    ∧ ¬ ∃ fuel r, Table.Get "micro" fuel tableStar "foo" ⟨"*"⟩ = some r := by
  refine ⟨by decide, by decide, ?_⟩
  rintro ⟨fuel, r, h⟩
  rw [Get_tableStar_none] at h
  cases h

theorem successful_ite (apps : List App) :
    successful (some (if apps.length = 0 then ([], some RegistryError.ErrNotFound)
                      else (apps, none))) = apps := by
  by_cases h : apps.length = 0
  · rw [if_pos h]
    exact (List.length_eq_zero.mp h).symm
  · rw [if_neg h]
    rfl

theorem flatMap_length_eq_zero {α β : Type} (l : List α) (f : α → List β) :
    (l.flatMap f).length = 0 ↔ ∀ x ∈ l, f x = [] := by
  rw [List.length_eq_zero, List.flatMap_eq_nil_iff]

/-- What `Get` with the wildcard domain returns on the tables that do not store
the key "*". When neither the literal "*" nor the empty string is a stored
domain key: `Get(N, domain "*")` returns; every `Get(N, d)` for a stored domain
`d` returns, with no error or with `ErrNotFound` and no Apps; the wildcard call
returns `ErrNotFound` (and no Apps) exactly when `Get(N, d)` returns
`ErrNotFound` for every stored domain `d`; otherwise it returns, without error,
a non-empty list that is a permutation of the concatenation of the successful
`Get(N, d)` results; and the number of Apps is the number of (domain, version)
pairs that hold `N`. In particular, after `Add` of the same app into two
domains of a fresh table, `Get(name, "*")` returns 2 Apps and `Get` in the first
domain returns 1. -/
theorem Get_no_star_key (DD : String) (m : Table) (name : String) (fuel : Nat) :
    (WildcardDomain ∉ m.records → "" ∉ m.records →
      ∃ apps err, Table.Get DD (fuel + 2) m name ⟨WildcardDomain⟩ = some (apps, err)
        ∧ (∀ d ∈ m.records.keys, ∃ r, Table.Get DD (fuel + 1) m name ⟨d⟩ = some r
              ∧ (r.2 = none ∨ r = ([], some RegistryError.ErrNotFound)))
        ∧ (err = some RegistryError.ErrNotFound ↔
            ∀ d ∈ m.records.keys,
              Table.Get DD (fuel + 1) m name ⟨d⟩ = some ([], some RegistryError.ErrNotFound))
        ∧ (err = some RegistryError.ErrNotFound → apps = [])
        ∧ (err ≠ some RegistryError.ErrNotFound →
            err = none ∧ apps ≠ []
            ∧ List.Perm apps (m.records.keys.flatMap (fun d =>
                successful (Table.Get DD (fuel + 1) m name ⟨d⟩))))
        ∧ apps.length = (m.records.keys.map (fun d => (m.versionsOf d name).keys.length)).sum)
    ∧ (∀ (s : App) (D1 D2 : String), DD ≠ "" → DD ≠ WildcardDomain →
        resolveDomain DD D1 ≠ WildcardDomain → resolveDomain DD D2 ≠ WildcardDomain →
        resolveDomain DD D1 ≠ resolveDomain DD D2 →
        ∃ all one,
          Table.Get DD (fuel + 2) (tableTwoDomains DD s D1 D2) s.Name ⟨WildcardDomain⟩
            = some (all, none)
          ∧ all.length = 2
          ∧ Table.Get DD (fuel + 1) (tableTwoDomains DD s D1 D2) s.Name ⟨D1⟩ = some (one, none)
          ∧ one.length = 1) := by
  have part : ∀ (t : Table) (nm : String), WildcardDomain ∉ t.records → "" ∉ t.records →
      ∃ apps err, Table.Get DD (fuel + 2) t nm ⟨WildcardDomain⟩ = some (apps, err)
        ∧ (∀ d ∈ t.records.keys, ∃ r, Table.Get DD (fuel + 1) t nm ⟨d⟩ = some r
              ∧ (r.2 = none ∨ r = ([], some RegistryError.ErrNotFound)))
        ∧ (err = some RegistryError.ErrNotFound ↔
            ∀ d ∈ t.records.keys,
              Table.Get DD (fuel + 1) t nm ⟨d⟩ = some ([], some RegistryError.ErrNotFound))
        ∧ (err = some RegistryError.ErrNotFound → apps = [])
        ∧ (err ≠ some RegistryError.ErrNotFound →
            err = none ∧ apps ≠ []
            ∧ List.Perm apps (t.records.keys.flatMap (fun d =>
                successful (Table.Get DD (fuel + 1) t nm ⟨d⟩))))
        ∧ apps.length = (t.records.keys.map (fun d => (t.versionsOf d nm).keys.length)).sum := by
    intro t nm hstar hempty
    have hw := Get_wildcard DD fuel t nm hstar hempty
    have hkey := Get_key DD fuel t nm hstar hempty
    have hsucc : t.records.keys.flatMap (fun d => successful (Table.Get DD (fuel + 1) t nm ⟨d⟩))
        = t.records.keys.flatMap (fun d =>
            (t.versionsOf d nm).values.map (fun r => recordToApp r d)) := by
      apply List.flatMap_congr
      intro d hd
      rw [hkey d hd]
      exact successful_ite _
    have hsum : (t.records.keys.flatMap (fun d =>
            (t.versionsOf d nm).values.map (fun r => recordToApp r d))).length
        = (t.records.keys.map (fun d => (t.versionsOf d nm).keys.length)).sum := by
      rw [List.length_flatMap]
      congr 1
      apply List.map_congr_left
      intro d _
      show ((t.versionsOf d nm).values.map (fun r => recordToApp r d)).length = _
      rw [List.length_map, GoMap.length_values, GoMap.length_keys]
    have hper : ∀ d ∈ t.records.keys, ∃ r, Table.Get DD (fuel + 1) t nm ⟨d⟩ = some r
        ∧ (r.2 = none ∨ r = ([], some RegistryError.ErrNotFound)) := by
      intro d hd
      refine ⟨_, hkey d hd, ?_⟩
      split
      · exact Or.inr rfl
      · exact Or.inl rfl
    by_cases hz : (t.records.keys.flatMap (fun d =>
            (t.versionsOf d nm).values.map (fun r => recordToApp r d))).length = 0
    · rw [if_pos hz] at hw
      refine ⟨[], some RegistryError.ErrNotFound, hw, hper, ?_, fun _ => rfl, ?_, ?_⟩
      · constructor
        · intro _ d hd
          rw [hkey d hd]
          have := (flatMap_length_eq_zero _ _).mp hz d hd
          rw [this]
          rfl
        · intro _; rfl
      · intro h; exact absurd rfl h
      · rw [← hsum, hz]
        rfl
    · rw [if_neg hz] at hw
      refine ⟨_, none, hw, hper, ?_, ?_, ?_, hsum⟩
      · constructor
        · intro h; cases h
        · intro hall
          exfalso
          apply hz
          rw [flatMap_length_eq_zero]
          intro d hd
          have h1 := hall d hd
          rw [hkey d hd] at h1
          by_contra hne
          have hlen : ¬ ((t.versionsOf d nm).values.map (fun r => recordToApp r d)).length = 0 :=
            fun h0 => hne (List.length_eq_zero.mp h0)
          rw [if_neg hlen] at h1
          have h2 := congrArg Prod.snd (Option.some.inj h1)
          cases h2
      · intro h; cases h
      · intro _
        refine ⟨rfl, ?_, ?_⟩
        · intro h0
          apply hz
          rw [h0]
          rfl
        · rw [hsucc]
  refine ⟨part m name, ?_⟩
  intro s D1 D2 hDD hDDw h1 h2 hne
  have hstar : WildcardDomain ∉ (tableTwoDomains DD s D1 D2).records := by
    intro h
    rcases tableTwoDomains_mem DD s D1 D2 _ h with h | h | h
    · exact h2 h.symm
    · exact h1 h.symm
    · exact hDDw h.symm
  have hempty : "" ∉ (tableTwoDomains DD s D1 D2).records := by
    intro h
    rcases tableTwoDomains_mem DD s D1 D2 _ h with h | h | h
    · exact resolveDomain_ne_empty DD D2 hDD h.symm
    · exact resolveDomain_ne_empty DD D1 hDD h.symm
    · exact hDD h.symm
  -- the number of versions of `s.Name` in each stored domain
  have g1 : ((tableTwoDomains DD s D1 D2).versionsOf (resolveDomain DD D1) s.Name).keys.length
      = 1 := by
    unfold tableTwoDomains
    rw [Add_versionsOf DD _ s ⟨0, D2⟩ 0, if_neg (fun h => hne h.1)]
    exact Add_versionsOf_fresh DD (NewTable DD) s ⟨0, D1⟩ 0 (NewTable_versionsOf _ _ _)
  have g2 : ((tableTwoDomains DD s D1 D2).versionsOf (resolveDomain DD D2) s.Name).keys.length
      = 1 := by
    unfold tableTwoDomains
    apply Add_versionsOf_fresh DD _ s ⟨0, D2⟩ 0
    show Table.versionsOf _ (resolveDomain DD D2) s.Name = ∅
    rw [Add_versionsOf DD _ s ⟨0, D1⟩ 0, if_neg (fun h => hne h.1.symm)]
    exact NewTable_versionsOf _ _ _
  have g0 : DD ≠ resolveDomain DD D1 → DD ≠ resolveDomain DD D2 →
      ((tableTwoDomains DD s D1 D2).versionsOf DD s.Name).keys.length = 0 := by
    intro a b
    unfold tableTwoDomains
    rw [Add_versionsOf DD _ s ⟨0, D2⟩ 0, if_neg (fun h => b h.1),
      Add_versionsOf DD _ s ⟨0, D1⟩ 0, if_neg (fun h => a h.1), NewTable_versionsOf]
    rfl
  obtain ⟨all, err, hall, _, hnf, _, hok, hlen⟩ :=
    part (tableTwoDomains DD s D1 D2) s.Name hstar hempty
  have hlen2 : all.length = 2 := by
    rw [hlen, tableTwoDomains_keys]
    exact two_domain_sum DD _ _
      (fun d => ((tableTwoDomains DD s D1 D2).versionsOf d s.Name).keys.length) g1 g2 g0 hne
  have herr : err = none := by
    by_cases he : err = some RegistryError.ErrNotFound
    · exfalso
      have hnil : all = [] := by
        subst he
        have hw := Get_wildcard DD fuel (tableTwoDomains DD s D1 D2) s.Name hstar hempty
        rw [hall] at hw
        split at hw
        · cases hw; rfl
        · cases hw
      rw [hnil] at hlen2
      cases hlen2
    · exact (hok he).1
  subst herr
  have hget := Get_concrete DD fuel (tableTwoDomains DD s D1 D2) s.Name ⟨D1⟩ h1
  have hl1 : ¬ ((tableTwoDomains DD s D1 D2).versionsOf (resolveDomain DD D1) s.Name).len = 0 := by
    rw [← GoMap.length_keys, g1]
    decide
  simp only at hget
  rw [if_neg hl1] at hget
  refine ⟨all, _, hall, hlen2, hget, ?_⟩
  rw [List.length_map, GoMap.length_values, ← GoMap.length_keys, g1]

/-- An instance of the above: `Add(fooA)` into the domains "one" and "two" of a fresh
table with default domain "micro"; neither "*" nor the empty string is a key of
that table. -/
theorem Get_no_star_key_witness :
    WildcardDomain ∉ (tableTwoDomains "micro" fooA "one" "two").records
    ∧ "" ∉ (tableTwoDomains "micro" fooA "one" "two").records
    ∧ (∃ apps err,
        Table.Get "micro" 2 (tableTwoDomains "micro" fooA "one" "two") "bar" ⟨WildcardDomain⟩
          = some (apps, err)
        ∧ (err = some RegistryError.ErrNotFound ↔
            ∀ d ∈ (tableTwoDomains "micro" fooA "one" "two").records.keys,
              Table.Get "micro" 1 (tableTwoDomains "micro" fooA "one" "two") "bar" ⟨d⟩
                = some ([], some RegistryError.ErrNotFound)))
    ∧ ∃ all one,
        Table.Get "micro" 2 (tableTwoDomains "micro" fooA "one" "two") "foo" ⟨"*"⟩
          = some (all, none)
        ∧ all.length = 2
        ∧ Table.Get "micro" 1 (tableTwoDomains "micro" fooA "one" "two") "foo" ⟨"one"⟩
          = some (one, none)
        ∧ one.length = 1 :=
  have hstar : WildcardDomain ∉ (tableTwoDomains "micro" fooA "one" "two").records := by decide
  have hempty : "" ∉ (tableTwoDomains "micro" fooA "one" "two").records := by decide
  have h := Get_no_star_key "micro" (tableTwoDomains "micro" fooA "one" "two") "bar" 0
  ⟨hstar, hempty,
   (h.1 hstar hempty).elim (fun apps ha => ha.elim (fun err he => ⟨apps, err, he.1, he.2.2.1⟩)),
   h.2 fooA "one" "two" (by decide) (by decide) (by decide) (by decide) (by decide)⟩

/-! ## The pruner -/

theorem GoMap.mapVal_empty {V W : Type} (f : V → W) : GoMap.mapVal f (∅ : GoMap V) = ∅ := rfl

theorem ttlPrune_versionsOf (m : Table) (now : Int) (d n : String) :
    (m.ttlPrune now).versionsOf d n = GoMap.mapVal (pruneRecord now) (m.versionsOf d n) := by
  unfold Table.ttlPrune Table.versionsOf
  simp only [GoMap.lookup_mapVal]
  cases m.records.lookup d with
  | none => rfl
  | some srvs =>
    simp only [Option.map_some', Option.some_bind]
    rw [GoMap.lookup_mapVal]
    cases srvs.lookup n with
    | none => rfl
    | some versions => rfl

theorem ttlPrune_recordAt (m : Table) (now : Int) (d n v : String) :
    (m.ttlPrune now).recordAt d n v = (m.recordAt d n v).map (pruneRecord now) := by
  unfold Table.recordAt
  rw [ttlPrune_versionsOf, GoMap.lookup_mapVal]

theorem ttlPrune_nodeAt (m : Table) (now : Int) (d n v i : String) :
    (m.ttlPrune now).nodeAt d n v i
      = (m.nodeAt d n v i).filter (fun nd => !expired now nd) := by
  unfold Table.nodeAt
  rw [ttlPrune_recordAt]
  cases m.recordAt d n v with
  | none => rfl
  | some r =>
    simp only [Option.map_some', Option.bind_some, pruneRecord]
    exact GoMap.lookup_filterVal _ _ _

theorem ttlPrune_KeysMatch (m : Table) (now : Int) (h : m.KeysMatch) :
    (m.ttlPrune now).KeysMatch := by
  intro d n v r hr
  rw [ttlPrune_recordAt] at hr
  cases h0 : m.recordAt d n v with
  | none => rw [h0] at hr; cases hr
  | some r0 =>
    rw [h0] at hr
    cases hr
    obtain ⟨h1, h2, h3⟩ := h d n v r0 h0
    refine ⟨h1, h2, ?_⟩
    apply NodesKeyed_of_lookup_imp _ _ h3
    intro i nd hi
    unfold pruneRecord at hi
    simp only at hi
    rw [GoMap.lookup_filterVal] at hi
    cases hl : r0.Instances.lookup i with
    | none => rw [hl] at hi; cases hi
    | some x =>
      rw [hl] at hi
      simp only [Option.filter] at hi
      split at hi
      · exact hi
      · cases hi

theorem expired_iff (now : Int) (nd : node) :
    expired now nd = true ↔ nd.TTL ≠ 0 ∧ timeSince now nd.LastSeen > nd.TTL := by
  simp [expired]

theorem timeSince_eq_sub (now t : Int) (h1 : minDuration ≤ now - t) (h2 : now - t ≤ maxDuration) :
    timeSince now t = now - t := by
  unfold timeSince
  rw [if_neg (by omega), if_neg (by omega)]

/-- The counterexample of C10: the node of `fooA`, added at time 0 with the TTL
-1, is stored; the sweep at time 0 removes it; yet its TTL is not positive. -/
theorem C10_prune_negative_ttl :
    tableNeg.nodeAt "micro" "foo" "1.0.0" "a" = some ⟨⟨"a", "l:1", ∅⟩, -1, 0⟩
    ∧ (tableNeg.ttlPrune 0).nodeAt "micro" "foo" "1.0.0" "a" = none
    ∧ ¬ ((-1 : Int) > 0 ∧ (0 : Int) - 0 > -1) := by
  decide

/-- C10, amended. One sweep of the pruner at time `now` removes a stored node
exactly when its TTL is not zero (a negative TTL counts as set) and
`time.Since(last_seen)` is greater than the TTL, where `time.Since(last_seen)`
is `now - last_seen` whenever that difference fits a `time.Duration`; so a node
with a negative TTL is removed by every sweep made at or after its last_seen;
every other stored instance stays with the same id, address, metadata, TTL and
last_seen; and the sweep stores no instance that was not stored. This holds for
every table, every (domain, app, version, id) and every signed TTL. -/
theorem C10_prune_sweep (m : Table) (now : Int) (d n v i : String) :
    (∀ nd, m.nodeAt d n v i = some nd →
        ((m.ttlPrune now).nodeAt d n v i = none
            ↔ (nd.TTL ≠ 0 ∧ timeSince now nd.LastSeen > nd.TTL))
        ∧ (¬ (nd.TTL ≠ 0 ∧ timeSince now nd.LastSeen > nd.TTL) →
            (m.ttlPrune now).nodeAt d n v i = some nd)
        ∧ (minDuration ≤ now - nd.LastSeen → now - nd.LastSeen ≤ maxDuration →
            timeSince now nd.LastSeen = now - nd.LastSeen)
        ∧ (nd.TTL < 0 → nd.LastSeen ≤ now → (m.ttlPrune now).nodeAt d n v i = none))
    ∧ (m.nodeAt d n v i = none → (m.ttlPrune now).nodeAt d n v i = none) := by
  rw [ttlPrune_nodeAt]
  refine ⟨?_, ?_⟩
  · intro nd h
    rw [h]
    have hneg : nd.TTL < 0 → nd.LastSeen ≤ now → expired now nd = true := by
      intro h1 h2
      rw [expired_iff]
      refine ⟨by omega, ?_⟩
      unfold timeSince maxDuration minDuration
      split_ifs <;> omega
    have hf : (some nd).filter (fun nd => !expired now nd)
        = if expired now nd = true then none else some nd := by
      cases he : expired now nd <;> simp [Option.filter, he]
    rw [hf]
    by_cases he : expired now nd = true
    · have he2 := (expired_iff now nd).mp he
      rw [if_pos he]
      exact ⟨⟨fun _ => he2, fun _ => rfl⟩, fun hn => absurd he2 hn, timeSince_eq_sub _ _,
        fun _ _ => rfl⟩
    · have he2 : ¬ (nd.TTL ≠ 0 ∧ timeSince now nd.LastSeen > nd.TTL) :=
        fun hh => he ((expired_iff now nd).mpr hh)
      rw [if_neg he]
      exact ⟨⟨(fun hh => by cases hh), fun hh => absurd hh he2⟩, fun _ => rfl,
        timeSince_eq_sub _ _, fun h1 h2 => absurd (hneg h1 h2) he⟩
  · intro h
    rw [h]
    rfl

/-- An instance of C10: in the table that holds foo 1.0.0 with the instances `a`
and `c`, added at time 0 with the TTL 5, the sweep at time 6 removes `a` and the
sweep at time 5 keeps it. -/
theorem C10_prune_sweep_witness :
    tableTTL.nodeAt "micro" "foo" "1.0.0" "a" = some ⟨⟨"a", "l:1", ∅⟩, 5, 0⟩
    ∧ ((tableTTL.ttlPrune 6).nodeAt "micro" "foo" "1.0.0" "a" = none
        ↔ ((5 : Int) ≠ 0 ∧ timeSince 6 0 > 5))
    ∧ (tableTTL.ttlPrune 6).nodeAt "micro" "foo" "1.0.0" "a" = none
    ∧ (tableTTL.ttlPrune 5).nodeAt "micro" "foo" "1.0.0" "a" = some ⟨⟨"a", "l:1", ∅⟩, 5, 0⟩ :=
  have h0 : tableTTL.nodeAt "micro" "foo" "1.0.0" "a" = some ⟨⟨"a", "l:1", ∅⟩, 5, 0⟩ := by
    decide
  have h6 := (C10_prune_sweep tableTTL 6 "micro" "foo" "1.0.0" "a").1 _ h0
  have h5 := (C10_prune_sweep tableTTL 5 "micro" "foo" "1.0.0" "a").1 _ h0
  ⟨h0, h6.1, h6.1.mpr (by decide), h5.2.1 (by decide)⟩

/-! ## Invariants of the reachable tables -/

theorem addRecord_Metadata (domain : String) (s : App) (ttl now : Int) (versions : GoMap record) :
    (addRecord domain s ttl now versions).1.Metadata
      = ((versions.lookup s.Version).map (fun r => r.Metadata)).getD s.Metadata := by
  unfold addRecord
  cases versions.lookup s.Version <;> rfl

theorem addRecord_Endpoints (domain : String) (s : App) (ttl now : Int)
    (versions : GoMap record) :
    (addRecord domain s ttl now versions).1.Endpoints
      = ((versions.lookup s.Version).map (fun r => r.Endpoints)).getD s.Endpoints := by
  unfold addRecord
  cases versions.lookup s.Version <;> rfl

/-- Every stored record carries the key of its domain under "domain". -/
theorem Add_domain_mirrored (DD : String) (m : Table) (s : App) (o : AddOptions) (now : Int)
    (h : ∀ d n v r, m.recordAt d n v = some r → r.Metadata.lookup "domain" = some d) :
    ∀ d n v r, (Table.Add DD m s o now).table.recordAt d n v = some r →
      r.Metadata.lookup "domain" = some d := by
  intro d n v r hr
  by_cases hdn : d = resolveDomain DD o.Domain ∧ n = s.Name
  · obtain ⟨rfl, rfl⟩ := hdn
    rw [Add_recordAt_same] at hr
    by_cases hv : v = s.Version
    · subst hv
      rw [if_pos rfl] at hr
      cases hr
      rw [addRecord_Metadata]
      simp only [App.withDomain_Version]
      cases hs : (m.versionsOf (resolveDomain DD o.Domain) s.Name).lookup s.Version with
      | none =>
        simp only [Option.map_none', Option.getD_none, App.withDomain]
        exact AList.lookup_insert _
      | some r0 => exact h _ _ _ _ hs
    · rw [if_neg hv] at hr
      exact h _ _ _ _ hr
  · rw [Add_recordAt_other _ _ _ _ _ _ _ _ hdn] at hr
    exact h _ _ _ _ hr

theorem Remove_domain_mirrored (DD : String) (m : Table) (s : App) (o : RemoveOptions)
    (h : ∀ d n v r, m.recordAt d n v = some r → r.Metadata.lookup "domain" = some d) :
    ∀ d n v r, (Table.Remove DD m s o).table.recordAt d n v = some r →
      r.Metadata.lookup "domain" = some d := by
  cases hrec : m.recordAt (resolveDomain DD o.Domain) s.Name s.Version with
  | none => rw [Remove_absent _ _ _ _ hrec]; exact h
  | some version =>
    intro d n v r hr
    rw [Remove_recordAt DD m s o version hrec] at hr
    by_cases hk : d = resolveDomain DD o.Domain ∧ n = s.Name ∧ v = s.Version
    · rw [if_pos hk] at hr
      obtain ⟨rfl, rfl, rfl⟩ := hk
      by_cases hlen : (removeInstances s.Instances version.Instances).len > 0
      · rw [if_pos hlen] at hr
        cases hr
        exact h _ _ _ version hrec
      · rw [if_neg hlen] at hr
        cases hr
    · rw [if_neg hk] at hr
      exact h _ _ _ _ hr

theorem ttlPrune_domain_mirrored (m : Table) (now : Int)
    (h : ∀ d n v r, m.recordAt d n v = some r → r.Metadata.lookup "domain" = some d) :
    ∀ d n v r, (m.ttlPrune now).recordAt d n v = some r →
      r.Metadata.lookup "domain" = some d := by
  intro d n v r hr
  rw [ttlPrune_recordAt] at hr
  cases h0 : m.recordAt d n v with
  | none => rw [h0] at hr; cases hr
  | some r0 =>
    rw [h0] at hr
    cases hr
    exact h _ _ _ r0 h0

theorem foldl_apply_domain_mirrored (DD : String) (ops : List Op) (m : Table)
    (h : ∀ d n v r, m.recordAt d n v = some r → r.Metadata.lookup "domain" = some d) :
    ∀ d n v r, (ops.foldl (applyOp DD) m).recordAt d n v = some r →
      r.Metadata.lookup "domain" = some d := by
  induction ops generalizing m with
  | nil => exact h
  | cons op rest ih =>
    rw [List.foldl_cons]
    apply ih
    cases op with
    | add s o now => exact Add_domain_mirrored DD m s o now h
    | remove s o => exact Remove_domain_mirrored DD m s o h
    | prune now => exact ttlPrune_domain_mirrored m now h

/-- C12. Invariant I1: in every table reached from the empty table by a sequence
of `Add`, `Remove` and pruner sweeps, every record stored under the domain key
`d` has `Metadata["domain"] = d`; and an `Add` with the empty domain option
stores its record under the default domain, whose key the record then carries. -/
theorem C12_domain_mirrored (DD : String) (ops : List Op) :
    (∀ d n v r, (reach DD ops).recordAt d n v = some r →
        r.Metadata.lookup "domain" = some d)
    ∧ (∀ (s : App) (ttl now : Int), ∃ r,
        (Table.Add DD (reach DD ops) s ⟨ttl, ""⟩ now).table.recordAt DD s.Name s.Version
          = some r
        ∧ r.Metadata.lookup "domain" = some DD) := by
  have h1 : ∀ d n v r, (reach DD ops).recordAt d n v = some r →
      r.Metadata.lookup "domain" = some d := by
    apply foldl_apply_domain_mirrored
    intro d n v r hr
    rw [NewTable_recordAt] at hr
    cases hr
  refine ⟨h1, ?_⟩
  intro s ttl now
  have hrec := Add_recordAt_same DD (reach DD ops) s ⟨ttl, ""⟩ now s.Version
  rw [if_pos rfl] at hrec
  refine ⟨_, hrec, ?_⟩
  exact Add_domain_mirrored DD _ s ⟨ttl, ""⟩ now h1 _ _ _ _ hrec

/-- An instance of C12: the record of foo 1.0.0 after `Add(fooA)` with no domain
option, `Add(fooB, domain "one")`, a sweep and `Remove(fooB, domain "one")`. -/
theorem C12_domain_mirrored_witness :
    ((reach "micro" [Op.add fooA ⟨0, ""⟩ 0, Op.add fooB ⟨0, "one"⟩ 0, Op.prune 3,
        Op.remove fooB ⟨"one"⟩]).recordAt "micro" "foo" "1.0.0").map
      (fun r => r.Metadata.lookup "domain") = some (some "micro") :=
  have h := (C12_domain_mirrored "micro" [Op.add fooA ⟨0, ""⟩ 0, Op.add fooB ⟨0, "one"⟩ 0,
    Op.prune 3, Op.remove fooB ⟨"one"⟩]).1 "micro" "foo" "1.0.0" recA (by decide)
  by rw [show (reach "micro" [Op.add fooA ⟨0, ""⟩ 0, Op.add fooB ⟨0, "one"⟩ 0, Op.prune 3,
        Op.remove fooB ⟨"one"⟩]).recordAt "micro" "foo" "1.0.0" = some recA by decide]
     exact congrArg some h

/-- C13 (amended). What the code keeps of invariant I2: right after
`Remove(s)` the record of `s` is stored only if it still holds an instance,
whatever other versions are stored; `Add` and the pruner never delete a record,
and `Add(s)` always leaves the record of `s` stored, so a record that holds no
instance and has no sibling version can be stored. -/
theorem C13_record_kept (DD : String) (m : Table) :
    (∀ (s : App) (o : RemoveOptions) (r : record),
        (Table.Remove DD m s o).table.recordAt (resolveDomain DD o.Domain) s.Name s.Version
            = some r → 0 < r.Instances.len)
    ∧ (∀ (now : Int) (d n v : String),
        ((m.ttlPrune now).recordAt d n v).isSome = (m.recordAt d n v).isSome)
    ∧ (∀ (s : App) (o : AddOptions) (now : Int) (d n v : String),
        (m.recordAt d n v).isSome = true →
          ((Table.Add DD m s o now).table.recordAt d n v).isSome = true)
    ∧ (∀ (s : App) (o : AddOptions) (now : Int),
        ((Table.Add DD m s o now).table.recordAt
            (resolveDomain DD o.Domain) s.Name s.Version).isSome = true) := by
  refine ⟨?_, ?_, ?_, ?_⟩
  · intro s o r hr
    cases hrec : m.recordAt (resolveDomain DD o.Domain) s.Name s.Version with
    | none =>
      rw [Remove_absent _ _ _ _ hrec, hrec] at hr
      cases hr
    | some version =>
      rw [Remove_recordAt DD m s o version hrec, if_pos ⟨rfl, rfl, rfl⟩] at hr
      by_cases hlen : (removeInstances s.Instances version.Instances).len > 0
      · rw [if_pos hlen] at hr
        cases hr
        exact hlen
      · rw [if_neg hlen] at hr
        cases hr
  · intro now d n v
    rw [ttlPrune_recordAt]
    cases m.recordAt d n v <;> rfl
  · intro s o now d n v h
    by_cases hdn : d = resolveDomain DD o.Domain ∧ n = s.Name
    · obtain ⟨rfl, rfl⟩ := hdn
      rw [Add_recordAt_same]
      by_cases hv : v = s.Version
      · rw [if_pos hv]; rfl
      · rw [if_neg hv]; exact h
    · rw [Add_recordAt_other _ _ _ _ _ _ _ _ hdn]
      exact h
  · intro s o now
    rw [Add_recordAt_same, if_pos rfl]
    rfl

/-- The counterexample of C13: after `Add(fooAC)` with the TTL 5 at time 0 on
the empty table and one sweep at time 10, the record of foo 1.0.0 is stored,
holds no instance, and is the only version of foo in its domain; the same holds
right after the `Add` of an app that lists no instance. -/
theorem C13_empty_record_stored :
    (((reach "micro" [Op.add fooAC ⟨5, ""⟩ 0, Op.prune 10]).recordAt "micro" "foo" "1.0.0").map
        (fun r => r.Instances.len) = some 0
      ∧ ((reach "micro" [Op.add fooAC ⟨5, ""⟩ 0, Op.prune 10]).versionsOf "micro" "foo").keys
          = ["1.0.0"])
    ∧ (((reach "micro" [Op.add fooNone ⟨0, ""⟩ 0]).recordAt "micro" "foo" "1.0.0").map
        (fun r => r.Instances.len) = some 0
      ∧ ((reach "micro" [Op.add fooNone ⟨0, ""⟩ 0]).versionsOf "micro" "foo").keys
          = ["1.0.0"]) := by
  decide

/-! ## The nodes `Add` leaves behind -/

theorem addInstance_lookup_old (domain : String) (ttl now : Int) (acc : GoMap node × Bool)
    (n : Instance) (i : String) (nd : node) (h : acc.1.lookup i = some nd) :
    (addInstance domain ttl now acc n).1.lookup i = some nd := by
  unfold addInstance
  by_cases hs : (acc.1.lookup n.Id).isSome = true
  · rw [if_pos hs]; exact h
  · rw [if_neg hs]
    have hne : i ≠ n.Id := by
      rintro rfl
      rw [h] at hs
      exact hs rfl
    simp only
    rw [AList.lookup_insert_ne hne]
    exact h

theorem foldl_addInstance_lookup_old (domain : String) (ttl now : Int)
    (incoming : List Instance) (acc : GoMap node × Bool) (i : String) (nd : node)
    (h : acc.1.lookup i = some nd) :
    (incoming.foldl (addInstance domain ttl now) acc).1.lookup i = some nd := by
  induction incoming generalizing acc with
  | nil => exact h
  | cons n rest ih =>
    rw [List.foldl_cons]
    exact ih _ (addInstance_lookup_old domain ttl now acc n i nd h)

theorem foldl_addInstance_lookup_new (domain : String) (ttl now : Int)
    (incoming : List Instance) (acc : GoMap node × Bool) (i : String)
    (h : acc.1.lookup i = none) (hi : ∃ n ∈ incoming, n.Id = i) :
    ∃ nd, (incoming.foldl (addInstance domain ttl now) acc).1.lookup i = some nd
      ∧ nd.TTL = ttl ∧ nd.LastSeen = now
      ∧ nd.Instance.Metadata.lookup "domain" = some domain := by
  induction incoming generalizing acc with
  | nil =>
    obtain ⟨n, hn, _⟩ := hi
    cases hn
  | cons n rest ih =>
    rw [List.foldl_cons]
    by_cases hni : n.Id = i
    · subst hni
      refine ⟨⟨{ Id := n.Id, Address := n.Address,
                 Metadata := n.Metadata.insert "domain" domain }, ttl, now⟩, ?_, rfl, rfl, ?_⟩
      · apply foldl_addInstance_lookup_old
        unfold addInstance
        rw [if_neg (by rw [h]; simp)]
        exact AList.lookup_insert _
      · exact AList.lookup_insert _
    · have hrest : ∃ x ∈ rest, x.Id = i := by
        obtain ⟨x, hx, hxi⟩ := hi
        rcases List.mem_cons.mp hx with rfl | hx
        · exact absurd hxi hni
        · exact ⟨x, hx, hxi⟩
      apply ih _ _ hrest
      unfold addInstance
      by_cases hs : (acc.1.lookup n.Id).isSome = true
      · rw [if_pos hs]; exact h
      · rw [if_neg hs]
        simp only
        rw [AList.lookup_insert_ne (Ne.symm hni)]
        exact h

theorem foldl_addInstance_lookup_cases (domain : String) (ttl now : Int)
    (incoming : List Instance) (acc : GoMap node × Bool) (i : String) (nd : node)
    (h : (incoming.foldl (addInstance domain ttl now) acc).1.lookup i = some nd) :
    acc.1.lookup i = some nd ∨ (nd.TTL = ttl ∧ nd.LastSeen = now) := by
  cases hacc : acc.1.lookup i with
  | some nd0 =>
    rw [foldl_addInstance_lookup_old domain ttl now incoming acc i nd0 hacc] at h
    exact Or.inl h
  | none =>
    by_cases hi : ∃ n ∈ incoming, n.Id = i
    · obtain ⟨nd1, h1, h2, h3, _⟩ :=
        foldl_addInstance_lookup_new domain ttl now incoming acc i hacc hi
      rw [h1] at h
      cases h
      exact Or.inr ⟨h2, h3⟩
    · exfalso
      have hmem : i ∈ (incoming.foldl (addInstance domain ttl now) acc).1 :=
        AList.lookup_isSome.mp (by rw [h]; rfl)
      rcases (foldl_addInstance_mem domain ttl now incoming acc i).mp hmem with h1 | h1
      · have := AList.lookup_isSome.mpr h1
        rw [hacc] at this
        cases this
      · exact hi h1

theorem addInstances_eq_of_all_mem (domain : String) (ttl now : Int)
    (incoming : List Instance) (start : GoMap node)
    (h : ∀ n ∈ incoming, n.Id ∈ start) :
    addInstances domain ttl now incoming start = (start, false) := by
  unfold addInstances
  induction incoming with
  | nil => rfl
  | cons n rest ih =>
    rw [List.foldl_cons]
    have hstep : addInstance domain ttl now (start, false) n = (start, false) := by
      unfold addInstance
      rw [if_pos (AList.lookup_isSome.mpr (h n (List.mem_cons_self _ _)))]
    rw [hstep]
    exact ih (fun x hx => h x (List.mem_cons_of_mem _ hx))

theorem refreshInstance_lookup (ttl now : Int) (nodes : GoMap node) (n : Instance)
    (i : String) :
    (refreshInstance ttl now nodes n).lookup i
      = if i = n.Id then
          (nodes.lookup i).map (fun nd => { nd with TTL := ttl, LastSeen := now })
        else nodes.lookup i := by
  unfold refreshInstance
  by_cases hi : i = n.Id
  · subst hi
    rw [if_pos rfl]
    cases h : nodes.lookup n.Id with
    | none => simp only [Option.map_none']; exact h
    | some nd => simp only [Option.map_some']; exact AList.lookup_insert _
  · rw [if_neg hi]
    cases h : nodes.lookup n.Id with
    | none => rfl
    | some nd => exact AList.lookup_insert_ne hi

theorem refreshInstances_lookup (ttl now : Int) (incoming : List Instance)
    (start : GoMap node) (i : String) :
    (refreshInstances ttl now incoming start).lookup i
      = if i ∈ incoming.map (fun n => n.Id) then
          (start.lookup i).map (fun nd => { nd with TTL := ttl, LastSeen := now })
        else start.lookup i := by
  unfold refreshInstances
  induction incoming generalizing start with
  | nil => simp
  | cons n rest ih =>
    rw [List.foldl_cons, ih, refreshInstance_lookup]
    simp only [List.map_cons, List.mem_cons]
    by_cases h1 : i = n.Id
    · by_cases h2 : i ∈ rest.map (fun n => n.Id)
      · rw [if_pos h2, if_pos h1, if_pos (Or.inl h1)]
        cases start.lookup i <;> rfl
      · rw [if_neg h2, if_pos h1, if_pos (Or.inl h1)]
    · by_cases h2 : i ∈ rest.map (fun n => n.Id)
      · rw [if_pos h2, if_neg h1, if_pos (Or.inr h2)]
      · rw [if_neg h2, if_neg h1, if_neg (by rintro (h | h); exact h1 h; exact h2 h)]

theorem foldl_insert_lookup_stamp (ttl now : Int) (incoming : List Instance)
    (start : GoMap node) (i : String) (nd : node)
    (hstart : ∀ x, start.lookup i = some x → x.TTL = ttl ∧ x.LastSeen = now)
    (h : (incoming.foldl (fun nodes n => nodes.insert n.Id ⟨n, ttl, now⟩) start).lookup i
          = some nd) :
    nd.TTL = ttl ∧ nd.LastSeen = now := by
  induction incoming generalizing start with
  | nil => exact hstart nd h
  | cons n rest ih =>
    rw [List.foldl_cons] at h
    apply ih _ _ h
    intro x hx
    by_cases hi : i = n.Id
    · subst hi
      rw [AList.lookup_insert] at hx
      cases hx
      exact ⟨rfl, rfl⟩
    · rw [AList.lookup_insert_ne hi] at hx
      exact hstart x hx

theorem serviceToRecord_stamp (s : App) (ttl now : Int) (i : String) (nd : node)
    (h : (serviceToRecord s ttl now).Instances.lookup i = some nd) :
    nd.TTL = ttl ∧ nd.LastSeen = now := by
  unfold serviceToRecord at h
  apply foldl_insert_lookup_stamp ttl now s.Instances ∅ i nd _ h
  intro x hx
  cases hx

/-- The nodes of the record `Add` leaves, when the version was not stored: the
record of `serviceToRecord`, every node refreshed. -/
theorem addRecord_Instances_created (domain : String) (s : App) (ttl now : Int)
    (versions : GoMap record) (h : versions.lookup s.Version = none) :
    (addRecord domain s ttl now versions).1.Instances
      = refreshInstances ttl now s.Instances (serviceToRecord s ttl now).Instances := by
  unfold addRecord
  simp only [h, Option.getD_none]
  have hall : ∀ n ∈ s.Instances, n.Id ∈ (serviceToRecord s ttl now).Instances := by
    intro n hn
    rw [serviceToRecord_mem, App.mem_ids]
    exact ⟨n, hn, rfl⟩
  rw [addInstances_eq_of_all_mem domain ttl now s.Instances _ hall]
  simp

/-- The nodes of the record `Add` leaves, when the version was stored and some
incoming id is new: the first loop only. -/
theorem addRecord_Instances_added (domain : String) (s : App) (ttl now : Int)
    (versions : GoMap record) (r : record) (h : versions.lookup s.Version = some r)
    (hnew : ∃ n ∈ s.Instances, n.Id ∉ r.Instances) :
    (addRecord domain s ttl now versions).1.Instances
      = (addInstances domain ttl now s.Instances r.Instances).1 := by
  unfold addRecord
  simp only [h, Option.getD_some]
  rw [if_pos ((addInstances_flag domain ttl now s.Instances r.Instances).mpr hnew)]

/-- The nodes of the record `Add` leaves, when the version was stored and every
incoming id is stored: the refresh loop only. -/
theorem addRecord_Instances_refreshed (domain : String) (s : App) (ttl now : Int)
    (versions : GoMap record) (r : record) (h : versions.lookup s.Version = some r)
    (hall : ∀ n ∈ s.Instances, n.Id ∈ r.Instances) :
    (addRecord domain s ttl now versions).1.Instances
      = refreshInstances ttl now s.Instances r.Instances := by
  unfold addRecord
  simp only [h, Option.getD_some]
  rw [addInstances_eq_of_all_mem domain ttl now s.Instances _ hall]
  simp

/-- Every node of the record `Add` leaves either carries the TTL and the clock
reading of this call, or is a node the record held before, unchanged. -/
theorem addRecord_node_cases (domain : String) (s : App) (ttl now : Int)
    (versions : GoMap record) (i : String) (nd : node)
    (h : (addRecord domain s ttl now versions).1.Instances.lookup i = some nd) :
    (nd.TTL = ttl ∧ nd.LastSeen = now)
      ∨ ∃ r, versions.lookup s.Version = some r ∧ r.Instances.lookup i = some nd := by
  cases hv : versions.lookup s.Version with
  | none =>
    left
    rw [addRecord_Instances_created domain s ttl now versions hv, refreshInstances_lookup] at h
    by_cases hi : i ∈ s.Instances.map (fun n => n.Id)
    · rw [if_pos hi] at h
      cases h0 : (serviceToRecord s ttl now).Instances.lookup i with
      | none => rw [h0] at h; cases h
      | some x =>
        rw [h0] at h
        cases h
        exact ⟨rfl, rfl⟩
    · rw [if_neg hi] at h
      exact serviceToRecord_stamp s ttl now i nd h
  | some r =>
    by_cases hnew : ∃ n ∈ s.Instances, n.Id ∉ r.Instances
    · rw [addRecord_Instances_added domain s ttl now versions r hv hnew] at h
      rcases foldl_addInstance_lookup_cases domain ttl now s.Instances (r.Instances, false)
          i nd h with h1 | h1
      · exact Or.inr ⟨r, rfl, h1⟩
      · exact Or.inl h1
    · have hall : ∀ n ∈ s.Instances, n.Id ∈ r.Instances := by
        intro n hn
        by_contra hc
        exact hnew ⟨n, hn, hc⟩
      rw [addRecord_Instances_refreshed domain s ttl now versions r hv hall,
        refreshInstances_lookup] at h
      by_cases hi : i ∈ s.Instances.map (fun n => n.Id)
      · rw [if_pos hi] at h
        cases h0 : r.Instances.lookup i with
        | none => rw [h0] at h; cases h
        | some x =>
          rw [h0] at h
          cases h
          exact Or.inl ⟨rfl, rfl⟩
      · rw [if_neg hi] at h
        exact Or.inr ⟨r, rfl, h⟩

theorem Add_nodeAt_same (DD : String) (m : Table) (s : App) (o : AddOptions) (now : Int)
    (i : String) :
    (Table.Add DD m s o now).table.nodeAt (resolveDomain DD o.Domain) s.Name s.Version i
      = (addRecord (resolveDomain DD o.Domain) (s.withDomain (resolveDomain DD o.Domain))
          o.TTL now (m.versionsOf (resolveDomain DD o.Domain) s.Name)).1.Instances.lookup i := by
  unfold Table.nodeAt
  rw [Add_recordAt_same, if_pos rfl]
  rfl

theorem Table.nodeAt_eq_none (m : Table) (d n v i : String) :
    m.nodeAt d n v i = none
      ↔ ∀ r, (m.versionsOf d n).lookup v = some r → i ∉ r.Instances := by
  unfold Table.nodeAt Table.recordAt
  cases (m.versionsOf d n).lookup v with
  | none => simp
  | some r =>
    simp only [Option.some_bind, Option.some.injEq, forall_eq']
    rw [← AList.lookup_eq_none]

/-- C14 (amended). `Add(s)` with the TTL `T` at the clock reading `now`, for an
incoming instance `n` of `s`: when its id was not in the record (or the record
was not stored) it is stored with TTL `T` and last_seen `now`; when its id was
in the record and every incoming id was in the record, its node is the old one
with TTL `T` and last_seen `now`; when its id was in the record and the call
inserts some new instance, its node is left as it was, TTL and last_seen
included. -/
theorem C14_add_instance (DD : String) (m : Table) (s : App) (o : AddOptions) (now : Int)
    (n : Instance) (hn : n ∈ s.Instances) :
    (m.nodeAt (resolveDomain DD o.Domain) s.Name s.Version n.Id = none →
      ∃ nd, (Table.Add DD m s o now).table.nodeAt (resolveDomain DD o.Domain) s.Name
              s.Version n.Id = some nd
        ∧ nd.TTL = o.TTL ∧ nd.LastSeen = now)
    ∧ (∀ old, m.nodeAt (resolveDomain DD o.Domain) s.Name s.Version n.Id = some old →
        (∀ x ∈ s.Instances,
          (m.nodeAt (resolveDomain DD o.Domain) s.Name s.Version x.Id).isSome = true) →
        (Table.Add DD m s o now).table.nodeAt (resolveDomain DD o.Domain) s.Name s.Version n.Id
          = some { old with TTL := o.TTL, LastSeen := now })
    ∧ (∀ old, m.nodeAt (resolveDomain DD o.Domain) s.Name s.Version n.Id = some old →
        (∃ x ∈ s.Instances,
          m.nodeAt (resolveDomain DD o.Domain) s.Name s.Version x.Id = none) →
        (Table.Add DD m s o now).table.nodeAt (resolveDomain DD o.Domain) s.Name s.Version n.Id
          = some old) := by
  have hmem : n.Id ∈ s.Instances.map (fun x => x.Id) := List.mem_map.mpr ⟨n, hn, rfl⟩
  refine ⟨?_, ?_, ?_⟩
  · intro hnone
    rw [Add_nodeAt_same]
    rw [Table.nodeAt_eq_none] at hnone
    cases hv : (m.versionsOf (resolveDomain DD o.Domain) s.Name).lookup s.Version with
    | none =>
      rw [addRecord_Instances_created (resolveDomain DD o.Domain)
        (s.withDomain (resolveDomain DD o.Domain)) o.TTL now _ hv,
        refreshInstances_lookup, App.withDomain_Instances, if_pos hmem]
      have hin : n.Id ∈ (serviceToRecord (s.withDomain (resolveDomain DD o.Domain))
          o.TTL now).Instances := by
        rw [serviceToRecord_mem, App.mem_ids]
        exact ⟨n, hn, rfl⟩
      cases h0 : (serviceToRecord (s.withDomain (resolveDomain DD o.Domain))
          o.TTL now).Instances.lookup n.Id with
      | none =>
        have := AList.lookup_isSome.mpr hin
        rw [h0] at this
        cases this
      | some x => exact ⟨_, rfl, rfl, rfl⟩
    | some r =>
      have hni : n.Id ∉ r.Instances := hnone r hv
      rw [addRecord_Instances_added (resolveDomain DD o.Domain)
        (s.withDomain (resolveDomain DD o.Domain)) o.TTL now _ r hv ⟨n, hn, hni⟩]
      obtain ⟨nd, h1, h2, h3, _⟩ := foldl_addInstance_lookup_new (resolveDomain DD o.Domain)
        o.TTL now s.Instances (r.Instances, false) n.Id (AList.lookup_eq_none.mpr hni)
        ⟨n, hn, rfl⟩
      exact ⟨nd, h1, h2, h3⟩
  · intro old hold hall
    rw [Add_nodeAt_same]
    unfold Table.nodeAt Table.recordAt at hold hall
    cases hv : (m.versionsOf (resolveDomain DD o.Domain) s.Name).lookup s.Version with
    | none => rw [hv] at hold; cases hold
    | some r =>
      rw [hv] at hold hall
      simp only [Option.some_bind] at hold hall
      rw [addRecord_Instances_refreshed (resolveDomain DD o.Domain)
        (s.withDomain (resolveDomain DD o.Domain)) o.TTL now _ r hv
        (fun x hx => AList.lookup_isSome.mp (hall x hx)),
        refreshInstances_lookup, App.withDomain_Instances, if_pos hmem, hold]
      rfl
  · intro old hold hnew
    rw [Add_nodeAt_same]
    obtain ⟨x, hx, hxnone⟩ := hnew
    rw [Table.nodeAt_eq_none] at hxnone
    unfold Table.nodeAt Table.recordAt at hold
    cases hv : (m.versionsOf (resolveDomain DD o.Domain) s.Name).lookup s.Version with
    | none => rw [hv] at hold; cases hold
    | some r =>
      rw [hv] at hold
      simp only [Option.some_bind] at hold
      rw [addRecord_Instances_added (resolveDomain DD o.Domain)
        (s.withDomain (resolveDomain DD o.Domain)) o.TTL now _ r hv ⟨x, hx, hxnone r hv⟩]
      exact foldl_addInstance_lookup_old _ _ _ _ _ _ _ hold

/-- An instance of C14: `Add(fooAC)` with the TTL 5 at time 7 on the table that
holds `a`: the new `c` is stored with TTL 5 and last_seen 7, and `a` is left
with the TTL 0 and the last_seen 0 it had. -/
theorem C14_add_instance_witness :
    (∃ nd, (Table.Add "micro" tableA fooAC ⟨5, ""⟩ 7).table.nodeAt "micro" "foo" "1.0.0" "c"
        = some nd ∧ nd.TTL = 5 ∧ nd.LastSeen = 7)
    ∧ (Table.Add "micro" tableA fooAC ⟨5, ""⟩ 7).table.nodeAt "micro" "foo" "1.0.0" "a"
        = some ⟨⟨"a", "l:1", ∅⟩, 0, 0⟩ :=
  ⟨(C14_add_instance "micro" tableA fooAC ⟨5, ""⟩ 7 ⟨"c", "l:3", ∅⟩ (by decide)).1 (by decide),
   (C14_add_instance "micro" tableA fooAC ⟨5, ""⟩ 7 ⟨"a", "l:1", ∅⟩ (by decide)).2.2
     ⟨⟨"a", "l:1", ∅⟩, 0, 0⟩ (by decide) ⟨⟨"c", "l:3", ∅⟩, by decide, by decide⟩⟩

/-- The counterexample of C14: `a` is registered with no TTL at time 0; the
`Add` of `a` and the new `c` with the TTL 5 at time 7 leaves the node of the
incoming `a` with TTL 0 and last_seen 0, not 5 and 7. -/
theorem C14_stored_not_refreshed :
    (⟨"a", "l:1", ∅⟩ : Instance) ∈ fooAC.Instances
    ∧ (tableA.nodeAt "micro" "foo" "1.0.0" "a").isSome = true
    ∧ ((Table.Add "micro" tableA fooAC ⟨5, ""⟩ 7).table.nodeAt "micro" "foo" "1.0.0" "a").map
        (fun nd => (nd.TTL, nd.LastSeen)) = some (0, 0)
    ∧ ((Table.Add "micro" tableA fooAC ⟨5, ""⟩ 7).table.nodeAt "micro" "foo" "1.0.0" "a").map
        (fun nd => (nd.TTL, nd.LastSeen)) ≠ some (5, 7) := by
  decide

/-! ## Expiry after a sweep -/

theorem expired_of_stamp (now t0 ttl : Int) (nd : node) (hT : 0 < ttl)
    (hmax : ttl < maxDuration) (hnow : t0 + ttl < now)
    (h : nd.TTL = ttl ∧ nd.LastSeen = t0) : expired now nd = true := by
  rw [expired_iff, h.1, h.2]
  refine ⟨by omega, ?_⟩
  unfold timeSince
  unfold maxDuration at hmax
  unfold maxDuration minDuration
  split_ifs <;> omega

theorem recordToApp_Instances_nil (r : record) (d : String)
    (h : ∀ i, r.Instances.lookup i = none) : (recordToApp r d).Instances = [] := by
  have hlen : r.Instances.len = 0 := (GoMap.len_eq_zero_iff _).mpr h
  have hv : r.Instances.values = [] := by
    apply List.eq_nil_of_length_eq_zero
    rw [GoMap.length_values, hlen]
  unfold recordToApp
  simp only [hv, List.map_nil]

/-- C11 (amended). `Add(s)` with a TTL `T`, `0 < T` below the largest Duration,
at the clock reading `t0` in a domain other than the wildcard, then one sweep
at a reading `now` later than `t0 + T`: `Get(s.Name)` in that domain returns
without error one App for each version stored after the `Add`, the version of
`s` included, and every App it returns has an empty instance list, provided every instance that was stored
for the name before the `Add` is itself expired at `now` (none is stored when
the name is new). -/
theorem C11_expired_after_sweep (DD : String) (fuel : Nat) (m : Table) (s : App)
    (o : AddOptions) (t0 now : Int)
    (hD : resolveDomain DD o.Domain ≠ WildcardDomain)
    (hT : 0 < o.TTL) (hmax : o.TTL < maxDuration) (hnow : t0 + o.TTL < now)
    (hold : ∀ v i nd, m.nodeAt (resolveDomain DD o.Domain) s.Name v i = some nd →
      expired now nd = true) :
    ∃ apps, Table.Get DD (fuel + 1) ((Table.Add DD m s o t0).table.ttlPrune now) s.Name
        ⟨o.Domain⟩ = some (apps, none)
      ∧ apps.length = ((Table.Add DD m s o t0).table.versionsOf
          (resolveDomain DD o.Domain) s.Name).len
      ∧ 0 < apps.length
      ∧ ∀ a ∈ apps, a.Instances = [] := by
  have hrec := Add_recordAt_same DD m s o t0 s.Version
  rw [if_pos rfl] at hrec
  have hprec := ttlPrune_recordAt (Table.Add DD m s o t0).table now
    (resolveDomain DD o.Domain) s.Name s.Version
  rw [hrec, Option.map_some'] at hprec
  have hlen : ¬ (((Table.Add DD m s o t0).table.ttlPrune now).versionsOf
      (resolveDomain DD o.Domain) s.Name).len = 0 := by
    intro h0
    have := (GoMap.len_eq_zero_iff _).mp h0 s.Version
    unfold Table.recordAt at hprec
    rw [hprec] at this
    cases this
  rw [Get_concrete DD fuel _ s.Name ⟨o.Domain⟩ hD]
  simp only [if_neg hlen]
  have hcount : ((((Table.Add DD m s o t0).table.ttlPrune now).versionsOf
      (resolveDomain DD o.Domain) s.Name).values.map
        (fun r => recordToApp r (resolveDomain DD o.Domain))).length
      = ((Table.Add DD m s o t0).table.versionsOf (resolveDomain DD o.Domain) s.Name).len := by
    rw [List.length_map, GoMap.length_values, ← GoMap.length_keys, ttlPrune_versionsOf,
      GoMap.keys_mapVal, GoMap.length_keys]
  refine ⟨_, rfl, hcount, ?_, ?_⟩
  · rw [List.length_map, GoMap.length_values]
    exact Nat.pos_of_ne_zero hlen
  · intro a ha
    obtain ⟨r, hr, rfl⟩ := List.mem_map.mp ha
    obtain ⟨v, hv⟩ := (GoMap.mem_values_iff _ _).mp hr
    apply recordToApp_Instances_nil
    intro i
    have hnode := ttlPrune_nodeAt (Table.Add DD m s o t0).table now
      (resolveDomain DD o.Domain) s.Name v i
    have hleft : ((Table.Add DD m s o t0).table.ttlPrune now).nodeAt
        (resolveDomain DD o.Domain) s.Name v i = r.Instances.lookup i := by
      unfold Table.nodeAt Table.recordAt
      rw [hv]
      rfl
    rw [hleft] at hnode
    rw [hnode]
    cases hnd : (Table.Add DD m s o t0).table.nodeAt (resolveDomain DD o.Domain) s.Name v i with
    | none => rfl
    | some nd =>
      have hexp : expired now nd = true := by
        by_cases hvs : v = s.Version
        · subst hvs
          rw [Add_nodeAt_same] at hnd
          rcases addRecord_node_cases _ _ _ _ _ _ _ hnd with h1 | ⟨r0, h1, h2⟩
          · exact expired_of_stamp now t0 o.TTL nd hT hmax hnow h1
          · apply hold s.Version i nd
            unfold Table.nodeAt Table.recordAt
            rw [App.withDomain_Version] at h1
            rw [h1]
            exact h2
        · apply hold v i nd
          unfold Table.nodeAt at hnd ⊢
          rw [Add_recordAt_same, if_neg hvs] at hnd
          exact hnd
      simp [Option.filter, hexp]

/-- An instance of C11: `Add(fooAC)` with the TTL 5 at time 0 on the empty
table, one sweep at time 10. -/
theorem C11_expired_after_sweep_witness :
    ∃ apps, Table.Get "micro" 1 (tableTTL.ttlPrune 10) "foo" ⟨""⟩ = some (apps, none)
      ∧ apps.length = ((Table.Add "micro" (NewTable "micro") fooAC ⟨5, ""⟩ 0).table.versionsOf
          "micro" "foo").len
      ∧ 0 < apps.length
      ∧ ∀ a ∈ apps, a.Instances = [] :=
  C11_expired_after_sweep "micro" 0 (NewTable "micro") fooAC ⟨5, ""⟩ 0 10 (by decide)
    (by decide) (by decide) (by decide)
    (fun v i nd h => by
      have h0 : (NewTable "micro").nodeAt "micro" "foo" v i = none := by
        unfold Table.nodeAt
        rw [NewTable_recordAt]
        rfl
      have h2 : (NewTable "micro").nodeAt "micro" "foo" v i = some nd := h
      rw [h0] at h2
      cases h2)

/-- The counterexample of C11: `a` is registered with no TTL; `Add(fooAC)`, with
the TTL 5 at time 0 and never repeated, inserts `c` and leaves `a` as it was;
after the sweep at time 10 `Get("foo")` returns without error an App that still
lists `a`. And with the largest Duration as TTL, `time.Since` saturates: the
sweep at `2 ^ 63 + 5`, later than `0 + T`, removes nothing. -/
theorem C11_unexpired_instance_returned :
    (Table.Get "micro" 1 ((Table.Add "micro" tableA fooAC ⟨5, ""⟩ 0).table.ttlPrune 10)
        "foo" ⟨""⟩).map (fun p => (p.1.map (fun a => a.ids), p.2)) = some ([["a"]], none)
    ∧ (Table.Get "micro" 1
        ((Table.Add "micro" (NewTable "micro") fooA ⟨maxDuration, ""⟩ 0).table.ttlPrune
          (2 ^ 63 + 5))
        "foo" ⟨""⟩).map (fun p => (p.1.map (fun a => a.ids), p.2)) = some ([["a"]], none) := by
  decide

/-! ## The domain in the metadata of the instances -/

/-- C15 (the code at the failing input). `Add(fooA)` on the empty table creates
the record of foo 1.0.0 from `serviceToRecord`, which stores the instance `a` as
the caller gave it: `Get("foo")` and `List()` return `a` with no "domain" key in
its metadata. The later `Add(fooAC)` inserts `c` through the loop of `Add` that
sets the key: `c` carries "micro", `a` still carries none. -/
theorem C15_created_instance_no_domain :
    (Table.Get "micro" 1 tableA "foo" ⟨""⟩).map
        (fun p => p.1.map (fun a => a.Instances.map
          (fun n => (n.Id, n.Metadata.lookup "domain")))) = some [[("a", none)]]
    ∧ (Table.List "micro" 1 tableA ⟨""⟩).map
        (fun p => p.1.map (fun a => a.Instances.map
          (fun n => (n.Id, n.Metadata.lookup "domain")))) = some [[("a", none)]]
    ∧ (Table.Get "micro" 1 (Table.Add "micro" tableA fooAC ⟨0, ""⟩ 0).table "foo" ⟨""⟩).map
        (fun p => p.1.map (fun a => a.Instances.map
          (fun n => (n.Id, n.Metadata.lookup "domain"))))
        = some [[("c", some "micro"), ("a", none)]] := by
  decide

/-! ## The watcher -/

theorem String.length_pos_iff_ne_empty (s : String) : s.length > 0 ↔ s ≠ "" := by
  constructor
  · rintro h rfl
    exact absurd h (by decide)
  · intro h
    apply Nat.pos_of_ne_zero
    intro h0
    apply h
    have := List.length_eq_zero.mp h0
    exact String.ext this

/-- The domain `Next` extracts from the metadata of the App is the domain of the
event as the specification states it. -/
theorem sourceDomain_eq_eventDomain (DD : String) (app : App) :
    (if ((app.Metadata.lookup "domain").getD "").length > 0 then
        (app.Metadata.lookup "domain").getD ""
      else DD) = eventDomain DD app := by
  unfold eventDomain
  cases app.Metadata.lookup "domain" with
  | none => rfl
  | some d =>
    simp only [Option.getD_some]
    by_cases hd : d = ""
    · subst hd; rfl
    · rw [if_pos ((String.length_pos_iff_ne_empty d).mpr hd), if_neg hd]

theorem Next_accept (DD : String) (w : Watcher) (takeExit : Nat → Bool) (k : Nat)
    (r : Received) (rest : List Received) (hw : w.exit = false) (h : w.accepts DD r) :
    Watcher.Next DD w takeExit k (r :: rest) = some ⟨some r, none, rest⟩ := by
  unfold Watcher.accepts at h
  unfold Watcher.Next
  cases hr : r.App with
  | none => rw [hr] at h; exact h.elim
  | some app =>
    rw [hr] at h
    obtain ⟨ha, hb⟩ := h
    have h1 : ¬ (w.wo.App.length > 0 ∧ w.wo.App ≠ app.Name) := by
      rintro ⟨h2, h3⟩
      rcases ha with ha | ha
      · exact (String.length_pos_iff_ne_empty _).mp h2 ha
      · exact h3 ha
    have h2 : w.wo.Domain = GlobalDomain ∨ w.wo.Domain = eventDomain DD app := hb
    simp [hw, sourceDomain_eq_eventDomain, h1, h2]

theorem Next_skip (DD : String) (w : Watcher) (takeExit : Nat → Bool) (k : Nat)
    (r : Received) (rest : List Received) (hw : w.exit = false) (h : ¬ w.accepts DD r) :
    Watcher.Next DD w takeExit k (r :: rest) = Watcher.Next DD w takeExit (k + 1) rest := by
  unfold Watcher.accepts at h
  conv_lhs => unfold Watcher.Next
  cases hr : r.App with
  | none => simp [hw]
  | some app =>
    rw [hr] at h
    simp only [hw, Bool.false_and, Bool.false_eq_true, if_false]
    by_cases h1 : w.wo.App.length > 0 ∧ w.wo.App ≠ app.Name
    · simp [h1.1, h1.2]
    · have ha : w.wo.App = "" ∨ w.wo.App = app.Name := by
        by_cases he : w.wo.App = ""
        · exact Or.inl he
        · right
          by_contra hne
          exact h1 ⟨(String.length_pos_iff_ne_empty _).mpr he, hne⟩
      have hb : ¬ (w.wo.Domain = GlobalDomain ∨ w.wo.Domain = eventDomain DD app) :=
        fun hb => h ⟨ha, hb⟩
      rw [sourceDomain_eq_eventDomain]
      have hb1 : (decide (w.wo.Domain = GlobalDomain)
          || decide (w.wo.Domain = eventDomain DD app)) = false := by
        simpa using hb
      simp only [hb1, Bool.false_eq_true, if_false]
      split <;> rfl

theorem Next_skips (DD : String) (w : Watcher) (takeExit : Nat → Bool) (k : Nat)
    (skipped pending : List Received) (hw : w.exit = false)
    (h : ∀ e ∈ skipped, ¬ w.accepts DD e) :
    Watcher.Next DD w takeExit k (skipped ++ pending)
      = Watcher.Next DD w takeExit (k + skipped.length) pending := by
  induction skipped generalizing k with
  | nil => rfl
  | cons e rest ih =>
    rw [List.cons_append, Next_skip DD w takeExit k e _ hw (h e (List.mem_cons_self _ _)),
      ih (k + 1) (fun x hx => h x (List.mem_cons_of_mem _ hx)), List.length_cons]
    congr 1
    omega

theorem eventsOneBarTwo_eq (DD : String) :
    eventsOneBarTwo DD
      = [⟨"create", some (fooA.withDomain "one")⟩, ⟨"create", some (barA.withDomain DD)⟩,
         ⟨"create", some (fooA.withDomain "two")⟩] := by
  have h1 : resolveDomain DD "one" = "one" := resolveDomain_of_ne_empty DD "one" (by decide)
  have h2 : resolveDomain DD "two" = "two" := resolveDomain_of_ne_empty DD "two" (by decide)
  have h0 : resolveDomain DD "" = DD := rfl
  unfold eventsOneBarTwo
  simp only [Add_events, h1, h2, h0]
  rw [addRecord_events_create, addRecord_events_create, addRecord_events_create]
  · rfl
  · rw [Add_versionsOf, if_neg (by simp [h0]; intro _; decide), Add_versionsOf, h1,
      if_neg (by decide), NewTable_versionsOf]
    rfl
  · rw [Add_versionsOf, h1, if_neg (by rintro ⟨_, h⟩; revert h; decide), NewTable_versionsOf]
    rfl
  · rw [NewTable_versionsOf]
    rfl

/-- C16. `Next` on a watcher that was not stopped skips every waiting event
that does not match and returns, without error, the first that does; an event
matches exactly when its App is not nil, (a) the app name of the filter is
empty or equals the name of the App and (b) the domain of the filter is the
all-domains wildcard or equals the domain of the event; with no matching event
waiting `Next` blocks. Hence the watcher with filter app "foo" and domain "*"
returns the event of `Add(foo)` into "one", then that of `Add(foo)` into "two",
and then blocks with nothing left waiting: the event of `Add(bar)` was skipped
and is never returned. -/
theorem C16_watcher_next (DD : String) :
    (∀ (w : Watcher) (takeExit : Nat → Bool) (k : Nat) (skipped : List Received)
        (r : Received) (rest : List Received),
        w.exit = false → (∀ e ∈ skipped, ¬ w.accepts DD e) → w.accepts DD r →
        Watcher.Next DD w takeExit k (skipped ++ r :: rest) = some ⟨some r, none, rest⟩
          ∧ r.App.isSome = true)
    ∧ (∀ (w : Watcher) (takeExit : Nat → Bool) (k : Nat) (pending : List Received),
        w.exit = false → (∀ e ∈ pending, ¬ w.accepts DD e) →
        Watcher.Next DD w takeExit k pending = none)
    ∧ (∀ (takeExit : Nat → Bool) (k : Nat),
        Watcher.Next DD watcherFooAll takeExit k (eventsOneBarTwo DD)
          = some ⟨some (Result.received ⟨"create", fooA.withDomain "one"⟩), none,
              [Result.received ⟨"create", barA.withDomain DD⟩,
               Result.received ⟨"create", fooA.withDomain "two"⟩]⟩
        ∧ Watcher.Next DD watcherFooAll takeExit k
            [Result.received ⟨"create", barA.withDomain DD⟩,
             Result.received ⟨"create", fooA.withDomain "two"⟩]
          = some ⟨some (Result.received ⟨"create", fooA.withDomain "two"⟩), none, []⟩
        ∧ Watcher.Next DD watcherFooAll takeExit k [] = none) := by
  refine ⟨?_, ?_, ?_⟩
  · intro w takeExit k skipped r rest hw hskip hr
    rw [Next_skips DD w takeExit k skipped _ hw hskip, Next_accept DD w takeExit _ r rest hw hr]
    refine ⟨rfl, ?_⟩
    unfold Watcher.accepts at hr
    cases hra : r.App with
    | none => rw [hra] at hr; exact hr.elim
    | some app => rfl
  · intro w takeExit k pending hw hskip
    have := Next_skips DD w takeExit k pending [] hw hskip
    rw [List.append_nil] at this
    rw [this]
    unfold Watcher.Next
    simp [hw]
  · intro takeExit k
    have hfoo : ∀ d, watcherFooAll.accepts DD (Result.received ⟨"create", fooA.withDomain d⟩) :=
      fun d => ⟨Or.inr rfl, Or.inl rfl⟩
    have hbar : ¬ watcherFooAll.accepts DD (Result.received ⟨"create", barA.withDomain DD⟩) := by
      rintro ⟨h1, _⟩
      rcases h1 with h1 | h1
      · have h2 : "foo" = "" := h1
        exact absurd h2 (by decide)
      · have h2 : "foo" = "bar" := h1
        exact absurd h2 (by decide)
    refine ⟨?_, ?_, rfl⟩
    · rw [eventsOneBarTwo_eq]
      exact Next_accept DD _ takeExit k _ _ rfl (hfoo "one")
    · rw [Next_skip DD _ takeExit k _ _ rfl hbar]
      exact Next_accept DD _ takeExit _ _ _ rfl (hfoo "two")

/-- C17. `Stop` always returns, and leaves the exit signal closed; a second
`Stop` returns as well (it takes `case <-m.exit` and closes nothing, where a
`close` of the closed channel would panic) and leaves the watcher as the first
left it, so two calls leave the state of one; and on the stopped watcher, with
no event waiting, every `Next` returns the error "watcher stopped" and no
event. -/
theorem C17_stop_idempotent (DD : String) (w : Watcher) :
    ∃ w1, w.Stop = some w1
      ∧ w1.exit = true ∧ w1.id = w.id ∧ w1.wo = w.wo
      ∧ w1.Stop = some w1
      ∧ w.Stop.bind Watcher.Stop = w.Stop
      ∧ closeChan w1.exit = none
      ∧ ∀ (takeExit : Nat → Bool) (k : Nat),
          Watcher.Next DD w1 takeExit k [] = some ⟨none, some "watcher stopped", []⟩ := by
  cases hw : w.exit with
  | true =>
    have hs : w.Stop = some w := by
      unfold Watcher.Stop
      rw [if_pos hw]
    refine ⟨w, hs, hw, rfl, rfl, hs, ?_, ?_, ?_⟩
    · rw [hs]; exact hs
    · rw [hw]; rfl
    · intro takeExit k
      unfold Watcher.Next
      rw [if_pos hw]
  | false =>
    have hs : w.Stop = some { w with exit := true } := by
      unfold Watcher.Stop closeChan
      simp [hw]
    have hs2 : Watcher.Stop { w with exit := true } = some { w with exit := true } := by
      unfold Watcher.Stop
      simp
    refine ⟨{ w with exit := true }, hs, rfl, rfl, rfl, hs2, ?_, rfl, ?_⟩
    · rw [hs]; exact hs2
    · intro takeExit k
      unfold Watcher.Next
      simp

end memory

namespace rpc

/-! ## The registration routine and the heartbeat -/

/-- C18 (the code at the failing input). One heartbeat tick: when the health
check fails and the server is registered, `Remove` is called and then, on the
same tick, `Add` is called as well; when the check fails and the server is not
registered, neither is called; when the check succeeds, `Add` alone is
called. -/
theorem C18_failed_tick_removes_then_adds :
    (∀ e : String, heartbeatTick true (some e) = [Call.Remove, Call.Add])
    ∧ (∀ e : String, heartbeatTick false (some e) = [])
    ∧ (∀ registered : Bool, heartbeatTick registered none = [Call.Add]) := by
  refine ⟨fun e => rfl, fun e => rfl, fun registered => ?_⟩
  cases registered <;> rfl

theorem regLoop_fuel (add : Nat → Option String) (fuel i : Nat) (st : RegState)
    (h : 3 ≤ fuel + i) : regLoop add fuel i st = regLoop add (3 - i) i st := by
  induction fuel generalizing i st with
  | zero =>
    have h3 : 3 - i = 0 := by omega
    rw [h3]
  | succ n ih =>
    by_cases hi : i < 3
    · have h3 : 3 - i = (3 - (i + 1)) + 1 := by omega
      rw [h3]
      unfold regLoop
      rw [if_pos hi, if_pos hi]
      cases add st.attempts with
      | none => rfl
      | some err => exact ih (i + 1) _ (by omega)
    · have h3 : 3 - i = 0 := by omega
      rw [h3]
      unfold regLoop
      rw [if_neg hi]

/-- C19. For every sequence `add` of outcomes of the registry, `regFunc` makes
at least one and at most 3 attempts; it stops at the first attempt that
succeeds and returns nil; it returns an error exactly when the three attempts
all failed, and the error is then that of the third; a larger bound on the
rounds changes nothing. In particular, two failures followed by a success give
nil after exactly 3 attempts, with the backoffs 1 and 2 in between. -/
theorem C19_regFunc_retries (add : Nat → Option String) :
    (1 ≤ (regFunc add).attempts ∧ (regFunc add).attempts ≤ 3)
    ∧ (∀ k, k < 3 → add k = none → (∀ j, j < k → add j ≠ none) →
        (regFunc add).attempts = k + 1 ∧ (regFunc add).regErr = none)
    ∧ ((regFunc add).regErr ≠ none ↔ (add 0 ≠ none ∧ add 1 ≠ none ∧ add 2 ≠ none))
    ∧ ((add 0 ≠ none ∧ add 1 ≠ none ∧ add 2 ≠ none) →
        (regFunc add).attempts = 3 ∧ (regFunc add).regErr = add 2)
    ∧ (add 0 ≠ none → add 1 ≠ none → add 2 = none → regFunc add = ⟨3, [1, 2], none⟩)
    ∧ (∀ fuel, regLoop add (3 + fuel) 0 ⟨0, [], none⟩ = regFunc add) := by
  have hfuel : ∀ fuel, regLoop add (3 + fuel) 0 ⟨0, [], none⟩ = regFunc add :=
    fun fuel => regLoop_fuel add (3 + fuel) 0 _ (by omega)
  cases h0 : add 0 with
  | none =>
    have hr : regFunc add = ⟨1, [], none⟩ := by
      simp [regFunc, regLoop, h0]
    rw [hr]
    refine ⟨⟨by decide, by decide⟩, ?_, by simp, by simp, by simp, fun fuel => ?_⟩
    · intro k hk hadd hbefore
      have : k = 0 := by
        by_contra hne
        exact hbefore 0 (Nat.pos_of_ne_zero hne) h0
      subst this
      exact ⟨rfl, rfl⟩
    · rw [hfuel, hr]
  | some e0 =>
    cases h1 : add 1 with
    | none =>
      have hr : regFunc add = ⟨2, [1], none⟩ := by
        simp [regFunc, regLoop, h0, h1]
      rw [hr]
      refine ⟨⟨by decide, by decide⟩, ?_, by simp, by simp, by simp, fun fuel => ?_⟩
      · intro k hk hadd hbefore
        have : k = 1 := by
          rcases Nat.lt_trichotomy k 1 with hlt | heq | hgt
          · have hk0 : k = 0 := by omega
            subst hk0
            rw [h0] at hadd
            cases hadd
          · exact heq
          · exact absurd h1 (hbefore 1 hgt)
        subst this
        exact ⟨rfl, rfl⟩
      · rw [hfuel, hr]
    | some e1 =>
      cases h2 : add 2 with
      | none =>
        have hr : regFunc add = ⟨3, [1, 2], none⟩ := by
          simp [regFunc, regLoop, h0, h1, h2]
        rw [hr]
        refine ⟨⟨by decide, by decide⟩, ?_, by simp, by simp, by simp, fun fuel => ?_⟩
        · intro k hk hadd hbefore
          have : k = 2 := by
            have hk' : k = 0 ∨ k = 1 ∨ k = 2 := by omega
            rcases hk' with rfl | rfl | rfl
            · rw [h0] at hadd; cases hadd
            · rw [h1] at hadd; cases hadd
            · rfl
          subst this
          exact ⟨rfl, rfl⟩
        · rw [hfuel, hr]
      | some e2 =>
        have hr : regFunc add = ⟨3, [1, 2, 3], some e2⟩ := by
          simp [regFunc, regLoop, h0, h1, h2]
        rw [hr]
        refine ⟨⟨by simp, by simp⟩, ?_, by simp, by simp, by simp, fun fuel => ?_⟩
        · intro k hk hadd hbefore
          have hk' : k = 0 ∨ k = 1 ∨ k = 2 := by omega
          rcases hk' with rfl | rfl | rfl
          · rw [h0] at hadd; cases hadd
          · rw [h1] at hadd; cases hadd
          · rw [h2] at hadd; cases hadd
        · rw [hfuel, hr]

/-! ## The connection handler -/

theorem length_eq_zero_iff_empty (s : String) : s.length = 0 ↔ s = "" := by
  constructor
  · intro h
    exact String.ext (List.length_eq_zero.mp h)
  · rintro rfl
    rfl

theorem Pool.Get_miss (p : Pool) (id : String) (h : p.sockets.lookup id = none) :
    p.Get id = (⟨id, "", "", []⟩, false, ⟨p.sockets.insert id ⟨id, "", "", []⟩⟩) := by
  unfold Pool.Get
  rw [h]

/-- The round of `serveMessage` for a message whose stream is not in the pool,
when it is a stream message with the error EOS: the pool loses the socket just
created, nothing is sent or started. -/
theorem serveMessage_drop (Codecs DefaultCodecs : memory.GoMap String)
    (setupProtocol : Message → Option String) (Local Remote : String) (acceptErr : Bool)
    (c : Conn) (msg : Message) (hmiss : c.pool.sockets.lookup (streamId msg) = none)
    (hstream : index msg.Header "Stream" ≠ "") (heos : index msg.Header "Error" = "EOS") :
    serveMessage Codecs DefaultCodecs setupProtocol Local Remote acceptErr c msg
      = some { c with pool := ⟨(c.pool.sockets.insert (streamId msg)
            ⟨streamId msg, "", "", []⟩).erase (streamId msg)⟩ } := by
  have hs : (getHeader "Stream" msg.Header).length > 0 :=
    Nat.pos_of_ne_zero (fun h0 => hstream ((length_eq_zero_iff_empty _).mp h0))
  unfold serveMessage
  simp only [Pool.Get_miss _ _ hmiss]
  simp [hs, heos, lastStreamResponseError, Pool.Release]

theorem serveMessage_cond (msg : Message)
    (hnot : ¬ (index msg.Header "Stream" ≠ "" ∧ index msg.Header "Error" = "EOS")) :
    ((!false && decide ((getHeader "Stream" msg.Header).length > 0))
      && decide (index msg.Header "Error" = lastStreamResponseError)) = false := by
  have hcond : ¬ ((getHeader "Stream" msg.Header).length > 0
      ∧ index msg.Header "Error" = lastStreamResponseError) := by
    rintro ⟨h1, h2⟩
    apply hnot
    refine ⟨fun h0 => ?_, h2⟩
    have h3 : (index msg.Header "Stream").length > 0 := h1
    rw [h0] at h3
    exact absurd h3 (by decide)
  simpa using hcond

/-- The round of `serveMessage` for a message that opens a new stream and has
neither a content type nor a header map to set it in: the round panics. -/
theorem serveMessage_new_panic (Codecs DefaultCodecs : memory.GoMap String)
    (setupProtocol : Message → Option String) (Local Remote : String) (acceptErr : Bool)
    (c : Conn) (msg : Message) (hmiss : c.pool.sockets.lookup (streamId msg) = none)
    (hnot : ¬ (index msg.Header "Stream" ≠ "" ∧ index msg.Header "Error" = "EOS"))
    (hw : withContentType msg = none) :
    serveMessage Codecs DefaultCodecs setupProtocol Local Remote acceptErr c msg = none := by
  unfold serveMessage
  simp only [Pool.Get_miss _ _ hmiss]
  simp only [serveMessage_cond msg hnot, Bool.false_eq_true, if_false, hw]

/-- The round of `serveMessage` for a message that opens a new stream, when no
codec is found for it. -/
theorem serveMessage_new_err (Codecs DefaultCodecs : memory.GoMap String)
    (setupProtocol : Message → Option String) (Local Remote : String) (acceptErr : Bool)
    (c : Conn) (msg msg1 : Message) (cf : Option String) (err : String)
    (hmiss : c.pool.sockets.lookup (streamId msg) = none)
    (hnot : ¬ (index msg.Header "Stream" ≠ "" ∧ index msg.Header "Error" = "EOS"))
    (hw : withContentType msg = some msg1)
    (hc : chooseCodec Codecs DefaultCodecs setupProtocol msg1 (contentType msg)
      = (cf, some err)) :
    serveMessage Codecs DefaultCodecs setupProtocol Local Remote acceptErr c msg
      = some
          { pool := Pool.Release (Pool.store ⟨c.pool.sockets.insert (streamId msg)
                ⟨streamId msg, "", "", []⟩⟩ ⟨streamId msg, Local, Remote, [msg]⟩)
              ⟨streamId msg, Local, Remote, [msg]⟩
            sent := c.sent ++ [⟨some (AList.insert "Content-Type" "text/plain" ∅), err⟩]
            started := c.started } := by
  unfold serveMessage
  simp only [Pool.Get_miss _ _ hmiss]
  simp only [serveMessage_cond msg hnot, Bool.false_eq_true, if_false, hw, hc, List.nil_append]

/-- The round of `serveMessage` for a message that opens a new stream, when a
codec is found for it. -/
theorem serveMessage_new_ok (Codecs DefaultCodecs : memory.GoMap String)
    (setupProtocol : Message → Option String) (Local Remote : String) (acceptErr : Bool)
    (c : Conn) (msg msg1 : Message) (cf : Option String)
    (hmiss : c.pool.sockets.lookup (streamId msg) = none)
    (hnot : ¬ (index msg.Header "Stream" ≠ "" ∧ index msg.Header "Error" = "EOS"))
    (hw : withContentType msg = some msg1)
    (hc : chooseCodec Codecs DefaultCodecs setupProtocol msg1 (contentType msg) = (cf, none)) :
    serveMessage Codecs DefaultCodecs setupProtocol Local Remote acceptErr c msg
      = some
          { pool := Pool.store ⟨c.pool.sockets.insert (streamId msg)
                ⟨streamId msg, "", "", []⟩⟩ ⟨streamId msg, Local, Remote, [msg]⟩
            sent := c.sent
            started := c.started ++
              [Worker.writer (streamId msg),
               Worker.handler (streamId msg)
                 { service := getHeader "App" msg1.Header
                   method := getHeader "Method" msg1.Header
                   endpoint := getHeader "Endpoint" msg1.Header
                   contentType := contentType msg
                   codec := cf.getD ""
                   header := msg1.Header
                   body := msg1.Body
                   stream := decide ((getHeader "Stream" msg.Header).length > 0) }
                 (requestTimeout msg)] } := by
  unfold serveMessage
  simp only [Pool.Get_miss _ _ hmiss]
  simp only [serveMessage_cond msg hnot, Bool.false_eq_true, if_false, hw, hc, List.nil_append]

theorem withContentType_of_header (msg : Message) (h : msg.Header ≠ none) :
    ∃ msg1, withContentType msg = some msg1 := by
  unfold withContentType
  split
  · cases hh : msg.Header with
    | none => exact absurd hh h
    | some hd => exact ⟨_, rfl⟩
  · exact ⟨_, rfl⟩

theorem withContentType_of_type (msg : Message) (h : index msg.Header "Content-Type" ≠ "") :
    withContentType msg = some msg := by
  unfold withContentType
  rw [if_neg (fun h0 => h ((length_eq_zero_iff_empty _).mp h0))]

theorem index_nil (k : String) : index none k = "" := rfl

/-- The message with a nil header map on the connection with an empty pool: the
round panics at the write of the default content type. -/
theorem serveMessage_nil_header :
    serveMessage ∅ codecsJson (fun _ => none) "l" "r" false connEmpty msgNilHeader = none := by
  decide

/-- C20 (amended). For a message without `Event` header the stream id is the
header `Stream` when it is not empty and the header `Id` otherwise. When no
stream with that id is in the pool: if the header `Stream` is not empty and
`Error` is "EOS", the message is dropped, that is the pool holds no stream with
that id afterwards and is otherwise as before, and nothing is sent or started;
in every other case, a message with `Error` "EOS" and no `Stream` header
included, a new stream is created, and, the header map of the message being
there to take the default content type (it is whenever the map is not nil or
the message has a content type), when a codec is found for its content type
the stream stays in the pool, loaded with the message, and exactly its writer
and its handler are started, while with no codec one text/plain message with
the error is sent, the stream is released and nothing is started. A message
whose header map is nil makes the round panic. -/
theorem C20_stream_dispatch (Codecs DefaultCodecs : memory.GoMap String)
    (setupProtocol : Message → Option String) (Local Remote : String) (acceptErr : Bool)
    (c : Conn) (msg : Message) (hmiss : c.pool.sockets.lookup (streamId msg) = none) :
    (streamId msg = if index msg.Header "Stream" = "" then index msg.Header "Id"
                    else index msg.Header "Stream")
    ∧ (index msg.Header "Stream" ≠ "" → index msg.Header "Error" = "EOS" →
        ∃ c1, serveMessage Codecs DefaultCodecs setupProtocol Local Remote acceptErr c msg
            = some c1
          ∧ c1.pool.sockets.lookup (streamId msg) = none
          ∧ (∀ k, c1.pool.sockets.lookup k = c.pool.sockets.lookup k)
          ∧ c1.sent = c.sent
          ∧ c1.started = c.started)
    ∧ (¬ (index msg.Header "Stream" ≠ "" ∧ index msg.Header "Error" = "EOS") →
        ∀ msg1, withContentType msg = some msg1 →
        (chooseCodec Codecs DefaultCodecs setupProtocol msg1 (contentType msg)).2 = none →
        ∃ c1, serveMessage Codecs DefaultCodecs setupProtocol Local Remote acceptErr c msg
            = some c1
          ∧ c1.pool.sockets.lookup (streamId msg) = some ⟨streamId msg, Local, Remote, [msg]⟩
          ∧ c1.sent = c.sent
          ∧ ∃ request, c1.started
              = c.started ++ [Worker.writer (streamId msg),
                  Worker.handler (streamId msg) request (requestTimeout msg)])
    ∧ (¬ (index msg.Header "Stream" ≠ "" ∧ index msg.Header "Error" = "EOS") →
        ∀ msg1 err, withContentType msg = some msg1 →
        (chooseCodec Codecs DefaultCodecs setupProtocol msg1 (contentType msg)).2 = some err →
        ∃ c1, serveMessage Codecs DefaultCodecs setupProtocol Local Remote acceptErr c msg
            = some c1
          ∧ c1.pool.sockets.lookup (streamId msg) = none
          ∧ c1.sent = c.sent ++ [⟨some (AList.insert "Content-Type" "text/plain" ∅), err⟩]
          ∧ c1.started = c.started)
    ∧ (msg.Header ≠ none → ∃ msg1, withContentType msg = some msg1)
    ∧ (index msg.Header "Content-Type" ≠ "" → withContentType msg = some msg)
    ∧ (msg.Header = none →
        serveMessage Codecs DefaultCodecs setupProtocol Local Remote acceptErr c msg = none) := by
  refine ⟨?_, ?_, ?_, ?_, withContentType_of_header msg, withContentType_of_type msg, ?_⟩
  · unfold streamId
    by_cases h : index msg.Header "Stream" = ""
    · rw [if_pos h, if_pos ((length_eq_zero_iff_empty _).mpr h)]
    · rw [if_neg h, if_neg (fun h0 => h ((length_eq_zero_iff_empty _).mp h0))]
  · intro hstream heos
    refine ⟨_, serveMessage_drop Codecs DefaultCodecs setupProtocol Local Remote acceptErr c msg
      hmiss hstream heos, ?_, ?_, rfl, rfl⟩
    · exact AList.lookup_erase _ _
    · intro k
      by_cases hk : k = streamId msg
      · subst hk
        rw [hmiss]
        exact AList.lookup_erase _ _
      · simp only
        rw [AList.lookup_erase_ne hk, AList.lookup_insert_ne hk]
  · intro hnot msg1 hw hfound
    cases hc : chooseCodec Codecs DefaultCodecs setupProtocol msg1 (contentType msg) with
    | mk cf err =>
      rw [hc] at hfound
      simp only at hfound
      subst hfound
      refine ⟨_, serveMessage_new_ok Codecs DefaultCodecs setupProtocol Local Remote acceptErr
        c msg msg1 cf hmiss hnot hw hc, ?_, rfl, _, rfl⟩
      exact AList.lookup_insert _
  · intro hnot msg1 err hw herr
    cases hc : chooseCodec Codecs DefaultCodecs setupProtocol msg1 (contentType msg) with
    | mk cf err2 =>
      rw [hc] at herr
      simp only at herr
      subst herr
      refine ⟨_, serveMessage_new_err Codecs DefaultCodecs setupProtocol Local Remote acceptErr
        c msg msg1 cf _ hmiss hnot hw hc, ?_, rfl, rfl⟩
      exact AList.lookup_erase _ _
  · intro hnil
    have hnot : ¬ (index msg.Header "Stream" ≠ "" ∧ index msg.Header "Error" = "EOS") := by
      rintro ⟨h1, _⟩
      rw [hnil] at h1
      exact h1 rfl
    apply serveMessage_new_panic Codecs DefaultCodecs setupProtocol Local Remote acceptErr c msg
      hmiss hnot
    unfold withContentType
    rw [hnil]
    rfl

/-- An instance of C20: on the connection with an empty pool the message with
`Stream: 7`, `Id: 1` and `Error: EOS` has the stream id 7 and is dropped. -/
theorem C20_stream_dispatch_witness :
    streamId msgEosStream = "7"
    ∧ ∃ c1, serveMessage ∅ codecsJson (fun _ => none) "l" "r" false connEmpty msgEosStream
        = some c1
      ∧ c1.pool.sockets.lookup "7" = none
      ∧ c1.started = [] :=
  have h := (C20_stream_dispatch ∅ codecsJson (fun _ => none) "l" "r" false connEmpty
    msgEosStream (by decide)).2.1 (by decide) (by decide)
  ⟨by decide, h.elim (fun c1 hc => ⟨c1, hc.1, hc.2.1, hc.2.2.2.2⟩)⟩

/-- The counterexample of C20: on the connection with an empty pool, the message
with `Id: 1` and `Error: EOS` and no `Stream` header is not dropped: its stream
is in the pool afterwards and a writer and a handler were started. And the
message with `Id: 2`, no `Error` and the content type `text/unknown`, for which
there is no codec, creates a stream that is not dispatched: it is released, one
text/plain error is sent and nothing is started. -/
theorem C20_eos_without_stream_dispatched :
    (index msgEosNoStream.Header "Stream" = ""
      ∧ index msgEosNoStream.Header "Error" = "EOS"
      ∧ connEmpty.pool.sockets.lookup (streamId msgEosNoStream) = none
      ∧ (serveMessage ∅ codecsJson (fun _ => none) "l" "r" false connEmpty
          msgEosNoStream).map (fun c1 => c1.pool.sockets.lookup (streamId msgEosNoStream))
          = some (some ⟨"1", "l", "r", [msgEosNoStream]⟩)
      ∧ (serveMessage ∅ codecsJson (fun _ => none) "l" "r" false connEmpty
          msgEosNoStream).map (fun c1 => c1.started)
          = some [Worker.writer "1",
             Worker.handler "1"
               ⟨"", "", "", "application/json", "json",
                some (AList.insert "Content-Type" "application/json"
                  (AList.insert "Id" "1" (AList.insert "Error" "EOS" ∅))), "",
                false⟩ none])
    ∧ (index msgUnknownType.Header "Error" ≠ "EOS"
      ∧ connEmpty.pool.sockets.lookup (streamId msgUnknownType) = none
      ∧ serveMessage ∅ codecsJson (fun _ => none) "l" "r" false connEmpty msgUnknownType
          = some ⟨⟨∅⟩, [⟨some (AList.insert "Content-Type" "text/plain" ∅),
                    "Unsupported Content-Type: text/unknown"⟩], []⟩) := by
  decide

end rpc

namespace rpc

/-! ## The deadline of a request -/

theorem requestTimeout_eq (msg : Message) :
    requestTimeout msg = (parseUint (index msg.Header "Timeout")).map toDuration := by
  unfold requestTimeout
  by_cases h : (index msg.Header "Timeout").length > 0
  · rw [if_pos h]
  · rw [if_neg h]
    have h0 : (index msg.Header "Timeout").length = 0 := by omega
    unfold parseUint
    rw [if_pos h0]
    rfl

theorem parseUint_lt (s : String) (n : Nat) (h : parseUint s = some n) : n < 2 ^ 64 := by
  unfold parseUint at h
  split at h
  · cases h
  · split at h
    · split at h
      · rename_i hlt
        cases h
        exact hlt
      · cases h
    · cases h

/-- C21 (the code at the failing input). The header `Timeout` with the value
9223372036854775808, that is 2 ^ 63, is accepted by the parser, and the
Duration the handler binds is -9223372036854775808: the conversion of the
uint64 to `time.Duration` wraps. For every message the Duration bound is the
parsed value `n` when `n < 2 ^ 63` and `n - 2 ^ 64`, a negative one, for every
accepted `n` from 2 ^ 63 up to 2 ^ 64 - 1; no deadline is bound when the header
is absent or empty or the parser returns an error, as for a sign or a value of
2 ^ 64. -/
theorem C21_timeout_wraps :
    (parseUint "9223372036854775808" = some (2 ^ 63)
      ∧ requestTimeout msgHugeTimeout = some (-9223372036854775808)
      ∧ (serveMessage ∅ codecsJson (fun _ => none) "l" "r" false connEmpty
            msgHugeTimeout).map (fun c1 => c1.started)
          = some [Worker.writer "1",
             Worker.handler "1"
               ⟨"", "", "", "application/json", "json",
                some (AList.insert "Content-Type" "application/json"
                  (AList.insert "Id" "1" (AList.insert "Timeout" "9223372036854775808" ∅))),
                "", false⟩ (some (-9223372036854775808))])
    ∧ (parseUint "18446744073709551615" = some (2 ^ 64 - 1)
      ∧ toDuration (2 ^ 64 - 1) = -1
      ∧ parseUint "18446744073709551616" = none
      ∧ parseUint "+5" = none ∧ parseUint "-5" = none ∧ parseUint "" = none
      ∧ parseUint "5s" = none ∧ parseUint "0042" = some 42)
    ∧ (∀ msg : Message, requestTimeout msg
        = (parseUint (index msg.Header "Timeout")).map toDuration)
    ∧ (∀ msg : Message, index msg.Header "Timeout" = "" → requestTimeout msg = none)
    ∧ (∀ msg : Message, msg.Header = none → requestTimeout msg = none)
    ∧ (∀ (msg : Message) (h : memory.GoMap String), msg.Header = some h →
        h.lookup "Timeout" = none → requestTimeout msg = none)
    ∧ (∀ (msg : Message) (n : Nat), parseUint (index msg.Header "Timeout") = some n →
        n < 2 ^ 64
        ∧ (n < 2 ^ 63 → requestTimeout msg = some (n : Int))
        ∧ (2 ^ 63 ≤ n → requestTimeout msg = some ((n : Int) - 2 ^ 64)
            ∧ (n : Int) - 2 ^ 64 < 0)) := by
  have hempty : ∀ msg : Message, index msg.Header "Timeout" = "" →
      requestTimeout msg = none := by
    intro msg h
    rw [requestTimeout_eq, h]
    rfl
  refine ⟨by decide, by decide, requestTimeout_eq, hempty, ?_, ?_, ?_⟩
  · intro msg h
    apply hempty
    rw [h]
    rfl
  · intro msg h hm hl
    apply hempty
    unfold index
    rw [hm]
    simp only [Option.some_bind, hl]
    rfl
  · intro msg n h
    have hlt := parseUint_lt _ n h
    refine ⟨hlt, ?_, ?_⟩
    · intro hn
      rw [requestTimeout_eq, h]
      simp only [Option.map_some', toDuration]
      rw [Nat.mod_eq_of_lt hlt, if_pos hn]
    · intro hn
      rw [requestTimeout_eq, h]
      simp only [Option.map_some', toDuration]
      rw [Nat.mod_eq_of_lt hlt, if_neg (by omega)]
      refine ⟨rfl, ?_⟩
      have : (n : Int) < 2 ^ 64 := by exact_mod_cast hlt
      omega

end rpc

namespace rpc

/-! ## The codec of a request -/

theorem newCodec_err_iff (Codecs DefaultCodecs : memory.GoMap String) (ct : String) :
    (newCodec Codecs DefaultCodecs ct).2 ≠ none ↔ ct ∉ Codecs ∧ ct ∉ DefaultCodecs := by
  unfold newCodec
  cases h1 : Codecs.lookup ct with
  | some cf =>
    have : ct ∈ Codecs := AList.lookup_isSome.mp (by rw [h1]; rfl)
    simp [this]
  | none =>
    have hn1 : ct ∉ Codecs := AList.lookup_eq_none.mp h1
    cases h2 : DefaultCodecs.lookup ct with
    | some cf =>
      have : ct ∈ DefaultCodecs := AList.lookup_isSome.mp (by rw [h2]; rfl)
      simp [this]
    | none =>
      have hn2 : ct ∉ DefaultCodecs := AList.lookup_eq_none.mp h2
      simp [hn1, hn2]

theorem newCodec_unsupported (Codecs DefaultCodecs : memory.GoMap String) (ct : String)
    (h1 : ct ∉ Codecs) (h2 : ct ∉ DefaultCodecs) :
    newCodec Codecs DefaultCodecs ct = (none, some ("Unsupported Content-Type: " ++ ct)) := by
  unfold newCodec
  rw [AList.lookup_eq_none.mpr h1, AList.lookup_eq_none.mpr h2]

/-- C22. `newCodec` returns the codec configured in `s.opts.Codecs` for the
content type when there is one, else the default codec for it, and returns an
error exactly when the type is in neither map, the text of the error being
"Unsupported Content-Type: " followed by the type. For a message that opens a
new stream, with such a content type and no legacy codec, `ServeConn` sends
exactly one message, with the header `Content-Type: text/plain` alone and that
text as body, releases the stream (it is not in the pool afterwards, the other
streams are as before) and starts no goroutine; `msg1` is the message once its
content type was defaulted, which is the message itself when it names a
content type. -/
theorem C22_unsupported_codec (Codecs DefaultCodecs : memory.GoMap String) :
    (∀ ct cf, Codecs.lookup ct = some cf →
        newCodec Codecs DefaultCodecs ct = (some cf, none))
    ∧ (∀ ct cf, Codecs.lookup ct = none → DefaultCodecs.lookup ct = some cf →
        newCodec Codecs DefaultCodecs ct = (some cf, none))
    ∧ (∀ ct, (newCodec Codecs DefaultCodecs ct).2 ≠ none ↔ ct ∉ Codecs ∧ ct ∉ DefaultCodecs)
    ∧ (∀ ct, ct ∉ Codecs → ct ∉ DefaultCodecs →
        newCodec Codecs DefaultCodecs ct
          = (none, some ("Unsupported Content-Type: " ++ ct)))
    ∧ (∀ (setupProtocol : Message → Option String) (Local Remote : String) (acceptErr : Bool)
        (c : Conn) (msg msg1 : Message),
        c.pool.sockets.lookup (streamId msg) = none →
        ¬ (index msg.Header "Stream" ≠ "" ∧ index msg.Header "Error" = "EOS") →
        withContentType msg = some msg1 →
        setupProtocol msg1 = none →
        contentType msg ∉ Codecs → contentType msg ∉ DefaultCodecs →
        ∃ c1, serveMessage Codecs DefaultCodecs setupProtocol Local Remote acceptErr c msg
            = some c1
          ∧ c1.sent = c.sent ++ [⟨some (AList.insert "Content-Type" "text/plain" ∅),
                          "Unsupported Content-Type: " ++ contentType msg⟩]
          ∧ c1.pool.sockets.lookup (streamId msg) = none
          ∧ (∀ k, c1.pool.sockets.lookup k = c.pool.sockets.lookup k)
          ∧ c1.started = c.started)
    ∧ (∀ msg : Message, index msg.Header "Content-Type" ≠ "" →
        withContentType msg = some msg
        ∧ contentType msg = index msg.Header "Content-Type")
    ∧ (∀ msg : Message, msg.Header ≠ none → ∃ msg1, withContentType msg = some msg1) := by
  refine ⟨?_, ?_, newCodec_err_iff Codecs DefaultCodecs, newCodec_unsupported Codecs
    DefaultCodecs, ?_, ?_, withContentType_of_header⟩
  · intro ct cf h
    unfold newCodec
    rw [h]
  · intro ct cf h1 h2
    unfold newCodec
    rw [h1, h2]
  · intro setupProtocol Local Remote acceptErr c msg msg1 hmiss hnot hw hlegacy h1 h2
    have hc : chooseCodec Codecs DefaultCodecs setupProtocol msg1
        (contentType msg) = (none, some ("Unsupported Content-Type: " ++ contentType msg)) := by
      unfold chooseCodec
      rw [hlegacy]
      exact newCodec_unsupported Codecs DefaultCodecs _ h1 h2
    refine ⟨_, serveMessage_new_err Codecs DefaultCodecs setupProtocol Local Remote acceptErr
      c msg msg1 none _ hmiss hnot hw hc, rfl, ?_, ?_, rfl⟩
    · exact AList.lookup_erase _ _
    · intro k
      by_cases hk : k = streamId msg
      · subst hk
        rw [hmiss]
        exact AList.lookup_erase _ _
      · simp only [Pool.Release, Pool.store]
        rw [AList.lookup_erase_ne hk, AList.lookup_insert_ne hk, AList.lookup_insert_ne hk]
  · intro msg h
    refine ⟨withContentType_of_type msg h, ?_⟩
    unfold contentType
    rw [if_neg (fun h0 => h ((length_eq_zero_iff_empty _).mp h0))]

/-- An instance of C22: the message with `Id: 2` and the content type
`text/unknown` on the connection with an empty pool, the only codec being the
default one for `application/json`. -/
theorem C22_unsupported_codec_witness :
    ∃ c1, serveMessage ∅ codecsJson (fun _ => none) "l" "r" false connEmpty msgUnknownType
        = some c1
      ∧ c1.sent = [⟨some (AList.insert "Content-Type" "text/plain" ∅),
            "Unsupported Content-Type: text/unknown"⟩]
      ∧ c1.pool.sockets.lookup "2" = none
      ∧ c1.started = [] :=
  have h := (C22_unsupported_codec ∅ codecsJson).2.2.2.2.1 (fun _ => none) "l" "r" false
    connEmpty msgUnknownType msgUnknownType (by decide) (by decide) (by decide) rfl
    (by decide) (by decide)
  h.elim (fun c1 hc => ⟨c1, hc.1, hc.2.1, hc.2.2.1, hc.2.2.2.2⟩)

end rpc

namespace memory

/-! ## The wildcard query on a table that stores the key "*" -/

theorem getLoop_none (call : String → Option (List App × Option RegistryError))
    (keys : List String) (acc : List App) (d : String) (hd : d ∈ keys) (h : call d = none) :
    getLoop call keys acc = none := by
  induction keys generalizing acc with
  | nil => cases hd
  | cons k rest ih =>
    unfold getLoop
    cases hk : call k with
    | none => rfl
    | some p =>
      have hne : d ≠ k := by
        rintro rfl
        rw [h] at hk
        cases hk
      have hrest : d ∈ rest := by
        rcases List.mem_cons.mp hd with h1 | h1
        · exact absurd h1 hne
        · exact h1
      obtain ⟨srvs, err⟩ := p
      simp only
      cases err with
      | none => simp [ih _ hrest]
      | some e =>
        cases e
        simp [ih _ hrest]

theorem listLoop_err (call : String → Option (List App × Option RegistryError))
    (hcall : ∀ d apps err, call d = some (apps, err) → err = none)
    (keys : List String) (acc apps : List App) (err : Option RegistryError)
    (h : listLoop call keys acc = some (apps, err)) : err = none := by
  induction keys generalizing acc with
  | nil =>
    unfold listLoop at h
    cases h
    rfl
  | cons k rest ih =>
    unfold listLoop at h
    cases hk : call k with
    | none => rw [hk] at h; cases h
    | some p =>
      obtain ⟨srvs, e⟩ := p
      have he := hcall k srvs e hk
      subst he
      rw [hk] at h
      simp only [ne_eq, not_true_eq_false, if_false] at h
      exact ih _ h

theorem List_err (DD : String) (fuel : Nat) (m : Table) (o : ListOptions) (apps : List App)
    (err : Option RegistryError) (h : Table.List DD fuel m o = some (apps, err)) :
    err = none := by
  induction fuel generalizing o apps err with
  | zero =>
    unfold Table.List at h
    cases h
  | succ k ih =>
    unfold Table.List at h
    simp only at h
    split at h
    · exact listLoop_err _ (fun d a e hc => ih _ a e hc) _ _ apps err h
    · split at h
      · cases h; rfl
      · cases h; rfl

theorem listLoop_none (call : String → Option (List App × Option RegistryError))
    (hcall : ∀ d apps err, call d = some (apps, err) → err = none)
    (keys : List String) (acc : List App) (d : String) (hd : d ∈ keys) (h : call d = none) :
    listLoop call keys acc = none := by
  induction keys generalizing acc with
  | nil => cases hd
  | cons k rest ih =>
    unfold listLoop
    cases hk : call k with
    | none => rfl
    | some p =>
      have hne : d ≠ k := by
        rintro rfl
        rw [h] at hk
        cases hk
      have hrest : d ∈ rest := by
        rcases List.mem_cons.mp hd with h1 | h1
        · exact absurd h1 hne
        · exact h1
      obtain ⟨srvs, e⟩ := p
      have he := hcall k srvs e hk
      subst he
      simp [ih _ hrest]

/-- On a table that stores the domain key "*", `Get` with the wildcard domain
does not return, whatever the fuel: the call for the key "*" is a wildcard call
again. -/
theorem Get_star_key_none (DD : String) (m : Table) (name : String)
    (h : WildcardDomain ∈ m.records.keys) (fuel : Nat) :
    Table.Get DD fuel m name ⟨WildcardDomain⟩ = none := by
  induction fuel with
  | zero => rfl
  | succ k ih =>
    rw [Table.Get]
    simp only [resolveDomain_wildcard, if_true]
    exact getLoop_none _ _ _ WildcardDomain h ih

/-- On a table that stores the domain key "*", `List` with the wildcard domain
does not return, whatever the fuel. -/
theorem List_star_key_none (DD : String) (m : Table)
    (h : WildcardDomain ∈ m.records.keys) (fuel : Nat) :
    Table.List DD fuel m ⟨WildcardDomain⟩ = none := by
  induction fuel with
  | zero => rfl
  | succ k ih =>
    rw [Table.List]
    simp only [resolveDomain_wildcard, if_true]
    exact listLoop_none _ (fun d a e hc => List_err DD k m _ a e hc) _ _ WildcardDomain h ih

theorem reach_append (DD : String) (ops : List Op) (op : Op) :
    reach DD (ops ++ [op]) = applyOp DD (reach DD ops) op := by
  unfold reach
  rw [List.foldl_append]
  rfl

/-- C29 (the code at the failing input). After `Add(s)` with the domain option
"*", made on any table reached from the empty one by `Add`, `Remove` and
sweeps, the table, which is reached in this way too, stores the literal key
"*", and neither `Get(name)` nor `List()` with the wildcard domain returns,
however deep the recursion is allowed to go: the call the wildcard branch
makes for the key "*" re-enters the wildcard branch. So it is after the single
`Add(fooA, domain "*")` on the empty table. -/
theorem C29_wildcard_never_returns (DD : String) (ops : List Op) (s : App) (ttl now : Int) :
    reach DD (ops ++ [Op.add s ⟨ttl, "*"⟩ now])
        = (Table.Add DD (reach DD ops) s ⟨ttl, "*"⟩ now).table
    ∧ "*" ∈ (reach DD (ops ++ [Op.add s ⟨ttl, "*"⟩ now])).records.keys
    ∧ (∀ (fuel : Nat) (name : String),
        Table.Get DD fuel (reach DD (ops ++ [Op.add s ⟨ttl, "*"⟩ now])) name ⟨"*"⟩ = none)
    ∧ (∀ fuel : Nat,
        Table.List DD fuel (reach DD (ops ++ [Op.add s ⟨ttl, "*"⟩ now])) ⟨"*"⟩ = none)
    ∧ (¬ ∃ fuel r, Table.Get "micro" fuel (reach "micro" [Op.add fooA ⟨0, "*"⟩ 0]) "foo" ⟨"*"⟩
        = some r)
    ∧ (¬ ∃ fuel r, Table.List "micro" fuel (reach "micro" [Op.add fooA ⟨0, "*"⟩ 0]) ⟨"*"⟩
        = some r) := by
  have hkey : ∀ (D : String) (l : List Op) (a : App) (t n : Int),
      WildcardDomain ∈ (reach D (l ++ [Op.add a ⟨t, "*"⟩ n])).records.keys := by
    intro D l a t n
    rw [reach_append]
    show WildcardDomain ∈ (Table.Add D (reach D l) a ⟨t, "*"⟩ n).table.records.keys
    rw [Add_keys]
    exact List.mem_cons_self _ _
  refine ⟨reach_append DD ops _, hkey DD ops s ttl now, ?_, ?_, ?_, ?_⟩
  · intro fuel name
    exact Get_star_key_none DD _ name (hkey DD ops s ttl now) fuel
  · intro fuel
    exact List_star_key_none DD _ (hkey DD ops s ttl now) fuel
  · rintro ⟨fuel, r, h⟩
    have h0 := Get_star_key_none "micro" _ "foo" (hkey "micro" [] fooA 0 0) fuel
    have h1 : (none : Option (List App × Option RegistryError)) = some r := h0.symm.trans h
    cases h1
  · rintro ⟨fuel, r, h⟩
    have h0 := List_star_key_none "micro" _ (hkey "micro" [] fooA 0 0) fuel
    have h1 : (none : Option (List App × Option RegistryError)) = some r := h0.symm.trans h
    cases h1

end memory

namespace memory

/-! ## The domain in the metadata of the Apps -/

theorem recordToApp_domain (r : record) (d : String) :
    (recordToApp r d).Metadata.lookup "domain" = some d := by
  unfold recordToApp
  exact AList.lookup_insert _

/-- C25 (the code at the failing input). After `Add(fooA)` on the empty table,
whose default domain is "micro", `List()` returns the App of foo with "foo",
the name of the app, under "domain" in its metadata, and so does `List` with
the wildcard domain, while `Get("foo")` returns it with "micro". For every
table, every App `List` returns for a concrete domain is built by
`recordToApp` from a record of that domain and the name it is stored under,
and carries that name under "domain"; every App `Get` returns for a concrete
domain carries the domain. -/
theorem C25_list_domain_is_name :
    ((Table.List "micro" 1 tableA ⟨""⟩).map
        (fun p => p.1.map (fun a => (a.Name, a.Metadata.lookup "domain")))
        = some [("foo", some "foo")]
      ∧ (Table.List "micro" 2 tableA ⟨"*"⟩).map
        (fun p => p.1.map (fun a => (a.Name, a.Metadata.lookup "domain")))
        = some [("foo", some "foo")]
      ∧ (Table.Get "micro" 1 tableA "foo" ⟨""⟩).map
        (fun p => p.1.map (fun a => (a.Name, a.Metadata.lookup "domain")))
        = some [("foo", some "micro")]
      ∧ (tableA.recordAt "micro" "foo" "1.0.0").isSome = true)
    ∧ (∀ (DD : String) (fuel : Nat) (m : Table) (o : ListOptions),
        resolveDomain DD o.Domain ≠ WildcardDomain →
        ∃ apps, Table.List DD (fuel + 1) m o = some (apps, none)
          ∧ ∀ a ∈ apps, ∃ n v r, m.recordAt (resolveDomain DD o.Domain) n v = some r
              ∧ a = recordToApp r n ∧ a.Metadata.lookup "domain" = some n)
    ∧ (∀ (DD : String) (fuel : Nat) (m : Table) (name : String) (o : GetOptions)
        (apps : List App) (err : Option RegistryError),
        resolveDomain DD o.Domain ≠ WildcardDomain →
        Table.Get DD (fuel + 1) m name o = some (apps, err) →
        ∀ a ∈ apps, a.Metadata.lookup "domain" = some (resolveDomain DD o.Domain)) := by
  refine ⟨by decide, ?_, ?_⟩
  · intro DD fuel m o hD
    rw [List_concrete DD fuel m o hD]
    refine ⟨_, rfl, ?_⟩
    intro a ha
    obtain ⟨service, hs, ha2⟩ := List.mem_flatMap.mp ha
    obtain ⟨r, hr, rfl⟩ := List.mem_map.mp ha2
    obtain ⟨v, hv⟩ := (GoMap.mem_values_iff _ _).mp hr
    refine ⟨service.1, v, r, ?_, rfl, recordToApp_domain r service.1⟩
    have hlook : ((m.records.lookup (resolveDomain DD o.Domain)).getD ∅).lookup service.1
        = some service.2 := by
      have : (⟨service.1, service.2⟩ : Sigma fun _ : String => GoMap record)
          ∈ ((m.records.lookup (resolveDomain DD o.Domain)).getD ∅).entries := hs
      exact Option.mem_def.mp (AList.mem_lookup_iff.mpr this)
    unfold Table.recordAt
    rw [Table.versionsOf_eq, hlook]
    exact hv
  · intro DD fuel m name o apps err hD h
    rw [Get_concrete DD fuel m name o hD] at h
    by_cases hl : (m.versionsOf (resolveDomain DD o.Domain) name).len = 0
    · rw [if_pos hl] at h
      have h1 := congrArg Prod.fst (Option.some.inj h)
      simp only at h1
      subst h1
      intro a ha
      cases ha
    · rw [if_neg hl] at h
      have h1 := congrArg Prod.fst (Option.some.inj h)
      simp only at h1
      subst h1
      intro a ha
      obtain ⟨r, _, rfl⟩ := List.mem_map.mp ha
      exact recordToApp_domain r _

/-! ## The events of an `Add` to a stored version -/

/-- C26 (amended). An `Add` to an (app, version) that is stored in the domain,
with the record `r`, emits exactly one `update` event, and nothing else, when
some incoming instance id is not in `r`, and emits no event at all when every
incoming id is in `r`, in particular when the app lists no instance. -/
theorem C26_add_stored_events (DD : String) (m : Table) (s : App) (o : AddOptions) (now : Int)
    (r : record) (h : m.recordAt (resolveDomain DD o.Domain) s.Name s.Version = some r) :
    ((∃ n ∈ s.Instances, n.Id ∉ r.Instances) →
        (Table.Add DD m s o now).events = [⟨"update", s.withDomain (resolveDomain DD o.Domain)⟩])
    ∧ ((∀ n ∈ s.Instances, n.Id ∈ r.Instances) → (Table.Add DD m s o now).events = [])
    ∧ (s.Instances = [] → (Table.Add DD m s o now).events = [])
    ∧ ((Table.Add DD m s o now).events ≠ [] ↔ ∃ n ∈ s.Instances, n.Id ∉ r.Instances) := by
  have h1 : (∃ n ∈ s.Instances, n.Id ∉ r.Instances) →
      (Table.Add DD m s o now).events
        = [⟨"update", s.withDomain (resolveDomain DD o.Domain)⟩] := by
    intro hnew
    rw [Add_events]
    exact addRecord_events_update (resolveDomain DD o.Domain)
      (s.withDomain (resolveDomain DD o.Domain)) o.TTL now _ r h hnew
  have h2 : (∀ n ∈ s.Instances, n.Id ∈ r.Instances) → (Table.Add DD m s o now).events = [] := by
    intro hall
    rw [Add_events]
    exact addRecord_events_none (resolveDomain DD o.Domain)
      (s.withDomain (resolveDomain DD o.Domain)) o.TTL now _ r h hall
  refine ⟨h1, h2, ?_, ?_⟩
  · intro hnil
    apply h2
    intro n hn
    rw [hnil] at hn
    cases hn
  · constructor
    · intro hne
      by_contra hc
      apply hne
      apply h2
      intro n hn
      by_contra hn2
      exact hc ⟨n, hn, hn2⟩
    · intro hnew
      rw [h1 hnew]
      exact List.cons_ne_nil _ _

/-- An instance of C26: on the table that holds foo 1.0.0 with `a`, the `Add` of
foo 1.0.0 with `a` and `c` emits one `update`. -/
theorem C26_add_stored_events_witness :
    (Table.Add "micro" tableA fooAC ⟨0, ""⟩ 0).events = [⟨"update", fooAC.withDomain "micro"⟩] :=
  (C26_add_stored_events "micro" tableA fooAC ⟨0, ""⟩ 0 recA (by decide)).1
    ⟨⟨"c", "l:3", ∅⟩, by decide, by decide⟩

/-- The counterexample of C26: foo 1.0.0 is stored with the instance `a`; the
`Add` of foo 1.0.0 with `a` again emits no event, and neither does the `Add` of
foo 1.0.0 with no instance. -/
theorem C26_readd_emits_nothing :
    (tableA.recordAt "micro" "foo" "1.0.0").isSome = true
    ∧ (Table.Add "micro" tableA fooA ⟨0, ""⟩ 1).events = []
    ∧ (Table.Add "micro" tableA fooNone ⟨0, ""⟩ 1).events = [] := by
  decide

end memory

namespace memory

/-! ## What `Add` leaves untouched -/

theorem Add_recordAt_frame (DD : String) (m : Table) (s : App) (o : AddOptions) (now : Int)
    (d n v : String)
    (h : ¬ (d = resolveDomain DD o.Domain ∧ n = s.Name ∧ v = s.Version)) :
    (Table.Add DD m s o now).table.recordAt d n v = m.recordAt d n v := by
  by_cases hdn : d = resolveDomain DD o.Domain ∧ n = s.Name
  · obtain ⟨rfl, rfl⟩ := hdn
    rw [Add_recordAt_same, if_neg (fun hv => h ⟨rfl, rfl, hv⟩)]
  · exact Add_recordAt_other DD m s o now d n v hdn

theorem Add_versionsOf_frame (DD : String) (m : Table) (s : App) (o : AddOptions) (now : Int)
    (d n : String) (h : ¬ (d = resolveDomain DD o.Domain ∧ n = s.Name)) :
    (Table.Add DD m s o now).table.versionsOf d n = m.versionsOf d n := by
  rw [Add_versionsOf, if_neg h]

theorem Get_concrete_any (DD : String) (fuel : Nat) (m : Table) (name : String)
    (o : GetOptions) (hD : resolveDomain DD o.Domain ≠ WildcardDomain) :
    Table.Get DD fuel m name o
      = if fuel = 0 then none
        else some (if (m.versionsOf (resolveDomain DD o.Domain) name).len = 0 then
                ([], some RegistryError.ErrNotFound)
              else ((m.versionsOf (resolveDomain DD o.Domain) name).values.map
                      (fun r => recordToApp r (resolveDomain DD o.Domain)), none)) := by
  cases fuel with
  | zero => rfl
  | succ k =>
    rw [Get_concrete DD k m name o hD, if_neg (Nat.succ_ne_zero k)]

theorem versionsOf_of_not_key (m : Table) (d n : String) (h : d ∉ m.records) :
    m.versionsOf d n = ∅ := by
  unfold Table.versionsOf
  rw [AList.lookup_eq_none.mpr h]
  rfl

theorem flatMap_perm_cons_erase {β : Type} (keys : List String) (D : String)
    (f : String → List β) (h : D ∉ keys → f D = []) :
    List.Perm ((D :: keys.erase D).flatMap f) (keys.flatMap f) := by
  by_cases hD : D ∈ keys
  · exact List.Perm.flatMap_right f (List.perm_cons_erase hD).symm
  · rw [List.erase_of_not_mem hD, List.flatMap_cons, h hD]
    exact List.Perm.refl _

theorem resolveDomain_idem (DD D : String) :
    resolveDomain DD (resolveDomain DD D) = resolveDomain DD D := by
  unfold resolveDomain
  by_cases h : D.length = 0
  · simp only [h, if_true]
    split <;> rfl
  · simp only [h, if_false]

/-- `Get` with the wildcard domain on a table none of whose domain keys
resolves to the wildcard. -/
theorem Get_wildcard_resolved (DD : String) (fuel : Nat) (m : Table) (name : String)
    (h : ∀ d ∈ m.records.keys, resolveDomain DD d ≠ WildcardDomain) :
    Table.Get DD (fuel + 2) m name ⟨WildcardDomain⟩
      = some (if (m.records.keys.flatMap (fun d =>
                    (m.versionsOf (resolveDomain DD d) name).values.map
                      (fun r => recordToApp r (resolveDomain DD d)))).length = 0 then
                ([], some RegistryError.ErrNotFound)
              else (m.records.keys.flatMap (fun d =>
                    (m.versionsOf (resolveDomain DD d) name).values.map
                      (fun r => recordToApp r (resolveDomain DD d))), none)) := by
  rw [Table.Get]
  simp only [resolveDomain_wildcard, if_true]
  rw [getLoop_eq _ (fun d => (m.versionsOf (resolveDomain DD d) name).values.map
    (fun r => recordToApp r (resolveDomain DD d)))]
  · simp
  · intro d hd
    rw [Get_concrete DD fuel m name ⟨d⟩ (h d hd)]
    simp only [List.length_map, GoMap.length_values]

/-! ## The delivery of the events of a call -/

theorem foldl_sendEvent_step (r : Result) (ws : List Watcher) (acc : Table × List (String × Result))
    (i : String) :
    ((ws.foldl
        (fun acc w =>
          if w.exit then ({ acc.1 with watchers := acc.1.watchers.erase w.id }, acc.2)
          else (acc.1, acc.2 ++ [(w.id, r)])) acc).1.records = acc.1.records)
    ∧ ((ws.foldl
        (fun acc w =>
          if w.exit then ({ acc.1 with watchers := acc.1.watchers.erase w.id }, acc.2)
          else (acc.1, acc.2 ++ [(w.id, r)])) acc).1.watchers.lookup i
        = if ∃ w ∈ ws, w.exit = true ∧ w.id = i then none else acc.1.watchers.lookup i) := by
  induction ws generalizing acc with
  | nil => simp
  | cons w rest ih =>
    rw [List.foldl_cons]
    obtain ⟨h1, h2⟩ := ih (if w.exit then
      ({ acc.1 with watchers := acc.1.watchers.erase w.id }, acc.2)
      else (acc.1, acc.2 ++ [(w.id, r)]))
    refine ⟨?_, ?_⟩
    · rw [h1]
      split <;> rfl
    · rw [h2]
      by_cases hw : w.exit = true
      · simp only [hw, if_true]
        by_cases hi : w.id = i
        · have hex : ∃ x ∈ w :: rest, x.exit = true ∧ x.id = i :=
            ⟨w, List.mem_cons_self _ _, hw, hi⟩
          rw [if_pos hex]
          split
          · rfl
          · rw [← hi]
            exact AList.lookup_erase _ _
        · have hiff : (∃ x ∈ w :: rest, x.exit = true ∧ x.id = i)
              ↔ ∃ x ∈ rest, x.exit = true ∧ x.id = i := by
            constructor
            · rintro ⟨x, hx, hxe, hxi⟩
              rcases List.mem_cons.mp hx with rfl | hx
              · exact absurd hxi hi
              · exact ⟨x, hx, hxe, hxi⟩
            · rintro ⟨x, hx, hxe, hxi⟩
              exact ⟨x, List.mem_cons_of_mem _ hx, hxe, hxi⟩
          simp only [hiff]
          split
          · rfl
          · exact AList.lookup_erase_ne (Ne.symm hi)
      · have hiff : (∃ x ∈ w :: rest, x.exit = true ∧ x.id = i)
            ↔ ∃ x ∈ rest, x.exit = true ∧ x.id = i := by
          constructor
          · rintro ⟨x, hx, hxe, hxi⟩
            rcases List.mem_cons.mp hx with rfl | hx
            · exact absurd hxe hw
            · exact ⟨x, hx, hxe, hxi⟩
          · rintro ⟨x, hx, hxe, hxi⟩
            exact ⟨x, List.mem_cons_of_mem _ hx, hxe, hxi⟩
        simp only [hw, Bool.false_eq_true, if_false, hiff]

theorem sendEvent_records (m : Table) (r : Result) : (sendEvent m r).1.records = m.records :=
  (foldl_sendEvent_step r m.watchers.values (m, []) "").1

/-- What `sendEvent` leaves of the watchers, when each is stored under its own
id: the watchers whose `exit` is open. -/
theorem sendEvent_watchers (m : Table) (r : Result)
    (hk : ∀ i w, m.watchers.lookup i = some w → w.id = i) (i : String) :
    (sendEvent m r).1.watchers.lookup i = (m.watchers.lookup i).filter (fun w => !w.exit) := by
  unfold sendEvent
  rw [(foldl_sendEvent_step r m.watchers.values (m, []) i).2]
  cases hl : m.watchers.lookup i with
  | none =>
    simp only [Option.filter]
    split <;> rfl
  | some w0 =>
    by_cases he : w0.exit = true
    · have hex : ∃ w ∈ m.watchers.values, w.exit = true ∧ w.id = i :=
        ⟨w0, (GoMap.mem_values_iff _ _).mpr ⟨i, hl⟩, he, hk i w0 hl⟩
      rw [if_pos hex]
      simp [Option.filter, he]
    · have hex : ¬ ∃ w ∈ m.watchers.values, w.exit = true ∧ w.id = i := by
        rintro ⟨w, hw, hwe, hwi⟩
        obtain ⟨k, hk2⟩ := (GoMap.mem_values_iff _ _).mp hw
        have hki : k = i := (hk k w hk2).symm.trans hwi
        rw [hki, hl] at hk2
        cases hk2
        exact he hwe
      rw [if_neg hex]
      simp [Option.filter, he]

theorem foldl_sendEvent_records (events : List Result) (t : Table) :
    (events.foldl (fun t r => (sendEvent t r).1) t).records = t.records := by
  induction events generalizing t with
  | nil => rfl
  | cons r rest ih => rw [List.foldl_cons, ih, sendEvent_records]

theorem foldl_sendEvent_watchers (events : List Result) (t : Table)
    (hk : ∀ i w, t.watchers.lookup i = some w → w.id = i) (hne : events ≠ []) (i : String) :
    (events.foldl (fun t r => (sendEvent t r).1) t).watchers.lookup i
      = (t.watchers.lookup i).filter (fun w => !w.exit) := by
  induction events generalizing t with
  | nil => exact absurd rfl hne
  | cons r rest ih =>
    rw [List.foldl_cons]
    have hk1 : ∀ j w, (sendEvent t r).1.watchers.lookup j = some w → w.id = j := by
      intro j w hj
      rw [sendEvent_watchers t r hk j] at hj
      cases hl : t.watchers.lookup j with
      | none => rw [hl] at hj; cases hj
      | some w0 =>
        rw [hl] at hj
        simp only [Option.filter] at hj
        split at hj
        · cases hj
          exact hk j _ hl
        · cases hj
    by_cases hrest : rest = []
    · subst hrest
      exact sendEvent_watchers t r hk i
    · rw [ih _ hk1 hrest, sendEvent_watchers t r hk i]
      cases t.watchers.lookup i with
      | none => rfl
      | some w0 =>
        cases he : w0.exit <;> simp [Option.filter, he]

/-- C30 (amended). `Add(s)` into the domain `D` leaves every record other than
(D, s.Name, s.Version) as it was, in every domain; it removes no record and no
instance; the watcher set is as it was when the call returns, and the
goroutines `sendEvent` that the call starts, one for each event it emits,
leave the records alone and, the watchers being stored under their ids, delete
the watchers that were stopped and no other, so that the watcher set stays as
it was exactly when the call emits no event or no watcher was stopped;
`Get(N, R)` for a concrete domain `R` returns the same before and after the
call for every (R, N) other than (D, s.Name); and when no domain key stored
after the call is or resolves to the wildcard, `Get(N)` with the wildcard
domain returns, for every N other than s.Name, the same error and the same
Apps up to their order. -/
theorem C30_add_frame (DD : String) (m : Table) (s : App) (o : AddOptions) (now : Int) :
    (∀ d n v, ¬ (d = resolveDomain DD o.Domain ∧ n = s.Name ∧ v = s.Version) →
        (Table.Add DD m s o now).table.recordAt d n v = m.recordAt d n v)
    ∧ (∀ d n v, (m.recordAt d n v).isSome = true →
        ((Table.Add DD m s o now).table.recordAt d n v).isSome = true)
    ∧ (∀ d n v i, (m.nodeAt d n v i).isSome = true →
        ((Table.Add DD m s o now).table.nodeAt d n v i).isSome = true)
    ∧ (Table.Add DD m s o now).table.watchers = m.watchers
    ∧ (Table.Add DD m s o now).settled.records = (Table.Add DD m s o now).table.records
    ∧ ((Table.Add DD m s o now).events = [] →
        (Table.Add DD m s o now).settled = (Table.Add DD m s o now).table)
    ∧ ((∀ i w, m.watchers.lookup i = some w → w.id = i) →
        (Table.Add DD m s o now).events ≠ [] →
        ∀ i, (Table.Add DD m s o now).settled.watchers.lookup i
          = (m.watchers.lookup i).filter (fun w => !w.exit))
    ∧ (∀ (fuel : Nat) (N : String) (g : GetOptions),
        resolveDomain DD g.Domain ≠ WildcardDomain →
        ¬ (resolveDomain DD g.Domain = resolveDomain DD o.Domain ∧ N = s.Name) →
        Table.Get DD fuel (Table.Add DD m s o now).table N g = Table.Get DD fuel m N g)
    ∧ ((∀ d ∈ (Table.Add DD m s o now).table.records.keys,
          resolveDomain DD d ≠ WildcardDomain) →
        ∀ (fuel : Nat) (N : String), N ≠ s.Name →
        ∃ before after err,
          Table.Get DD (fuel + 2) m N ⟨WildcardDomain⟩ = some (before, err)
          ∧ Table.Get DD (fuel + 2) (Table.Add DD m s o now).table N ⟨WildcardDomain⟩
              = some (after, err)
          ∧ List.Perm after before) := by
  refine ⟨Add_recordAt_frame DD m s o now, ?_, ?_, rfl, ?_, ?_, ?_, ?_, ?_⟩
  · intro d n v h
    by_cases hk : d = resolveDomain DD o.Domain ∧ n = s.Name ∧ v = s.Version
    · obtain ⟨rfl, rfl, rfl⟩ := hk
      rw [Add_recordAt_same, if_pos rfl]
      rfl
    · rw [Add_recordAt_frame DD m s o now d n v hk]
      exact h
  · intro d n v i h
    by_cases hk : d = resolveDomain DD o.Domain ∧ n = s.Name ∧ v = s.Version
    · obtain ⟨rfl, rfl, rfl⟩ := hk
      rw [Add_nodeAt_same]
      apply AList.lookup_isSome.mpr
      rw [addRecord_mem]
      right
      unfold Table.nodeAt Table.recordAt at h
      cases hv : (m.versionsOf (resolveDomain DD o.Domain) s.Name).lookup s.Version with
      | none => rw [hv] at h; cases h
      | some r =>
        rw [hv] at h
        exact ⟨r, hv, AList.lookup_isSome.mp h⟩
    · unfold Table.nodeAt
      rw [Add_recordAt_frame DD m s o now d n v hk]
      exact h
  · exact foldl_sendEvent_records _ _
  · intro h0
    unfold Effect.settled
    rw [h0]
    rfl
  · intro hk hne i
    exact foldl_sendEvent_watchers (Table.Add DD m s o now).events
      (Table.Add DD m s o now).table hk hne i
  · intro fuel N g hD hne
    rw [Get_concrete_any DD fuel _ N g hD, Get_concrete_any DD fuel m N g hD,
      Add_versionsOf_frame DD m s o now _ N hne]
  · intro hres fuel N hN
    have hkeys := Add_keys DD m s o now
    have hsub : ∀ d, d ∈ m.records.keys → d ∈ (Table.Add DD m s o now).table.records.keys := by
      intro d hd
      rw [hkeys]
      by_cases hdD : d = resolveDomain DD o.Domain
      · rw [hdD]; exact List.mem_cons_self _ _
      · exact List.mem_cons_of_mem _ ((List.mem_erase_of_ne hdD).mpr hd)
    have hres0 : ∀ d ∈ m.records.keys, resolveDomain DD d ≠ WildcardDomain :=
      fun d hd => hres d (hsub d hd)
    rw [Get_wildcard_resolved DD fuel m N hres0, Get_wildcard_resolved DD fuel _ N hres, hkeys]
    have hf : ∀ d, (Table.Add DD m s o now).table.versionsOf d N = m.versionsOf d N :=
      fun d => Add_versionsOf_frame DD m s o now d N (fun hc => hN hc.2)
    simp only [hf]
    have hperm := flatMap_perm_cons_erase m.records.keys (resolveDomain DD o.Domain)
      (fun d => (m.versionsOf (resolveDomain DD d) N).values.map
        (fun r => recordToApp r (resolveDomain DD d)))
      (fun hnot => by
        have : resolveDomain DD o.Domain ∉ m.records := fun hc => hnot (AList.mem_keys.mp hc)
        simp only [resolveDomain_idem, versionsOf_of_not_key m _ N this]
        rfl)
    have hlen := hperm.length_eq
    by_cases hz : (m.records.keys.flatMap
        (fun d => (m.versionsOf (resolveDomain DD d) N).values.map
          (fun r => recordToApp r (resolveDomain DD d)))).length = 0
    · refine ⟨[], [], some RegistryError.ErrNotFound, ?_, ?_, List.Perm.refl _⟩
      · rw [if_pos hz]
      · rw [if_pos (hlen.trans hz)]
    · refine ⟨_, _, none, ?_, ?_, hperm⟩
      · rw [if_neg hz]
      · rw [if_neg (fun hc => hz (hlen.symm.trans hc))]

/-- The counterexample of C30: the empty table holds the watcher "w1", on which
`Stop()` was called; `Add(fooA)` emits a `create` event, and once the
`sendEvent` goroutine of that event has run the watcher set is empty: the
stopped watcher was deleted. -/
theorem C30_stopped_watcher_deleted :
    tableWatched.watchers.keys = ["w1"]
    ∧ (tableWatched.watchers.lookup "w1").map (fun w => w.exit) = some true
    ∧ (Table.Add "micro" tableWatched fooA ⟨0, ""⟩ 0).events.map (fun e => e.Action)
        = ["create"]
    ∧ (Table.Add "micro" tableWatched fooA ⟨0, ""⟩ 0).settled.watchers.keys = []
    ∧ (Table.Add "micro" tableWatched fooA ⟨0, ""⟩ 0).settled.watchers
        ≠ tableWatched.watchers := by
  decide

/-- The slip of the wildcard branch seen from `Add`: on the empty table
`Get("bar")` with the wildcard domain returns `ErrNotFound`; after
`Add(fooA, domain "*")`, which stores foo under the literal key "*", the same
call never returns. -/
theorem Add_star_key_breaks_Get :
    Table.Get "micro" 2 (NewTable "micro") "bar" ⟨"*"⟩
        = some ([], some RegistryError.ErrNotFound)
    ∧ (¬ ∃ fuel r, Table.Get "micro" fuel
          (Table.Add "micro" (NewTable "micro") fooA ⟨0, "*"⟩ 0).table "bar" ⟨"*"⟩ = some r)
    ∧ (("*", "bar") : String × String) ≠ (resolveDomain "micro" "*", fooA.Name) := by
  refine ⟨by decide, ?_, by decide⟩
  rintro ⟨fuel, r, h⟩
  have hkey : WildcardDomain
      ∈ (Table.Add "micro" (NewTable "micro") fooA ⟨0, "*"⟩ 0).table.records.keys := by
    rw [Add_keys]
    exact List.mem_cons_self _ _
  have h0 := Get_star_key_none "micro" _ "bar" hkey fuel
  have h1 : (none : Option (List App × Option RegistryError)) = some r := h0.symm.trans h
  cases h1

end memory

namespace selector

/-! ## The random selector -/

theorem Intn_pred (src n : Nat) (h : 2 ≤ n) :
    Intn src ((n : Int) - 1) = some (src % (n - 1)) ∧ src % (n - 1) < n - 1 := by
  unfold Intn
  have h1 : ¬ ((n : Int) - 1 ≤ 0) := by omega
  have h2 : ((n : Int) - 1).toNat = n - 1 := by omega
  rw [if_neg h1, h2]
  exact ⟨rfl, Nat.mod_lt _ (by omega)⟩

/-- With two routes or more left, `Select` returns the route at the index
`src % (n - 1)`, which is below `n - 1`. -/
theorem Select_many {Route : Type} (src : Nat) (routes : List Route)
    (filters : List (List Route → List Route))
    (h : 2 ≤ (applyFilters filters routes).length) :
    ∃ r, (applyFilters filters routes)[src % ((applyFilters filters routes).length - 1)]?
          = some r
      ∧ Select src routes filters = some (some r, none) := by
  obtain ⟨hi, hlt⟩ := Intn_pred src (applyFilters filters routes).length h
  have hlt2 : src % ((applyFilters filters routes).length - 1)
      < (applyFilters filters routes).length := by omega
  refine ⟨(applyFilters filters routes)[src % ((applyFilters filters routes).length - 1)],
    List.getElem?_eq_getElem hlt2, ?_⟩
  unfold Select
  rw [if_neg (by omega), if_neg (by omega), hi]
  simp only [Option.some_bind, List.getElem?_eq_getElem hlt2, Option.map_some']

/-- C23. With `R` the list obtained from the routes by applying the filters in
order, each to the result of the one before, so that `Select` with the filters
`f` and then `g` is `Select` on `g (f routes)` with no filter: `Select` returns
`ErrNoneAvailable` and no route exactly when `R` is empty; when `R` is the one
route `r` it returns `r` and no error; when `R` has two routes or more it
returns, for every value of the random source, without error and without
panic, the route of `R` at an index below the length of `R`, an element of
`R`. So a filter that leaves nothing gives `ErrNoneAvailable` for routes that
are there, and a filter that leaves one route has that route returned. -/
theorem C23_select (Route : Type) (src : Nat) (routes : List Route)
    (filters : List (List Route → List Route)) :
    (Select src routes filters = some (none, some SelectError.ErrNoneAvailable)
        ↔ filters.foldl (fun rs f => f rs) routes = [])
    ∧ (∀ r, filters.foldl (fun rs f => f rs) routes = [r] →
        Select src routes filters = some (some r, none))
    ∧ (2 ≤ (filters.foldl (fun rs f => f rs) routes).length →
        ∃ i r, i < (filters.foldl (fun rs f => f rs) routes).length
          ∧ (filters.foldl (fun rs f => f rs) routes)[i]? = some r
          ∧ r ∈ filters.foldl (fun rs f => f rs) routes
          ∧ Select src routes filters = some (some r, none))
    ∧ (∀ (f : List Route → List Route) (rest : List (List Route → List Route)),
        Select src routes (f :: rest) = Select src (f routes) rest)
    ∧ (∀ f g : List Route → List Route,
        Select src routes [f, g] = Select src (g (f routes)) [])
    ∧ Select src ["a", "b"] [fun _ => []] = some (none, some SelectError.ErrNoneAvailable)
    ∧ Select src ["a", "b", "c"] [fun rs => rs.drop 1, fun rs => rs.take 1]
        = some (some "b", none) := by
  have key : applyFilters filters routes = filters.foldl (fun rs f => f rs) routes := rfl
  rw [← key]
  refine ⟨?_, ?_, ?_, fun f rest => rfl, fun f g => rfl, rfl, rfl⟩
  · constructor
    · intro h
      by_contra hne
      have hlen : (applyFilters filters routes).length ≠ 0 :=
        fun h0 => hne (List.length_eq_zero.mp h0)
      by_cases h1 : (applyFilters filters routes).length = 1
      · obtain ⟨r, hr⟩ := List.length_eq_one.mp h1
        unfold Select at h
        rw [if_neg hlen, if_pos h1, hr] at h
        simp at h
      · obtain ⟨r, _, hsel⟩ := Select_many src routes filters (by omega)
        rw [hsel] at h
        simp at h
    · intro h
      unfold Select
      rw [h]
      rfl
  · intro r hr
    unfold Select
    rw [hr]
    rfl
  · intro h
    obtain ⟨r, hr, hsel⟩ := Select_many src routes filters h
    have hlt := (Intn_pred src (applyFilters filters routes).length h).2
    exact ⟨_, r, by omega, hr, List.getElem?_mem hr, hsel⟩

/-- C28. With `R` the routes left after filtering, `n ≥ 2` of them: for every
value of the random source `Select` returns the route of `R` at the index
`rand.Intn(n - 1)` yields, which is below `n - 1`, so never the index `n - 1`
of the last route; every index below `n - 1` is used for some value of the
source; and when the routes of `R` are pairwise distinct the route returned is
not the last route of `R`. -/
theorem C28_last_never_selected (Route : Type) (routes : List Route)
    (filters : List (List Route → List Route)) :
    2 ≤ (applyFilters filters routes).length →
    (∀ src : Nat, ∃ i r, Intn src (((applyFilters filters routes).length : Int) - 1) = some i
        ∧ i < (applyFilters filters routes).length - 1
        ∧ (applyFilters filters routes)[i]? = some r
        ∧ Select src routes filters = some (some r, none)
        ∧ ((applyFilters filters routes).Nodup →
            (applyFilters filters routes)[(applyFilters filters routes).length - 1]?
              ≠ some r))
    ∧ (∀ i, i < (applyFilters filters routes).length - 1 →
        ∃ src, Intn src (((applyFilters filters routes).length : Int) - 1) = some i) := by
  intro h
  constructor
  · intro src
    obtain ⟨hi, hlt⟩ := Intn_pred src (applyFilters filters routes).length h
    obtain ⟨r, hr, hsel⟩ := Select_many src routes filters h
    refine ⟨_, r, hi, hlt, hr, hsel, ?_⟩
    intro hnd hlast
    have := (List.nodup_iff_getElem?_ne_getElem?.mp hnd) _ _ hlt (by omega)
    rw [hr, hlast] at this
    exact this rfl
  · intro i hi
    refine ⟨i, ?_⟩
    have := (Intn_pred i (applyFilters filters routes).length h).1
    rw [this, Nat.mod_eq_of_lt hi]

/-- An instance of C28: of the three routes a, b, c, left as they are by the
one filter, `Select` returns a for the value 4 of the source and b for the
value 5, and no value gives the index 2 of c. -/
theorem C28_last_never_selected_witness :
    Select 4 ["a", "b", "c"] [fun rs => rs] = some (some "a", none)
    ∧ Select 5 ["a", "b", "c"] [fun rs => rs] = some (some "b", none)
    ∧ ∀ src : Nat, ∃ i r, Intn src 2 = some i ∧ i < 2
        ∧ ["a", "b", "c"][i]? = some r
        ∧ Select src ["a", "b", "c"] [fun rs => rs] = some (some r, none)
        ∧ (["a", "b", "c"].Nodup → ["a", "b", "c"][2]? ≠ some r) :=
  ⟨by decide, by decide,
   (C28_last_never_selected String ["a", "b", "c"] [fun rs => rs] (by decide)).1⟩

end selector

namespace utilregistry

/-! ## `Remove` and `delInstances` of util/registry -/

theorem foldl_keep {α : Type} (p : α → Bool) (l acc : List α) :
    l.foldl (fun nodes o => if p o then nodes else nodes ++ [o]) acc
      = acc ++ l.filter (fun o => !p o) := by
  induction l generalizing acc with
  | nil => simp
  | cons a rest ih =>
    rw [List.foldl_cons, ih]
    cases hp : p a
    · simp [hp, List.filter_cons]
    · simp [hp, List.filter_cons]

theorem delInstances_eq (old del : List memory.Instance) :
    delInstances old del = old.filter (fun o => !del.any (fun n => o.Id = n.Id)) := by
  unfold delInstances
  exact (foldl_keep (fun o : memory.Instance => del.any (fun n => decide (o.Id = n.Id)))
    old []).trans (List.nil_append _)

theorem listed_nil (v i : String) : listed [] v i = false := rfl

theorem listed_cons (s : memory.App) (rest : List memory.App) (v i : String) :
    listed (s :: rest) v i
      = ((decide (v = s.Version) && s.Instances.any (fun n => i = n.Id)) || listed rest v i) := by
  unfold listed
  rw [List.any_cons]

theorem filter_listed_of_no_match (rest : List memory.App) (v : String)
    (l : List memory.Instance) (h : rest.any (fun s => v = s.Version) = false) :
    l.filter (fun i => !listed rest v i.Id) = l := by
  apply List.filter_eq_self.mpr
  intro a _
  have : listed rest v a.Id = false := by
    unfold listed
    rw [List.any_eq_false] at h ⊢
    intro s hs
    have := h s hs
    simp only [decide_eq_true_eq] at this
    simp [this]
  rw [this]
  rfl

theorem removeOne_fold (del : List memory.App) (o : memory.App) (rem : Bool) :
    del.foldl
      (fun st s =>
        if st.1.Version = s.Version then
          (({ st.1 with Instances := delInstances st.1.Instances s.Instances } : memory.App),
           if (delInstances st.1.Instances s.Instances).length = 0 then true else st.2)
        else st) (o, rem)
      = ({ o with Instances := o.Instances.filter (fun i => !listed del o.Version i.Id) },
         rem || (del.any (fun s => o.Version = s.Version)
           && decide ((o.Instances.filter (fun i => !listed del o.Version i.Id)).length = 0))) := by
  induction del generalizing o rem with
  | nil =>
    simp only [List.foldl_nil, List.any_nil, Bool.false_and, Bool.or_false, listed_nil,
      Bool.not_false, List.filter_true]
  | cons s rest ih =>
    rw [List.foldl_cons]
    by_cases hv : o.Version = s.Version
    · simp only [hv, if_true]
      rw [ih]
      simp only [delInstances_eq, List.filter_filter, listed_cons, hv, decide_True,
        Bool.true_and, List.any_cons, Bool.true_or, Bool.not_or]
      have hfun : (fun a : memory.Instance =>
            (!listed rest s.Version a.Id && !s.Instances.any (fun n => decide (a.Id = n.Id))))
          = (fun i : memory.Instance =>
            (!s.Instances.any (fun n => decide (i.Id = n.Id)) && !listed rest s.Version i.Id)) := by
        funext a
        exact Bool.and_comm _ _
      rw [hfun]
      congr 1
      by_cases h0 : (o.Instances.filter
          (fun o => !s.Instances.any (fun n => decide (o.Id = n.Id)))).length = 0
      · have hnil := List.length_eq_zero.mp h0
        have hfin : o.Instances.filter (fun i =>
            (!s.Instances.any (fun n => decide (i.Id = n.Id)) && !listed rest s.Version i.Id))
            = [] := by
          rw [← hfun, ← List.filter_filter, hnil]
          rfl
        simp [h0, hfin]
      · simp only [h0, if_false]
        cases hany : rest.any (fun x => decide (s.Version = x.Version))
        · have hkeep := filter_listed_of_no_match rest s.Version
            (o.Instances.filter (fun o => !s.Instances.any (fun n => decide (o.Id = n.Id))))
            hany
          rw [List.filter_filter] at hkeep
          have hfun2 : (fun a : memory.Instance =>
              (!listed rest s.Version a.Id && !s.Instances.any (fun n => decide (a.Id = n.Id))))
              = (fun i : memory.Instance =>
                (!s.Instances.any (fun n => decide (i.Id = n.Id))
                  && !listed rest s.Version i.Id)) := hfun
          rw [hfun2] at hkeep
          rw [hkeep]
          simp [h0]
        · simp
    · simp only [hv, if_false]
      rw [ih]
      simp only [listed_cons, hv, decide_False, Bool.false_and, Bool.false_or, List.any_cons]

theorem removeOne_eq (del : List memory.App) (o : memory.App) :
    removeOne del o
      = ({ o with Instances := o.Instances.filter (fun i => !listed del o.Version i.Id) },
         del.any (fun s => o.Version = s.Version)
           && decide ((o.Instances.filter (fun i => !listed del o.Version i.Id)).length = 0)) := by
  unfold removeOne
  rw [removeOne_fold]
  simp

theorem foldl_keep_map {α β : Type} (f : α → Option β) (l : List α) (acc : List β) :
    l.foldl (fun out o => (f o).elim out (fun b => out ++ [b])) acc
      = acc ++ l.filterMap f := by
  induction l generalizing acc with
  | nil => simp
  | cons a rest ih =>
    rw [List.foldl_cons, ih]
    cases hf : f a
    · simp [List.filterMap_cons, hf]
    · simp [List.filterMap_cons, hf]

theorem Remove_eq (old del : List memory.App) : Remove old del = old.filterMap (removed del) := by
  unfold Remove
  have hstep : (fun (services : List memory.App) (o : memory.App) =>
        if (removeOne del o).2 then services else services ++ [(removeOne del o).1])
      = (fun out o => (removed del o).elim out (fun b => out ++ [b])) := by
    funext services o
    rw [removeOne_eq]
    unfold removed
    simp only
    split <;> rfl
  rw [hstep]
  exact (foldl_keep_map (removed del) old []).trans (List.nil_append _)

/-- C24. `delInstances(old, del)` is the list of the instances of `old` whose id
is the id of no instance of `del`, in their order. `Remove(old, del)` is, in
the order of `old`, each app of `old` with every instance removed whose id is
listed by an entry of `del` of the same version, the apps left out being
exactly those for which some entry of `del` has their version and no instance
is left. So `Remove` of foo 1.0.0 with the one instance foo-123 against foo
1.0.0 with foo-123 is empty, and `delInstances` of foo-123 and foo-321 against
foo-123 is foo-321 alone. -/
theorem C24_remove (old del : List memory.App) :
    (∀ olds dels : List memory.Instance,
        delInstances olds dels = olds.filter (fun o => !dels.any (fun n => o.Id = n.Id)))
    ∧ Remove old del = old.filterMap (removed del)
    ∧ (∀ o, removed del o = none ↔
        ((∃ s ∈ del, o.Version = s.Version)
          ∧ ∀ i ∈ o.Instances, ∃ s ∈ del, o.Version = s.Version ∧ ∃ n ∈ s.Instances, i.Id = n.Id))
    ∧ (∀ o a, removed del o = some a →
        a.Name = o.Name ∧ a.Version = o.Version ∧ a.Metadata = o.Metadata
        ∧ a.Endpoints = o.Endpoints
        ∧ a.Instances = o.Instances.filter (fun i => !listed del o.Version i.Id)
        ∧ ∀ i, i ∈ a.Instances ↔
            (i ∈ o.Instances
              ∧ ¬ ∃ s ∈ del, o.Version = s.Version ∧ ∃ n ∈ s.Instances, i.Id = n.Id))
    ∧ Remove [testOld] [testDel] = []
    ∧ delInstances testOldTwo.Instances testDel.Instances
        = [⟨"foo-321", "localhost:6666", ∅⟩] := by
  have hlisted : ∀ v i, listed del v i = true
      ↔ ∃ s ∈ del, v = s.Version ∧ ∃ n ∈ s.Instances, i = n.Id := by
    intro v i
    unfold listed
    simp [List.any_eq_true]
  refine ⟨delInstances_eq, Remove_eq old del, ?_, ?_, by decide, by decide⟩
  · intro o
    unfold removed
    constructor
    · intro h
      split at h
      · rename_i hc
        simp only [Bool.and_eq_true, List.any_eq_true, decide_eq_true_eq] at hc
        obtain ⟨hany, hlen⟩ := hc
        refine ⟨hany, ?_⟩
        intro i hi
        have hnil := List.length_eq_zero.mp hlen
        have hall := List.filter_eq_nil_iff.mp hnil i hi
        have hl : listed del o.Version i.Id = true := by
          cases hb : listed del o.Version i.Id
          · rw [hb] at hall; exact absurd rfl hall
          · rfl
        exact (hlisted _ _).mp hl
      · cases h
    · rintro ⟨hany, hall⟩
      have hnil : o.Instances.filter (fun i => !listed del o.Version i.Id) = [] := by
        apply List.filter_eq_nil_iff.mpr
        intro i hi
        rw [(hlisted _ _).mpr (hall i hi)]
        simp
      have hc : (del.any (fun s => decide (o.Version = s.Version))
          && decide ((o.Instances.filter (fun i => !listed del o.Version i.Id)).length = 0))
          = true := by
        simp only [Bool.and_eq_true, List.any_eq_true, decide_eq_true_eq]
        exact ⟨hany, by rw [hnil]; rfl⟩
      rw [if_pos hc]
  · intro o a h
    unfold removed at h
    split at h
    · cases h
    · cases h
      refine ⟨rfl, rfl, rfl, rfl, rfl, ?_⟩
      intro i
      simp only [List.mem_filter, Bool.not_eq_true', ← hlisted]
      constructor
      · rintro ⟨h1, h2⟩
        exact ⟨h1, by rw [h2]; simp⟩
      · rintro ⟨h1, h2⟩
        refine ⟨h1, ?_⟩
        cases hb : listed del o.Version i.Id
        · rfl
        · exact absurd hb h2

end utilregistry

namespace utilregistry

/-! ## `Merge` of util/registry -/

theorem addInstances_fold (old acc : List memory.Instance) :
    ∃ kept, old.foldl
        (fun nodes o => if nodes.any (fun n => o.Id = n.Id) then nodes else nodes ++ [o]) acc
        = acc ++ kept
      ∧ (∀ k ∈ kept, k ∈ old ∧ ¬ ∃ n ∈ acc, k.Id = n.Id)
      ∧ (∀ o ∈ old, ∃ n ∈ acc ++ kept, o.Id = n.Id) := by
  induction old generalizing acc with
  | nil => exact ⟨[], by simp, by simp, by simp⟩
  | cons a rest ih =>
    rw [List.foldl_cons]
    by_cases ha : (acc.any (fun n => decide (a.Id = n.Id))) = true
    · simp only [ha, if_true]
      obtain ⟨kept, h1, h2, h3⟩ := ih acc
      refine ⟨kept, h1, ?_, ?_⟩
      · intro k hk
        exact ⟨List.mem_cons_of_mem _ (h2 k hk).1, (h2 k hk).2⟩
      · intro o ho
        rcases List.mem_cons.mp ho with rfl | ho
        · obtain ⟨n, hn, hid⟩ := List.any_eq_true.mp ha
          exact ⟨n, List.mem_append_left _ hn, by simpa using hid⟩
        · exact h3 o ho
    · simp only [ha, Bool.false_eq_true, if_false]
      obtain ⟨kept, h1, h2, h3⟩ := ih (acc ++ [a])
      refine ⟨a :: kept, ?_, ?_, ?_⟩
      · rw [h1, List.append_assoc]
        rfl
      · intro k hk
        rcases List.mem_cons.mp hk with rfl | hk
        · refine ⟨List.mem_cons_self _ _, ?_⟩
          rintro ⟨n, hn, hid⟩
          apply ha
          exact List.any_eq_true.mpr ⟨n, hn, by simpa using hid⟩
        · refine ⟨List.mem_cons_of_mem _ (h2 k hk).1, ?_⟩
          rintro ⟨n, hn, hid⟩
          exact (h2 k hk).2 ⟨n, List.mem_append_left _ hn, hid⟩
      · intro o ho
        have hassoc : acc ++ a :: kept = (acc ++ [a]) ++ kept := by
          rw [List.append_assoc]
          rfl
        rw [hassoc]
        rcases List.mem_cons.mp ho with rfl | ho
        · exact ⟨o, List.mem_append_left _ (List.mem_append_right _ (List.mem_singleton_self _)),
            rfl⟩
        · exact h3 o ho

theorem Merge_nil (olist : List memory.App) : Merge olist [] = [] := rfl

/-- C27 (the code at the failing input). `Merge(olist, nlist)` with an empty
`nlist` is empty for every `olist`: the versions of `olist` are lost, as foo
1.0.0 is by `Merge([foo 1.0.0], [])`. With the versions 1.0.0 and 1.0.1 in
`olist` and 1.0.0 in `nlist` the result holds 1.0.0 alone: the loop breaks at
the match and 1.0.1 is lost. With 1.0.0 in `olist` and 1.0.1, 1.0.2 in `nlist`
the result holds 1.0.0 twice: every round of the outer loop appends the apps of
`olist` it passes. What holds is the part on the instances: `addInstances`
returns the new instances followed by the old ones whose id is not new, so
the ids are the union and the new instance wins on a common id. -/
theorem C27_merge_loses_versions :
    (∀ olist : List memory.App, Merge olist [] = [])
    ∧ Merge [testOld] [] = []
    ∧ (Merge [testOld, testOther] [testDel]).map (fun a => a.Version) = ["1.0.0"]
    ∧ (Merge [testOld] [testOther, testThird]).map (fun a => a.Version)
        = ["1.0.0", "1.0.1", "1.0.0", "1.0.2"]
    ∧ (Merge [testOldTwo] [testDel]).map (fun a => a.Instances)
        = [[⟨"foo-123", "localhost:6666", ∅⟩, ⟨"foo-321", "localhost:6666", ∅⟩]]
    ∧ (∀ old neu : List memory.Instance, ∃ kept,
        addInstances old neu = neu ++ kept
        ∧ (∀ k ∈ kept, k ∈ old ∧ ¬ ∃ n ∈ neu, k.Id = n.Id)
        ∧ (∀ o ∈ old, ∃ n ∈ addInstances old neu, o.Id = n.Id)) := by
  refine ⟨Merge_nil, rfl, by decide, by decide, by decide, ?_⟩
  intro old neu
  obtain ⟨kept, h1, h2, h3⟩ := addInstances_fold old neu
  refine ⟨kept, h1, h2, ?_⟩
  intro o ho
  unfold addInstances
  rw [h1]
  exact h3 o ho

end utilregistry
